import Mathlib

/-! # Connectivity octree and bond clustering (waterstay, `connectivity_octree.cpp`)

A shallow embedding of `src/cython/connectivity/connectivity_octree.{h,cpp}`.

* `double` is modelled by `Double`: IEEE-754 binary64 with rounding to nearest, ties to
  even, after each operation, with overflow to the infinities, subnormal numbers and NaN;
  the two zeros are one value (nothing here divides or reads a sign bit) and there is one
  NaN. No operation is fused and none is carried out in a wider format.
* `Eigen::Vector3d` is a triple of `Double`; the sum, the difference and the scalar multiple
  act on each component, and `squaredNorm` adds the three squares in the order `x`, `y`, `z`
  (the order is Eigen's; the theorems are stated through `squaredNorm`, and the sums
  evaluated in the examples below are exact in either order).
* `std::set<int>` is modelled by an ascending `List Int`, `std::map<int, std::set<int>>`
  by a `List (Int × List Int)` ascending in the key; `begin()` is the head of the list and
  iteration is in list order.
* `std::vector` is modelled by `List`.
* The recursion `addPoint → split → addPoint` and the recursion of `clusterSingleMolecule`
  take a fuel argument that bounds the depth of the call stack.
-/

namespace Geometry

/-! ## `std::set<int>` and `std::map<int, std::set<int>>` -/

/-- Model of `std::set<int>`: the elements in ascending order. -/
abbrev IntSet := List Int

/-- Model of `std::map<int, std::set<int>>`: the entries in ascending key order. -/
abbrev Bonds := List (Int × IntSet)

/-- Model of `std::set<int>::insert`: ordered insertion, nothing happens when the element is present. -/
def setInsert (a : Int) : IntSet → IntSet
  | [] => [a]
  | b :: bs =>
    if a < b then a :: b :: bs
    else if a = b then b :: bs
    else b :: setInsert a bs

/-- Model of `std::map::find`: the value stored under the key, `none` standing for `end()`. -/
def mapFind : Bonds → Int → Option IntSet
  | [], _ => none
  | (k, v) :: rest, a => if k = a then some v else mapFind rest a

/-- Model of `std::map::erase` of the entry found under a key. -/
def mapErase : Bonds → Int → Bonds
  | [], _ => []
  | (k, v) :: rest, a => if k = a then rest else (k, v) :: mapErase rest a

/-- Model of `std::map::emplace`: ordered insertion of an entry, nothing happens when the key is present. -/
def mapEmplace : Bonds → Int → IntSet → Bonds
  | [], k, v => [(k, v)]
  | (k', v') :: rest, k, v =>
    if k < k' then (k, v) :: (k', v') :: rest
    else if k = k' then (k', v') :: rest
    else (k', v') :: mapEmplace rest k v

/-- Model of `collisions.at(k).insert(x)`; the source only calls it for a key that `find` has found. -/
def mapInsertAt : Bonds → Int → Int → Bonds
  | [], _, _ => []
  | (k', v') :: rest, k, x =>
    if k' = k then (k', setInsert x v') :: rest else (k', v') :: mapInsertAt rest k x

/-- The keys of a map, in iteration order. -/
def mapKeys (m : Bonds) : List Int := m.map Prod.fst

/-! ## Clustering (`clusterSingleMolecule`, `clusterMolecules`) -/

/-- The ways in which a run of the clustering model can fail. -/
inductive ClusterError where
  /-- The lookup `bonds.find(atomIndex)` of line 15 returned `end()` and is dereferenced. -/
  | lookupFailure (atom : Int)
  /-- The fuel bounding the recursion depth was used up. -/
  | outOfFuel
  deriving DecidableEq, Repr

/-- The loop of lines 18-24 of `clusterSingleMolecule`, over a copy of the adjacency set;
`recurse` is the recursive call of line 23. -/
def clusterNeighbours (recurse : Bonds → IntSet → Int → Except ClusterError (Bonds × IntSet)) :
    Bonds → IntSet → List Int → Except ClusterError (Bonds × IntSet)
  | bonds, currentCluster, [] => .ok (bonds, currentCluster)
  | bonds, currentCluster, bondedAtom :: rest =>
    match mapFind bonds bondedAtom with
    | none => clusterNeighbours recurse bonds currentCluster rest
    | some _ =>
      match recurse bonds currentCluster bondedAtom with
      | .error e => .error e
      | .ok (bonds', currentCluster') => clusterNeighbours recurse bonds' currentCluster' rest

/-- Model of `clusterSingleMolecule` (lines 9-25); the first argument bounds the recursion depth. -/
def clusterSingleMolecule :
    Nat → Bonds → IntSet → Int → Except ClusterError (Bonds × IntSet)
  | 0, _, _, _ => .error .outOfFuel
  | fuel + 1, bonds, currentCluster, atomIndex =>
    let currentCluster :=
      if atomIndex ∈ currentCluster then currentCluster else setInsert atomIndex currentCluster
    match mapFind bonds atomIndex with
    | none => .error (.lookupFailure atomIndex)
    | some bondedAtoms =>
      clusterNeighbours (clusterSingleMolecule fuel) (mapErase bonds atomIndex) currentCluster
        bondedAtoms

/-- The `while (!bonds.empty())` loop of `clusterMolecules` (lines 30-36); the first argument
bounds the number of iterations. -/
def clusterMoleculesLoop :
    Nat → Bonds → List IntSet → Except ClusterError (Bonds × List IntSet)
  | _, [], clusters => .ok ([], clusters)
  | 0, _ :: _, _ => .error .outOfFuel
  | fuel + 1, (atomIndex, v) :: rest, clusters =>
    match clusterSingleMolecule ((atomIndex, v) :: rest).length ((atomIndex, v) :: rest) []
        atomIndex with
    | .error e => .error e
    | .ok (bonds', currentCluster) =>
      clusterMoleculesLoop fuel bonds' (clusters ++ [currentCluster])

/-- Model of `clusterMolecules` (lines 27-38): the final state of the caller's map and the
returned vector of clusters. -/
def clusterMolecules (bonds : Bonds) : Except ClusterError (Bonds × List IntSet) :=
  clusterMoleculesLoop bonds.length bonds []

/-! ## Double-precision arithmetic -/

/-- Model of `double` (IEEE-754 binary64). A finite value is given by the rational it
denotes, the two zeros being one value, and there is a single NaN. The arithmetic rounds
the exact result to the nearest binary64 value, ties to even (`Double.round`), and compares
as IEEE does: every comparison with NaN is false. -/
inductive Double where
  | nan : Double
  | negInf : Double
  | posInf : Double
  | finite (q : ℚ) : Double
  deriving DecidableEq

namespace Double

/-- The number of binary digits of `n` (`0` for `0`); the first argument bounds the number
of steps. -/
def bitLength : Nat → Nat → Nat
  | 0, _ => 0
  | fuel + 1, n => if n = 0 then 0 else bitLength fuel (n / 2) + 1

/-- The integer `e` with `2 ^ e ≤ q < 2 ^ (e + 1)`, for a positive rational `q`. -/
def floorLog2 (q : ℚ) : Int :=
  let e : Int := (bitLength q.num.toNat q.num.toNat : Int) - (bitLength q.den q.den : Int)
  if (2 : ℚ) ^ e ≤ q then e else e - 1

/-- The integer nearest to `s`, the even one of the two when `s` lies halfway. -/
def roundHalfEven (s : ℚ) : Int :=
  if s - ⌊s⌋ < 1 / 2 then ⌊s⌋
  else if 1 / 2 < s - ⌊s⌋ then ⌊s⌋ + 1
  else if ⌊s⌋ % 2 = 0 then ⌊s⌋ else ⌊s⌋ + 1

/-- The exponent of the unit in the last place of the binary64 values around the positive
rational `q`: 53 significant bits, the least exponent being that of the subnormals. -/
def ulpExp (q : ℚ) : Int := max (floorLog2 q) (-1022) - 52

/-- The multiple of the unit in the last place that is nearest to the positive rational
`q`, ties to even. -/
def roundPos (q : ℚ) : ℚ := roundHalfEven (q / 2 ^ ulpExp q) * 2 ^ ulpExp q

/-- Rounding to nearest, ties to even, of an exact result; a result of magnitude `2 ^ 1024`
overflows to an infinity. -/
def round (q : ℚ) : Double :=
  if q = 0 then finite 0
  else if 0 < q then
    if (2 : ℚ) ^ (1024 : ℤ) ≤ roundPos q then posInf else finite (roundPos q)
  else
    if (2 : ℚ) ^ (1024 : ℤ) ≤ roundPos (-q) then negInf else finite (-roundPos (-q))

/-- Unary minus. -/
def neg : Double → Double
  | nan => nan
  | negInf => posInf
  | posInf => negInf
  | finite q => finite (-q)

/-- Addition `a + b`. -/
def add : Double → Double → Double
  | finite a, finite b => round (a + b)
  | nan, _ => nan
  | _, nan => nan
  | posInf, negInf => nan
  | negInf, posInf => nan
  | posInf, _ => posInf
  | _, posInf => posInf
  | negInf, _ => negInf
  | _, negInf => negInf

/-- Subtraction `a - b`. -/
def sub (a b : Double) : Double := add a (neg b)

/-- Multiplication `a * b`. -/
def mul : Double → Double → Double
  | finite a, finite b => round (a * b)
  | nan, _ => nan
  | _, nan => nan
  | finite a, posInf => if a = 0 then nan else if 0 < a then posInf else negInf
  | finite a, negInf => if a = 0 then nan else if 0 < a then negInf else posInf
  | posInf, finite b => if b = 0 then nan else if 0 < b then posInf else negInf
  | negInf, finite b => if b = 0 then nan else if 0 < b then negInf else posInf
  | posInf, posInf => posInf
  | negInf, negInf => posInf
  | posInf, negInf => negInf
  | negInf, posInf => negInf

/-- Comparison `a < b`. -/
def blt : Double → Double → Bool
  | finite a, finite b => decide (a < b)
  | negInf, finite _ => true
  | negInf, posInf => true
  | finite _, posInf => true
  | _, _ => false

/-- Comparison `a <= b`. -/
def ble : Double → Double → Bool
  | finite a, finite b => decide (a ≤ b)
  | negInf, finite _ => true
  | negInf, posInf => true
  | finite _, posInf => true
  | negInf, negInf => true
  | posInf, posInf => true
  | _, _ => false

instance : Add Double := ⟨add⟩

instance : Sub Double := ⟨sub⟩

instance : Mul Double := ⟨mul⟩

instance : Neg Double := ⟨neg⟩

instance : LT Double := ⟨fun a b => blt a b = true⟩

instance : LE Double := ⟨fun a b => ble a b = true⟩

instance (a b : Double) : Decidable (a < b) := inferInstanceAs (Decidable (blt a b = true))

instance (a b : Double) : Decidable (a ≤ b) := inferInstanceAs (Decidable (ble a b = true))

/-- A literal `n` denotes the binary64 value nearest to `n`. -/
instance (n : Nat) : OfNat Double n := ⟨round n⟩

/-- A decimal literal denotes the binary64 value nearest to it. -/
instance : OfScientific Double := ⟨fun m s e => round (OfScientific.ofScientific m s e)⟩

/-- The value is a binary64 value: not a rational that rounding would change. -/
def IsDouble : Double → Prop
  | finite q => round q = finite q
  | _ => True

instance (x : Double) : Decidable (IsDouble x) := by
  cases x <;> unfold IsDouble <;> infer_instance

/-- The rational denoted by a finite value (`0` for the others). -/
def toRat : Double → ℚ
  | finite q => q
  | _ => 0

end Double

/-! ## Geometry -/

/-- Model of `Eigen::Vector3d`. -/
structure Vec3 where
  x : Double
  y : Double
  z : Double
  deriving DecidableEq

/-- Component access `v(i)`. -/
def Vec3.coord (v : Vec3) : Nat → Double
  | 0 => v.x
  | 1 => v.y
  | _ => v.z

/-- Assignment `v(i) = a`. -/
def Vec3.set (v : Vec3) (i : Nat) (a : Double) : Vec3 :=
  match i with
  | 0 => { v with x := a }
  | 1 => { v with y := a }
  | _ => { v with z := a }

/-- Vector sum. -/
def Vec3.add (a b : Vec3) : Vec3 := ⟨a.x + b.x, a.y + b.y, a.z + b.z⟩

/-- Vector difference. -/
def Vec3.sub (a b : Vec3) : Vec3 := ⟨a.x - b.x, a.y - b.y, a.z - b.z⟩

/-- Scalar multiple. -/
def Vec3.smul (c : Double) (a : Vec3) : Vec3 := ⟨c * a.x, c * a.y, c * a.z⟩

/-- Model of `Eigen::Vector3d::Constant`. -/
def Vec3.constant (c : Double) : Vec3 := ⟨c, c, c⟩

/-- Model of `squaredNorm`. -/
def Vec3.squaredNorm (a : Vec3) : Double := a.x * a.x + a.y * a.y + a.z * a.z

/-- Model of `struct Data`. -/
structure Data where
  index : Int
  point : Vec3
  radius : Double
  deriving DecidableEq

/-- Model of `class ConnectivityOctree`: the private members in declaration order. -/
inductive ConnectivityOctree where
  | mk (lowerBound upperBound : Vec3) (depth maxStorage maxDepth : Int)
      (children : List ConnectivityOctree) (data : List Data)

namespace ConnectivityOctree

/-- Member `_lowerBound`. -/
def lowerBound : ConnectivityOctree → Vec3
  | mk lb _ _ _ _ _ _ => lb

/-- Member `_upperBound`. -/
def upperBound : ConnectivityOctree → Vec3
  | mk _ ub _ _ _ _ _ => ub

/-- Member `_depth`. -/
def depth : ConnectivityOctree → Int
  | mk _ _ d _ _ _ _ => d

/-- Member `_maxStorage`. -/
def maxStorage : ConnectivityOctree → Int
  | mk _ _ _ s _ _ _ => s

/-- Member `_maxDepth`. -/
def maxDepth : ConnectivityOctree → Int
  | mk _ _ _ _ m _ _ => m

/-- Member `_children`. -/
def children : ConnectivityOctree → List ConnectivityOctree
  | mk _ _ _ _ _ cs _ => cs

/-- Member `_data`. -/
def data : ConnectivityOctree → List Data
  | mk _ _ _ _ _ _ ds => ds

end ConnectivityOctree

open ConnectivityOctree

/-- The two-argument constructor (lines 46-54). -/
def newOctree (lowerBound upperBound : Vec3) : ConnectivityOctree :=
  .mk lowerBound upperBound 0 10 8 [] []

/-- The five-argument constructor (lines 56-64): the initialiser list stores `10` and `8`
and does not read the last two parameters. -/
def newOctree5 (lowerBound upperBound : Vec3) (depth : Int) (_maXStorage _maxDepth : Int) :
    ConnectivityOctree :=
  .mk lowerBound upperBound depth 10 8 [] []

/-- Model of `collide` (lines 66-74). -/
def collide (t : ConnectivityOctree) (lowerBound upperBound : Vec3) : Bool :=
  [0, 1, 2].all fun i =>
    !(decide (t.upperBound.coord i < lowerBound.coord i)
      || decide (t.lowerBound.coord i > upperBound.coord i))

/-- Model of `hasChildren` (lines 76-79). -/
def hasChildren (t : ConnectivityOctree) : Bool := !t.children.isEmpty

/-- The static table `powers = {1, 2, 4}` (line 40). -/
def powers : Nat → Nat
  | 0 => 1
  | 1 => 2
  | _ => 4

/-- One pass of the loop body of `updateBoundingBox` (lines 87-89) for axis `i`. -/
def updateAxis (center : Vec3) (sector : Nat) (bounds : Vec3 × Vec3) (i : Nat) : Vec3 × Vec3 :=
  let test : Bool := (sector &&& powers i) != 0
  (bounds.1.set i (if test then center.coord i else bounds.1.coord i),
   bounds.2.set i (if test then bounds.2.coord i else center.coord i))

/-- Model of `updateBoundingBox` (lines 81-91). -/
def updateBoundingBox (t : ConnectivityOctree) (sector : Nat) : ConnectivityOctree :=
  let center := Vec3.smul 0.5 (Vec3.add t.lowerBound t.upperBound)
  let bounds := [0, 1, 2].foldl (updateAxis center sector) (t.lowerBound, t.upperBound)
  .mk bounds.1 bounds.2 t.depth t.maxStorage t.maxDepth t.children t.data

/-- The loop `for (auto &child : _children) child.addPoint(...)`, the returned flags being
discarded; `none` when a call ran out of fuel. -/
def addToChildren (add : ConnectivityOctree → Option (Bool × ConnectivityOctree)) :
    List ConnectivityOctree → Option (List ConnectivityOctree)
  | [] => some []
  | c :: cs =>
    match add c with
    | none => none
    | some (_, c') =>
      match addToChildren add cs with
      | none => none
      | some cs' => some (c' :: cs')

/-- The loop of lines 107-111 of `split`: every record of `_data` is offered to every child. -/
def redistribute (add : ConnectivityOctree → Int → Vec3 → Double → Option (Bool × ConnectivityOctree)) :
    List Data → List ConnectivityOctree → Option (List ConnectivityOctree)
  | [], cs => some cs
  | d :: ds, cs =>
    match addToChildren (fun c => add c d.index d.point d.radius) cs with
    | none => none
    | some cs' => redistribute add ds cs'

/-- Model of `split` (lines 93-114); `add` is the member function `addPoint` it calls. -/
def split (add : ConnectivityOctree → Int → Vec3 → Double → Option (Bool × ConnectivityOctree))
    (t : ConnectivityOctree) : Option ConnectivityOctree :=
  if t.depth > t.maxDepth then some t
  else
    let fresh := (List.range 8).map fun sector =>
      updateBoundingBox
        (newOctree5 t.lowerBound t.upperBound (t.depth + 1) t.maxStorage t.maxDepth) sector
    match redistribute add t.data fresh with
    | none => none
    | some cs => some (.mk t.lowerBound t.upperBound t.depth t.maxStorage t.maxDepth cs [])

/-- Model of `static_cast<size_t>` of an `int` (64-bit `size_t`). -/
def toSizeT (n : Int) : Int := n % 2 ^ 64

/-- Model of `addPoint` (lines 116-139): the returned flag and the node after the call.
The first argument bounds the depth of the call stack; `none` when it is used up. -/
def addPoint : Nat → ConnectivityOctree → Int → Vec3 → Double → Option (Bool × ConnectivityOctree)
  | 0, _, _, _, _ => none
  | fuel + 1, t, index, point, radius =>
    let extent := Vec3.constant radius
    let lb := Vec3.sub point extent
    let ub := Vec3.add point extent
    if !collide t lb ub then some (false, t)
    else if hasChildren t then
      match addToChildren (fun c => addPoint fuel c index point radius) t.children with
      | none => none
      | some cs =>
        some (true, .mk t.lowerBound t.upperBound t.depth t.maxStorage t.maxDepth cs t.data)
    else
      let data := t.data ++ [⟨index, point, radius⟩]
      let t' : ConnectivityOctree :=
        .mk t.lowerBound t.upperBound t.depth t.maxStorage t.maxDepth t.children data
      if (data.length : Int) > toSizeT t.maxStorage then
        match split (addPoint fuel) t' with
        | none => none
        | some t'' => some (true, t'')
      else some (true, t')

/-- Model of `std::set<Data>::insert`; `Data` is ordered by `index` alone, so a record whose
index is present is not inserted. -/
def dataInsert (d : Data) : List Data → List Data
  | [] => [d]
  | e :: es =>
    if d.index < e.index then d :: e :: es
    else if e.index < d.index then e :: dataInsert d es
    else e :: es

mutual
/-- Model of `getData` (lines 141-153); the set is threaded through the traversal. -/
def getData : ConnectivityOctree → List Data → List Data
  | .mk _ _ _ _ _ [] ds, out => ds.foldl (fun acc d => dataInsert d acc) out
  | .mk _ _ _ _ _ (c :: cs) _, out => getDataList (c :: cs) out
/-- The loop over `_children` in `getData`. -/
def getDataList : List ConnectivityOctree → List Data → List Data
  | [], out => out
  | c :: cs, out => getDataList cs (getData c out)
end

/-- Model of `std::set_difference` on two ascending ranges. -/
def setDifference : List Int → List Int → List Int
  | [], _ => []
  | a :: as, [] => a :: as
  | a :: as, b :: bs =>
    if a < b then a :: setDifference as (b :: bs)
    else if b < a then setDifference (a :: as) bs
    else setDifference as bs
termination_by l₁ l₂ => l₁.length + l₂.length

/-- Model of `addIsolatedAtoms` (lines 155-174). -/
def addIsolatedAtoms (t : ConnectivityOctree) (collisions : Bonds) : Bonds :=
  let data := getData t []
  let firstSet := data.foldl (fun s d => setInsert d.index s) []
  let secondSet := collisions.foldl (fun s col => setInsert col.1 s) []
  let diff := setDifference firstSet secondSet
  diff.foldl (fun m v => mapEmplace m v []) collisions

/-- The body of the inner loop of `getCollisions` (lines 194-218) for the pair `datai`, `dataj`. -/
def collidePair (tolerance : Double) (datai : Data) (collisions : Bonds) (dataj : Data) : Bonds :=
  let iti := mapFind collisions datai.index
  let skip : Bool :=
    match iti with
    | some s => decide (dataj.index ∈ s)
    | none => false
  if skip then collisions
  else
    let squaredDist := (Vec3.sub datai.point dataj.point).squaredNorm
    let bond := datai.radius + dataj.radius + tolerance
    let squaredBond := bond * bond
    if squaredDist ≤ squaredBond then
      let collisions₁ :=
        match iti with
        | none => mapEmplace collisions datai.index [dataj.index]
        | some _ => mapInsertAt collisions datai.index dataj.index
      match mapFind collisions₁ dataj.index with
      | none => mapEmplace collisions₁ dataj.index [datai.index]
      | some _ => mapInsertAt collisions₁ dataj.index datai.index
    else collisions

/-- The loops over `i < j` of `getCollisions` (lines 189-220) on the records of one leaf. -/
def leafCollisions (tolerance : Double) : Bonds → List Data → Bonds
  | collisions, [] => collisions
  | collisions, datai :: rest =>
    leafCollisions tolerance (rest.foldl (collidePair tolerance datai) collisions) rest

mutual
/-- Model of `getCollisions` (lines 176-222). -/
def getCollisions : ConnectivityOctree → Bonds → Double → Bonds
  | .mk _ _ _ _ _ [] ds, collisions, tolerance => leafCollisions tolerance collisions ds
  | .mk _ _ _ _ _ (c :: cs) _, collisions, tolerance =>
    getCollisionsList (c :: cs) collisions tolerance
/-- The loop over `_children` in `getCollisions`. -/
def getCollisionsList : List ConnectivityOctree → Bonds → Double → Bonds
  | [], collisions, _ => collisions
  | c :: cs, collisions, tolerance =>
    getCollisionsList cs (getCollisions c collisions tolerance) tolerance
end

/-- Model of `findCollisions` (lines 224-228). -/
def findCollisions (t : ConnectivityOctree) (collisions : Bonds) (tolerance : Double) : Bonds :=
  addIsolatedAtoms t (getCollisions t collisions tolerance)

/-- A caller inserting a sequence of entities into a node, the returned flags being discarded. -/
def addPoints (fuel : Nat) : ConnectivityOctree → List Data → Option ConnectivityOctree
  | t, [] => some t
  | t, d :: ds =>
    match addPoint fuel t d.index d.point d.radius with
    | none => none
    | some (_, t') => addPoints fuel t' ds

/-! ## Inputs of the scenarios -/

/-- Scenario A of the specification: spheres of radius `0.6` at `(0,0,0)`, `(1,0,0)` and
`(5,5,5)`, with ids `0`, `1`, `2`. -/
def scenarioA : List Data :=
  [⟨0, ⟨0, 0, 0⟩, 0.6⟩, ⟨1, ⟨1, 0, 0⟩, 0.6⟩, ⟨2, ⟨5, 5, 5⟩, 0.6⟩]

/-- Scenario B of the specification, `{A:{B}, B:{A,C}, C:{B}, D:{}}`, with ids `A < B < C < D`. -/
def scenarioB (A B C D : Int) : Bonds := [(A, [B]), (B, [A, C]), (C, [B]), (D, [])]

/-- Eleven points in the cube `[0,16]³`: id `0` at `(1,1,1)`, ids `1..10` at `(15,15,15)`. -/
def farApart : List Data :=
  ⟨0, ⟨1, 1, 1⟩, 0⟩ :: (List.range 10).map fun i => ⟨(i : Int) + 1, ⟨15, 15, 15⟩, 0⟩

/-- Ten points at `(1,1,1)` with ids `1..10`. -/
def tenPoints : List Data := (List.range 10).map fun i => ⟨(i : Int) + 1, ⟨1, 1, 1⟩, 0⟩

/-- Two points at distance `3`. -/
def twoPoints : List Data := [⟨0, ⟨0, 0, 0⟩, 0⟩, ⟨1, ⟨3, 0, 0⟩, 0⟩]

/-- The point lies in the box with corners `lb` and `ub`. -/
def Inside (lb ub p : Vec3) : Prop :=
  (lb.x ≤ p.x ∧ p.x ≤ ub.x) ∧ (lb.y ≤ p.y ∧ p.y ≤ ub.y) ∧ (lb.z ≤ p.z ∧ p.z ≤ ub.z)

instance (lb ub p : Vec3) : Decidable (Inside lb ub p) :=
  inferInstanceAs (Decidable (_ ∧ _ ∧ _))

/-- The sphere of the record lies in the box with corners `lb` and `ub`. -/
def Encloses (lb ub : Vec3) (e : Data) : Prop :=
  Inside lb ub (Vec3.sub e.point (Vec3.constant e.radius)) ∧
  Inside lb ub (Vec3.add e.point (Vec3.constant e.radius))

instance (lb ub : Vec3) (e : Data) : Decidable (Encloses lb ub e) :=
  inferInstanceAs (Decidable (_ ∧ _))

/-- The three coordinates are binary64 values. -/
def Vec3.IsDouble (v : Vec3) : Prop := v.x.IsDouble ∧ v.y.IsDouble ∧ v.z.IsDouble

instance (v : Vec3) : Decidable v.IsDouble := inferInstanceAs (Decidable (_ ∧ _ ∧ _))

/-- Two spheres whose exact distance `1` exceeds the exact sum of their radii, `1 - 2⁻⁵⁴`,
which `double` addition rounds to `1`. -/
def roundedApart : List Data :=
  [⟨0, ⟨0, 0, 0⟩, 0.5⟩, ⟨1, ⟨1, 0, 0⟩, .finite (1 / 2 - 1 / 2 ^ 54)⟩]

/-- The squared distance between the centres of two records as line 203 computes it. -/
def sqDist (a b : Data) : Double := (Vec3.sub a.point b.point).squaredNorm

/-- The squared bonding distance of two records as lines 204-205 compute it. -/
def sqBond (tolerance : Double) (a b : Data) : Double :=
  (a.radius + b.radius + tolerance) * (a.radius + b.radius + tolerance)

/-- The exact squared distance between the centres of two records with finite coordinates. -/
def exactSqDist (a b : Data) : ℚ :=
  (a.point.x.toRat - b.point.x.toRat) ^ 2 + (a.point.y.toRat - b.point.y.toRat) ^ 2 +
    (a.point.z.toRat - b.point.z.toRat) ^ 2

/-- The exact sum `r_a + r_b + tolerance` of finite values. -/
def exactBond (tolerance : Double) (a b : Data) : ℚ :=
  a.radius.toRat + b.radius.toRat + tolerance.toRat

/-- Specification (Scenario C and the distance property of the spec): the brute-force
all-pairs comparison. Every entity has an entry, and `b` is in the entry of `a` iff `a ≠ b`
and the squared distance of the centres is at most `(r_a + r_b + tolerance)²`, in exact
arithmetic. -/
def bruteForceCollisions (tolerance : Double) (es : List Data) : Bonds :=
  es.foldl
    (fun m a =>
      mapEmplace m a.index
        ((es.filter fun b =>
            decide (a.index ≠ b.index) &&
              decide (exactSqDist a b ≤ exactBond tolerance a b ^ 2)).foldl
          (fun s b => setInsert b.index s) []))
    []

/-- Five points of the unit cube, with ids `0..4`. -/
def fivePoints : List Data :=
  [⟨0, ⟨0, 0, 0⟩, 0⟩, ⟨1, ⟨1, 0, 0⟩, 0⟩, ⟨2, ⟨0, 1, 0⟩, 0⟩, ⟨3, ⟨0, 0, 1⟩, 0⟩,
    ⟨4, ⟨0.5, 0.5, 0.5⟩, 0.1⟩]

/-! ## Predicates and auxiliary functions of the proofs -/

/-- A bond from `x` to `y` between two live keys of the lookup function `G`. -/
def Edge (G : Int → Option IntSet) (x y : Int) : Prop :=
  ∃ s, G x = some s ∧ y ∈ s ∧ G y ≠ none

/-- The key `y` is reached from a live key satisfying `S` by a path of bonds between live keys. -/
def Reach (G : Int → Option IntSet) (S : Int → Prop) (y : Int) : Prop :=
  ∃ b, S b ∧ G b ≠ none ∧ Relation.ReflTransGen (Edge G) b y

/-- The lookup function `G'` is `G` with the keys in `D` removed. -/
def Restr (G G' : Int → Option IntSet) (D : Int → Prop) : Prop :=
  ∀ x, (D x → G' x = none) ∧ (¬ D x → G' x = G x)

/-- The specification of one depth-first exploration: the keys reached from `S` are removed
from the map and added to the cluster. -/
def Explores (m : Bonds) (cur : IntSet) (S : Int → Prop) (m' : Bonds) (cur' : IntSet) : Prop :=
  m'.Sublist m ∧ Restr (mapFind m) (mapFind m') (Reach (mapFind m) S) ∧
    ∀ x, x ∈ cur' ↔ x ∈ cur ∨ Reach (mapFind m) S x

/-- The sequence of clusters of a lookup function: each cluster is what its seed reaches in
the map that remains, and the map is empty in the end. -/
inductive ClusterSeq : (Int → Option IntSet) → List IntSet → Prop
  | nil {G : Int → Option IntSet} : (∀ x, G x = none) → ClusterSeq G []
  | cons {G G' : Int → Option IntSet} {k : Int} {c : IntSet} {cs : List IntSet} :
      G k ≠ none → (∀ x, x ∈ c ↔ Reach G (fun b => b = k) x) →
      Restr G G' (Reach G (fun b => b = k)) → ClusterSeq G' cs → ClusterSeq G (c :: cs)

/-- Every bond of a key leads to a key that lists it back. -/
def SymClosed (G : Int → Option IntSet) : Prop :=
  ∀ a b s, G a = some s → b ∈ s → ∃ s', G b = some s' ∧ a ∈ s'

/-- The bond relation of a map: `b` is in the adjacency set stored under `a`. -/
def Bonded (G : Int → Option IntSet) (a b : Int) : Prop :=
  ∃ s, G a = some s ∧ b ∈ s

/-- The test of lines 203-206: the squared distance of the centres is at most the squared
bonding distance. -/
def Close (tolerance : Double) (a b : Data) : Prop :=
  (Vec3.sub a.point b.point).squaredNorm
    ≤ (a.radius + b.radius + tolerance) * (a.radius + b.radius + tolerance)

/-- Lines 208-211 (and 213-217): record `b` in the adjacency set of `a`. -/
def addBond (m : Bonds) (a b : Int) : Bonds :=
  match mapFind m a with
  | none => mapEmplace m a [b]
  | some _ => mapInsertAt m a b

/-- The records `a` and `b` stand at two different positions of the list. -/
def PairIn (ds : List Data) (a b : Data) : Prop :=
  List.Sublist [a, b] ds ∨ List.Sublist [b, a] ds

/-- A map is symmetric when `b ∈ map[a]` iff `a ∈ map[b]`. -/
def SymMap (m : Bonds) : Prop :=
  ∀ a b, Bonded (mapFind m) a b → Bonded (mapFind m) b a

/-- The specification of a pass of the pairwise query: `m'` is `m` with the bonds `R` added,
in both directions, and with no key that is neither in `m` nor in `K`. -/
def AddsBonds (m m' : Bonds) (R : Data → Data → Prop) (K : Int → Prop) : Prop :=
  SymMap m' ∧
  (∀ x y, Bonded (mapFind m') x y ↔
    Bonded (mapFind m) x y ∨ ∃ a b, R a b ∧ x = a.index ∧ y = b.index) ∧
  (∀ x, mapFind m x ≠ none → mapFind m' x ≠ none) ∧
  (∀ x, mapFind m' x ≠ none → mapFind m x ≠ none ∨ K x)

mutual
/-- The leaves of a tree, in the order in which `getCollisions` and `getData` visit them. -/
def leafNodes : ConnectivityOctree → List ConnectivityOctree
  | .mk lb ub d s m [] ds => [.mk lb ub d s m [] ds]
  | .mk _ _ _ _ _ (c :: cs) _ => leafNodesList (c :: cs)
/-- The leaves below a list of children. -/
def leafNodesList : List ConnectivityOctree → List ConnectivityOctree
  | [] => []
  | c :: cs => leafNodes c ++ leafNodesList cs
end

/-- The record collections of the leaves of a tree. -/
def leaves (t : ConnectivityOctree) : List (List Data) := (leafNodes t).map data

/-- Some leaf of the tree holds the record `d`. -/
def Stored (t : ConnectivityOctree) (d : Data) : Prop := ∃ n ∈ leafNodes t, d ∈ n.data

/-- Some leaf of the tree holds a record with index `x`. -/
def StoredId (t : ConnectivityOctree) (x : Int) : Prop := ∃ d, Stored t d ∧ d.index = x

/-- Some record of the list has index `x`. -/
def HasIndex (l : List Data) (x : Int) : Prop := ∃ e ∈ l, e.index = x

/-- The bounding box test of `addPoint` (lines 118-123) for the record `e`. -/
def accepts (t : ConnectivityOctree) (e : Data) : Bool :=
  collide t (Vec3.sub e.point (Vec3.constant e.radius))
    (Vec3.add e.point (Vec3.constant e.radius))

/-- The eight nodes that `split` creates (lines 100-105). -/
def freshChildren (lb ub : Vec3) (d s m : Int) : List ConnectivityOctree :=
  (List.range 8).map fun sector => updateBoundingBox (newOctree5 lb ub (d + 1) s m) sector

/-- The children are related one by one. -/
def EachChild (P : ConnectivityOctree → Data → Bool → ConnectivityOctree → Prop) (e : Data)
    (cs cs' : List ConnectivityOctree) : Prop :=
  List.Forall₂ (fun c c' => ∃ b, P c e b c') cs cs'

/-- The children after the records of a list have been offered to each of them in turn. -/
inductive Redistributed (P : ConnectivityOctree → Data → Bool → ConnectivityOctree → Prop) :
    List Data → List ConnectivityOctree → List ConnectivityOctree → Prop
  | nil (cs : List ConnectivityOctree) : Redistributed P [] cs cs
  | cons {d : Data} {ds : List Data} {cs cs₁ cs₂ : List ConnectivityOctree} :
      EachChild P d cs cs₁ → Redistributed P ds cs₁ cs₂ → Redistributed P (d :: ds) cs cs₂

/-- No leaf of the tree holds two records with the same index. -/
def NodupLeaves (t : ConnectivityOctree) : Prop :=
  ∀ n ∈ leafNodes t, (n.data.map Data.index).Nodup

/-- What `addPoint` does to the records held by the leaves: nothing but the new record
appears, and no leaf gets two records with one index when the new index is fresh. -/
def KeepsRecords (t : ConnectivityOctree) (e : Data) (_b : Bool) (t' : ConnectivityOctree) :
    Prop :=
  (∀ x, Stored t' x → Stored t x ∨ x = e) ∧
  (NodupLeaves t → ¬ StoredId t e.index → NodupLeaves t')

/-- The bounding box test of `addPoint` against the box with corners `lb` and `ub`. -/
def acceptsBox (lb ub : Vec3) (e : Data) : Prop :=
  (¬ ub.x < e.point.x - e.radius ∧ ¬ lb.x > e.point.x + e.radius) ∧
  (¬ ub.y < e.point.y - e.radius ∧ ¬ lb.y > e.point.y + e.radius) ∧
  (¬ ub.z < e.point.z - e.radius ∧ ¬ lb.z > e.point.z + e.radius)

/-- Every record of non-negative radius that the box accepts is accepted by one of the nodes. -/
def Covers (lb ub : Vec3) (cs : List ConnectivityOctree) : Prop :=
  ∀ e : Data, 0 ≤ e.radius → acceptsBox lb ub e → ∃ c ∈ cs, accepts c e = true

mutual
/-- The records of every leaf have a non-negative radius and are accepted by the box of the
leaf, and the children of every other node cover its box. -/
def Good : ConnectivityOctree → Prop
  | .mk lb ub _ _ _ [] ds => ∀ x ∈ ds, 0 ≤ x.radius ∧ acceptsBox lb ub x
  | .mk lb ub _ _ _ (c :: cs) _ => Covers lb ub (c :: cs) ∧ GoodList (c :: cs)
/-- The nodes of a list are all `Good`. -/
def GoodList : List ConnectivityOctree → Prop
  | [] => True
  | c :: cs => Good c ∧ GoodList cs
end

/-- Two nodes have the same box. -/
def SameBox (t t' : ConnectivityOctree) : Prop :=
  t'.lowerBound = t.lowerBound ∧ t'.upperBound = t.upperBound

/-- The test `sector & powers[i]` of line 87. -/
def sectorTest (sector i : Nat) : Bool := (sector &&& powers i) != 0

/-- What `addPoint` does to a `Good` node when the record has a non-negative radius: the
flag tells whether the box of the node accepts the record, the box is unchanged, an accepted
record is held by a leaf afterwards and no record is lost. -/
def Retains (t : ConnectivityOctree) (e : Data) (b : Bool) (t' : ConnectivityOctree) : Prop :=
  b = accepts t e ∧ SameBox t t' ∧
  (Good t → 0 ≤ e.radius →
    Good t' ∧ (b = true → Stored t' e) ∧ ∀ x, Stored t x → Stored t' x)

mutual
/-- A bound on the depth of the call stack of `addPoint` on a node: a leaf at depth `d`
splits only when `d` does not exceed its maximum depth, and the nodes that `split` creates
have maximum depth `8`. -/
def callDepth : ConnectivityOctree → Nat
  | .mk _ _ d _ m [] _ => if d > m then 1 else 2 + (8 - d).toNat
  | .mk _ _ _ _ _ (c :: cs) _ => 1 + callDepthList (c :: cs)
/-- The largest bound among the nodes of a list. -/
def callDepthList : List ConnectivityOctree → Nat
  | [] => 0
  | c :: cs => max (callDepth c) (callDepthList cs)
end

/-- The node reached from a node by following a path of child numbers. -/
def nodeAt : ConnectivityOctree → List Nat → Option ConnectivityOctree
  | t, [] => some t
  | t, i :: path =>
    match t.children[i]? with
    | none => none
    | some c => nodeAt c path

/-- Every node of the tree satisfies `Q`. -/
def AllNodes (Q : ConnectivityOctree → Prop) (t : ConnectivityOctree) : Prop :=
  ∀ path n, nodeAt t path = some n → Q n

/-- A node has no children or eight, and holds no record when it has children. -/
def NodeShape (n : ConnectivityOctree) : Prop :=
  (n.children = [] ∨ n.children.length = 8) ∧ (n.children ≠ [] → n.data = [])

/-- A node has the limits stored by the constructors and a depth between `0` and `9`. -/
def NodeLimits (n : ConnectivityOctree) : Prop :=
  n.maxStorage = 10 ∧ n.maxDepth = 8 ∧ 0 ≤ n.depth ∧ n.depth ≤ n.maxDepth + 1

/-- Every node of `t` that has children is, at the same place, a node of `t'` that has
children. -/
def StaysInternal (t : ConnectivityOctree) (_e : Data) (_b : Bool) (t' : ConnectivityOctree) :
    Prop :=
  ∀ path n, nodeAt t path = some n → n.children ≠ [] →
    ∃ n', nodeAt t' path = some n' ∧ n'.children ≠ []

/-- Eleven coincident points at `(1,1,1)`, with ids `0..10`. -/
def coincident : List Data := (List.range 11).map fun i => ⟨(i : Int), ⟨1, 1, 1⟩, 0⟩

/-- A finite binary64 value of magnitude below `2 ^ 1023`: the sum of two such values does
not overflow. -/
def Double.Bounded : Double → Prop
  | .finite q => Double.round q = .finite q ∧ -(2 : ℚ) ^ (1023 : ℤ) < q ∧ q < (2 : ℚ) ^ (1023 : ℤ)
  | _ => False

instance (x : Double) : Decidable x.Bounded := by
  cases x <;> unfold Double.Bounded <;> infer_instance

/-- The three coordinates are finite binary64 values of magnitude below `2 ^ 1023`. -/
def Vec3.Bounded (v : Vec3) : Prop := v.x.Bounded ∧ v.y.Bounded ∧ v.z.Bounded

instance (v : Vec3) : Decidable v.Bounded := inferInstanceAs (Decidable (_ ∧ _ ∧ _))

/-- A finite binary64 value. -/
def Double.IsFinite : Double → Prop
  | .finite q => Double.round q = .finite q
  | _ => False

instance (x : Double) : Decidable x.IsFinite := by
  cases x <;> unfold Double.IsFinite <;> infer_instance

/-- The three coordinates are finite binary64 values. -/
def Vec3.IsFinite (v : Vec3) : Prop := v.x.IsFinite ∧ v.y.IsFinite ∧ v.z.IsFinite

instance (v : Vec3) : Decidable v.IsFinite := inferInstanceAs (Decidable (_ ∧ _ ∧ _))

/-- The box and the depth of a node. -/
def header (t : ConnectivityOctree) : Vec3 × Vec3 × Int := (t.lowerBound, t.upperBound, t.depth)

/-- A call of `addPoint` leaves the box and the depth of the node as they are. -/
def KeepsHeader (t : ConnectivityOctree) (_e : Data) (_b : Bool) (t' : ConnectivityOctree) :
    Prop :=
  header t' = header t

/-- The lower corner is below the upper corner on each axis. -/
def Ordered (lb ub : Vec3) : Prop := lb.x ≤ ub.x ∧ lb.y ≤ ub.y ∧ lb.z ≤ ub.z

instance (lb ub : Vec3) : Decidable (Ordered lb ub) :=
  inferInstanceAs (Decidable (_ ∧ _ ∧ _))

/-- The corners are finite binary64 values and, on each axis, the sum `lower + upper`
computed for the centre does not overflow. -/
def NoOverflow (lb ub : Vec3) : Prop :=
  lb.IsFinite ∧ ub.IsFinite ∧
  (lb.x + ub.x).IsFinite ∧ (lb.y + ub.y).IsFinite ∧ (lb.z + ub.z).IsFinite

instance (lb ub : Vec3) : Decidable (NoOverflow lb ub) :=
  inferInstanceAs (Decidable (_ ∧ _ ∧ _ ∧ _ ∧ _))

/-- The `while` loop of `clusterMolecules` (lines 30-36), where each cluster is recorded
together with the `atomIndex` of line 33 it is grown from and with the keys that are in
the map when that `atomIndex` is taken. -/
def clusterMoleculesSeeded :
    Nat → Bonds → List (Int × List Int × IntSet) →
      Except ClusterError (Bonds × List (Int × List Int × IntSet))
  | _, [], out => .ok ([], out)
  | 0, _ :: _, _ => .error .outOfFuel
  | fuel + 1, (atomIndex, v) :: rest, out =>
    match clusterSingleMolecule ((atomIndex, v) :: rest).length ((atomIndex, v) :: rest) []
        atomIndex with
    | .error e => .error e
    | .ok (bonds', currentCluster) =>
      clusterMoleculesSeeded fuel bonds'
        (out ++ [(atomIndex, mapKeys ((atomIndex, v) :: rest), currentCluster)])

/-- What holds of the clusters recorded with their seeds, for a map with the keys `keys`:
each seed is the smallest of the keys that were in the map when it was taken, these keys are
among `keys`, the cluster consists of such keys, and every later seed, with every id of its
cluster, is greater. -/
def SeedsAscend (keys : List Int) (tr : List (Int × List Int × IntSet)) : Prop :=
  (∀ a ∈ tr, a.1 ∈ a.2.1 ∧ (∀ x ∈ a.2.1, a.1 ≤ x) ∧ (∀ x ∈ a.2.1, x ∈ keys) ∧
    a.1 ∈ a.2.2 ∧ ∀ x ∈ a.2.2, x ∈ a.2.1) ∧
  tr.Pairwise (fun a b => a.1 < b.1 ∧ ∀ x ∈ b.2.1, a.1 < x)

/-- The box of the node `c` lies in the box with corners `lb` and `ub`. -/
def BoxIn (lb ub : Vec3) (c : ConnectivityOctree) : Prop :=
  (lb.x ≤ c.lowerBound.x ∧ c.upperBound.x ≤ ub.x) ∧
  (lb.y ≤ c.lowerBound.y ∧ c.upperBound.y ≤ ub.y) ∧
  (lb.z ≤ c.lowerBound.z ∧ c.upperBound.z ≤ ub.z)

mutual
/-- The leaves below a node, each with the boxes on the way from it up to the root: the box
of the leaf first, then the boxes of the nodes above it, and last the boxes `above` the
node. -/
def leafPathsFrom (above : List (Vec3 × Vec3)) :
    ConnectivityOctree → List (List (Vec3 × Vec3) × ConnectivityOctree)
  | .mk lb ub d s m [] ds => [((lb, ub) :: above, .mk lb ub d s m [] ds)]
  | .mk lb ub _ _ _ (c :: cs) _ => leafPathsFromList ((lb, ub) :: above) (c :: cs)
/-- The leaves below a list of children, each with the boxes on the way up. -/
def leafPathsFromList (above : List (Vec3 × Vec3)) :
    List ConnectivityOctree → List (List (Vec3 × Vec3) × ConnectivityOctree)
  | [] => []
  | c :: cs => leafPathsFrom above c ++ leafPathsFromList above cs
end

/-- The leaves of a tree, in the order of `leafNodes`, each with its own box followed by the
boxes of the nodes above it up to the root. -/
def leafPaths (t : ConnectivityOctree) : List (List (Vec3 × Vec3) × ConnectivityOctree) :=
  leafPathsFrom [] t

/-- The record passes the bounding box test of `addPoint` against each of the boxes. -/
def AcceptedBy (boxes : List (Vec3 × Vec3)) (e : Data) : Prop :=
  ∀ b ∈ boxes, acceptsBox b.1 b.2 e

/-- Every record held by a leaf below the node passes the bounding box test of that leaf and
of every node above it. -/
def HeldIn (above : List (Vec3 × Vec3)) (t : ConnectivityOctree) : Prop :=
  ∀ p ∈ leafPathsFrom above t, ∀ x ∈ p.2.data, AcceptedBy p.1 x

/-- The leaves below the node that hold the record `x` are those for which the record passes
the bounding box test of the leaf and of every node above it. -/
def RepIn (above : List (Vec3 × Vec3)) (t : ConnectivityOctree) (x : Data) : Prop :=
  ∀ p ∈ leafPathsFrom above t, (x ∈ p.2.data ↔ AcceptedBy p.1 x)

/-- What `addPoint` does below boxes that accept the offered record, in a tree whose leaves
hold only records accepted on the whole way up: the tree stays such a tree, the offered
record is replicated afterwards, and every record that was replicated before still is. -/
def PathReplicates (t : ConnectivityOctree) (e : Data) (_b : Bool) (t' : ConnectivityOctree) :
    Prop :=
  SameBox t t' ∧
  ∀ above, AcceptedBy above e → HeldIn above t →
    HeldIn above t' ∧ RepIn above t' e ∧ ∀ x, RepIn above t x → RepIn above t' x

/-- The children of the node, when it has any, cover its box; and when its corners are
ordered and bounded, the boxes of its children lie in its box and have ordered and bounded
corners. -/
def NodeBoxes (n : ConnectivityOctree) : Prop :=
  (n.children ≠ [] → Covers n.lowerBound n.upperBound n.children) ∧
  (n.lowerBound.Bounded → n.upperBound.Bounded → Ordered n.lowerBound n.upperBound →
    ∀ c ∈ n.children, BoxIn n.lowerBound n.upperBound c ∧
      c.lowerBound.Bounded ∧ c.upperBound.Bounded ∧ Ordered c.lowerBound c.upperBound)

/-- A call of `addPoint` keeps the box of the node and the property `NodeBoxes` of all
nodes. -/
def KeepsBoxes (t : ConnectivityOctree) (_e : Data) (_b : Bool) (t' : ConnectivityOctree) :
    Prop :=
  SameBox t t' ∧ (AllNodes NodeBoxes t → AllNodes NodeBoxes t')

/-- A sphere of radius `2⁻⁵³` centred at `x = 1 + 2⁻⁵²`, whose exact bounding box starts at
`x = 1 + 2⁻⁵³` while the one computed in `double` starts at `x = 1`, followed by ten points
at `(0.25, 1.5, 1.5)` with ids `1..10`. -/
def roundedEdge : List Data :=
  ⟨0, ⟨.finite (1 + 1 / 2 ^ 52), 0.5, 0.5⟩, .finite (1 / 2 ^ 53)⟩ ::
    (List.range 10).map fun i => ⟨(i : Int) + 1, ⟨0.25, 1.5, 1.5⟩, 0⟩

/-- The bounding boxes that `addPoint` computes for the two records overlap on each axis. -/
def BoxesMeet (a b : Data) : Prop :=
  (¬ a.point.x + a.radius < b.point.x - b.radius ∧
    ¬ b.point.x + b.radius < a.point.x - a.radius) ∧
  (¬ a.point.y + a.radius < b.point.y - b.radius ∧
    ¬ b.point.y + b.radius < a.point.y - a.radius) ∧
  (¬ a.point.z + a.radius < b.point.z - b.radius ∧
    ¬ b.point.z + b.radius < a.point.z - a.radius)

instance (a b : Data) : Decidable (BoxesMeet a b) :=
  inferInstanceAs (Decidable (_ ∧ _ ∧ _))

/-- The point lies in the bounding box that `addPoint` computes for the record. -/
def InBox (e : Data) (q : Vec3) : Prop :=
  Inside (Vec3.sub e.point (Vec3.constant e.radius))
    (Vec3.add e.point (Vec3.constant e.radius)) q

instance (e : Data) (q : Vec3) : Decidable (InBox e q) :=
  inferInstanceAs (Decidable (Inside _ _ _))

/-- Two spheres in one leaf that touch in exact arithmetic, the squared distance
`1 + 2⁻⁵²` being below `(1 + 2⁻⁵³)²`, while the sum of the radii computed in `double` is
`1`. -/
def roundedTouch : List Data :=
  [⟨0, ⟨0, 0, 0⟩, 1⟩, ⟨1, ⟨1, .finite (1 / 2 ^ 26), 0⟩, .finite (1 / 2 ^ 53)⟩]

/-- Two spheres on either side of the plane `x = 0`, whose bounding boxes end at
`x = -2⁻⁶⁰` and start at `x = 2⁻⁵³`, while the distance and the sum of the radii computed
in `double` are both `1`; then nine points at `(-1.5, -1.5, -1.5)` with ids `2..10`. -/
def splitApart : List Data :=
  [⟨0, ⟨.finite (-(1 / 2 ^ 54 + 1 / 2 ^ 60)), 1, 1⟩, .finite (1 / 2 ^ 54)⟩,
   ⟨1, ⟨1, 1, 1⟩, .finite (1 - 1 / 2 ^ 53)⟩] ++
    (List.range 9).map fun i => ⟨(i : Int) + 2, ⟨-1.5, -1.5, -1.5⟩, 0⟩

/-! ## Rounding to binary64 -/

namespace Double

theorem bitLength_zero (fuel : Nat) : bitLength fuel 0 = 0 := by
  cases fuel <;> simp [bitLength]

theorem bitLength_spec : ∀ (fuel n : Nat), n < 2 ^ fuel → 0 < n →
    2 ^ (bitLength fuel n - 1) ≤ n ∧ n < 2 ^ bitLength fuel n ∧ 0 < bitLength fuel n := by
  intro fuel
  induction fuel with
  | zero =>
    intro n h hn
    simp at h
    omega
  | succ fuel ih =>
    intro n h hn
    have hn0 : n ≠ 0 := by omega
    simp only [bitLength, hn0, if_false]
    by_cases h2 : n / 2 = 0
    · have h1 : n = 1 := by omega
      subst h1
      simp [bitLength_zero]
    · have hlt : n / 2 < 2 ^ fuel := by
        rw [pow_succ] at h
        omega
      obtain ⟨ha, hb, hc⟩ := ih (n / 2) hlt (by omega)
      refine ⟨?_, ?_, by omega⟩
      · have : bitLength fuel (n / 2) + 1 - 1 = (bitLength fuel (n / 2) - 1) + 1 := by omega
        rw [this, pow_succ]
        omega
      · rw [pow_succ]
        omega

theorem log2_bounds (n d : ℕ) (hn0 : 0 < n) (hden : 0 < d) :
    (2 : ℚ) ^ ((bitLength n n : ℤ) - bitLength d d - 1) ≤ (n : ℚ) / d ∧
    (n : ℚ) / d < (2 : ℚ) ^ ((bitLength n n : ℤ) - bitLength d d + 1) := by
  obtain ⟨a1, a2, a3⟩ := bitLength_spec n n (Nat.lt_two_pow n) hn0
  obtain ⟨b1, b2, b3⟩ := bitLength_spec d d (Nat.lt_two_pow d) hden
  have hd0 : (0 : ℚ) < d := by exact_mod_cast hden
  have hA1 : (2 : ℚ) ^ ((bitLength n n : ℤ) - 1) ≤ n := by
    have : ((bitLength n n : ℤ) - 1) = ((bitLength n n - 1 : ℕ) : ℤ) := by omega
    rw [this, zpow_natCast]
    exact_mod_cast a1
  have hA2 : (n : ℚ) < (2 : ℚ) ^ (bitLength n n : ℤ) := by
    rw [zpow_natCast]
    exact_mod_cast a2
  have hB1 : (2 : ℚ) ^ ((bitLength d d : ℤ) - 1) ≤ d := by
    have : ((bitLength d d : ℤ) - 1) = ((bitLength d d - 1 : ℕ) : ℤ) := by omega
    rw [this, zpow_natCast]
    exact_mod_cast b1
  have hB2 : (d : ℚ) < (2 : ℚ) ^ (bitLength d d : ℤ) := by
    rw [zpow_natCast]
    exact_mod_cast b2
  have h2 : (0 : ℚ) < 2 := by norm_num
  constructor
  · rw [le_div_iff₀ hd0]
    calc (2 : ℚ) ^ ((bitLength n n : ℤ) - bitLength d d - 1) * d
        ≤ (2 : ℚ) ^ ((bitLength n n : ℤ) - bitLength d d - 1)
            * (2 : ℚ) ^ (bitLength d d : ℤ) :=
          mul_le_mul_of_nonneg_left hB2.le (zpow_nonneg h2.le _)
      _ = (2 : ℚ) ^ ((bitLength n n : ℤ) - 1) := by
          rw [← zpow_add₀ (by norm_num : (2 : ℚ) ≠ 0)]
          congr 1
          ring
      _ ≤ n := hA1
  · rw [div_lt_iff₀ hd0]
    calc (n : ℚ) < (2 : ℚ) ^ (bitLength n n : ℤ) := hA2
      _ = (2 : ℚ) ^ ((bitLength n n : ℤ) - bitLength d d + 1)
            * (2 : ℚ) ^ ((bitLength d d : ℤ) - 1) := by
          rw [← zpow_add₀ (by norm_num : (2 : ℚ) ≠ 0)]
          congr 1
          ring
      _ ≤ (2 : ℚ) ^ ((bitLength n n : ℤ) - bitLength d d + 1) * d :=
          mul_le_mul_of_nonneg_left hB1 (zpow_nonneg h2.le _)

theorem floorLog2_spec (q : ℚ) (hq : 0 < q) :
    (2 : ℚ) ^ floorLog2 q ≤ q ∧ q < (2 : ℚ) ^ (floorLog2 q + 1) := by
  have hnum : 0 < q.num := Rat.num_pos.2 hq
  obtain ⟨n, hn⟩ : ∃ n : ℕ, q.num = n := ⟨q.num.toNat, (Int.toNat_of_nonneg hnum.le).symm⟩
  have hn0 : 0 < n := by
    have : (0 : ℤ) < n := hn ▸ hnum
    exact_mod_cast this
  have hqn : (n : ℚ) / (q.den : ℚ) = q := by
    have := Rat.num_div_den q
    rw [hn, Int.cast_natCast] at this
    exact this
  obtain ⟨hlow, hhigh⟩ := log2_bounds n q.den hn0 q.den_pos
  rw [hqn] at hlow hhigh
  have hnn : q.num.toNat = n := by
    rw [hn]
    simp
  unfold floorLog2
  simp only [hnn]
  split_ifs with h
  · exact ⟨h, hhigh⟩
  · refine ⟨hlow, ?_⟩
    have : (bitLength n n : ℤ) - bitLength q.den q.den - 1 + 1
        = (bitLength n n : ℤ) - bitLength q.den q.den := by ring
    rw [this]
    exact lt_of_not_le h

theorem zpow_two_lt {a b : ℤ} (h : (2 : ℚ) ^ a < (2 : ℚ) ^ b) : a < b := by
  by_contra hba
  have : (2 : ℚ) ^ b ≤ (2 : ℚ) ^ a := zpow_le_zpow_right₀ (by norm_num) (not_lt.1 hba)
  exact absurd h (not_lt.2 this)

theorem floorLog2_unique (q : ℚ) (hq : 0 < q) (e : ℤ) (h1 : (2 : ℚ) ^ e ≤ q)
    (h2 : q < (2 : ℚ) ^ (e + 1)) : floorLog2 q = e := by
  obtain ⟨f1, f2⟩ := floorLog2_spec q hq
  have ha : floorLog2 q < e + 1 := zpow_two_lt (lt_of_le_of_lt f1 h2)
  have hb : e < floorLog2 q + 1 := zpow_two_lt (lt_of_le_of_lt h1 f2)
  omega

theorem floorLog2_mono {x y : ℚ} (hx : 0 < x) (hxy : x ≤ y) : floorLog2 x ≤ floorLog2 y := by
  obtain ⟨x1, _⟩ := floorLog2_spec x hx
  obtain ⟨_, y2⟩ := floorLog2_spec y (lt_of_lt_of_le hx hxy)
  have := zpow_two_lt (lt_of_le_of_lt (le_trans x1 hxy) y2)
  omega

end Double

namespace Double

theorem roundHalfEven_near (s : ℚ) :
    s - 1 / 2 ≤ (roundHalfEven s : ℚ) ∧ (roundHalfEven s : ℚ) ≤ s + 1 / 2 := by
  have h1 := Int.floor_le s
  have h2 := Int.lt_floor_add_one s
  unfold roundHalfEven
  split_ifs with a b c
  · constructor <;> linarith
  · push_cast
    constructor <;> linarith
  · constructor <;> linarith
  · push_cast
    constructor <;> linarith

theorem roundHalfEven_mono {s t : ℚ} (h : s ≤ t) : roundHalfEven s ≤ roundHalfEven t := by
  rcases eq_or_lt_of_le h with rfl | hlt
  · exact le_refl _
  · by_contra hc
    have hc' : roundHalfEven t + 1 ≤ roundHalfEven s := by omega
    have hq : (roundHalfEven t : ℚ) + 1 ≤ roundHalfEven s := by exact_mod_cast hc'
    have := (roundHalfEven_near s).2
    have := (roundHalfEven_near t).1
    linarith

theorem roundHalfEven_intCast (n : ℤ) : roundHalfEven (n : ℚ) = n := by
  unfold roundHalfEven
  simp

theorem roundHalfEven_natCast (n : ℕ) : roundHalfEven (n : ℚ) = n := by
  have := roundHalfEven_intCast (n : ℤ)
  simpa using this

theorem ulpExp_mono {x y : ℚ} (hx : 0 < x) (hxy : x ≤ y) : ulpExp x ≤ ulpExp y := by
  have := floorLog2_mono hx hxy
  unfold ulpExp
  omega

theorem two_zpow_pos (e : ℤ) : (0 : ℚ) < (2 : ℚ) ^ e := zpow_pos (by norm_num) e

theorem roundPos_nonneg {q : ℚ} (hq : 0 < q) : 0 ≤ roundPos q := by
  unfold roundPos
  have h0 : roundHalfEven 0 ≤ roundHalfEven (q / 2 ^ ulpExp q) :=
    roundHalfEven_mono (div_nonneg hq.le (two_zpow_pos _).le)
  have : roundHalfEven (0 : ℚ) = 0 := by simpa using roundHalfEven_intCast 0
  rw [this] at h0
  exact mul_nonneg (by exact_mod_cast h0) (two_zpow_pos _).le

/-- A positive rational below a power of two that is a multiple of the unit in the last
place rounds to at most that power. -/
theorem roundPos_le_zpow {q : ℚ} (k : ℤ) (hk : ulpExp q ≤ k)
    (h : q ≤ (2 : ℚ) ^ k) : roundPos q ≤ (2 : ℚ) ^ k := by
  unfold roundPos
  obtain ⟨m, hm⟩ : ∃ m : ℕ, k - ulpExp q = m := ⟨(k - ulpExp q).toNat, by omega⟩
  have hdiv : q / 2 ^ ulpExp q ≤ ((2 ^ m : ℕ) : ℚ) := by
    rw [div_le_iff₀ (two_zpow_pos _)]
    push_cast
    rw [← zpow_natCast, ← hm, ← zpow_add₀ (by norm_num : (2 : ℚ) ≠ 0)]
    simpa using h
  have hr := roundHalfEven_mono hdiv
  rw [roundHalfEven_natCast] at hr
  have hr' : (roundHalfEven (q / 2 ^ ulpExp q) : ℚ) ≤ ((2 ^ m : ℕ) : ℚ) := by exact_mod_cast hr
  calc (roundHalfEven (q / 2 ^ ulpExp q) : ℚ) * 2 ^ ulpExp q
      ≤ ((2 ^ m : ℕ) : ℚ) * 2 ^ ulpExp q :=
        mul_le_mul_of_nonneg_right hr' (two_zpow_pos _).le
    _ = (2 : ℚ) ^ k := by
        push_cast
        rw [← zpow_natCast, ← hm, ← zpow_add₀ (by norm_num : (2 : ℚ) ≠ 0)]
        simp

/-- A positive rational above a power of two that is a multiple of the unit in the last
place rounds to at least that power. -/
theorem zpow_le_roundPos {q : ℚ} (k : ℤ) (hk : ulpExp q ≤ k)
    (h : (2 : ℚ) ^ k ≤ q) : (2 : ℚ) ^ k ≤ roundPos q := by
  unfold roundPos
  obtain ⟨m, hm⟩ : ∃ m : ℕ, k - ulpExp q = m := ⟨(k - ulpExp q).toNat, by omega⟩
  have hdiv : ((2 ^ m : ℕ) : ℚ) ≤ q / 2 ^ ulpExp q := by
    rw [le_div_iff₀ (two_zpow_pos _)]
    push_cast
    rw [← zpow_natCast, ← hm, ← zpow_add₀ (by norm_num : (2 : ℚ) ≠ 0)]
    simpa using h
  have hr := roundHalfEven_mono hdiv
  rw [roundHalfEven_natCast] at hr
  have hr' : ((2 ^ m : ℕ) : ℚ) ≤ (roundHalfEven (q / 2 ^ ulpExp q) : ℚ) := by exact_mod_cast hr
  calc (2 : ℚ) ^ k = ((2 ^ m : ℕ) : ℚ) * 2 ^ ulpExp q := by
        push_cast
        rw [← zpow_natCast, ← hm, ← zpow_add₀ (by norm_num : (2 : ℚ) ≠ 0)]
        simp
    _ ≤ (roundHalfEven (q / 2 ^ ulpExp q) : ℚ) * 2 ^ ulpExp q :=
        mul_le_mul_of_nonneg_right hr' (two_zpow_pos _).le

theorem roundPos_mono {x y : ℚ} (hx : 0 < x) (hxy : x ≤ y) : roundPos x ≤ roundPos y := by
  have hy : 0 < y := lt_of_lt_of_le hx hxy
  have hE := ulpExp_mono hx hxy
  rcases eq_or_lt_of_le hE with heq | hlt
  · unfold roundPos
    rw [heq]
    have := roundHalfEven_mono (div_le_div_of_nonneg_right hxy (two_zpow_pos (ulpExp y)).le)
    exact mul_le_mul_of_nonneg_right (by exact_mod_cast this) (two_zpow_pos _).le
  · obtain ⟨_, x2⟩ := floorLog2_spec x hx
    obtain ⟨y1, _⟩ := floorLog2_spec y hy
    unfold ulpExp at hlt
    have hfl : floorLog2 x + 1 ≤ floorLog2 y := by omega
    have hxB : x ≤ (2 : ℚ) ^ floorLog2 y :=
      le_trans x2.le (zpow_le_zpow_right₀ (by norm_num) hfl)
    have h1 : roundPos x ≤ (2 : ℚ) ^ floorLog2 y :=
      roundPos_le_zpow _ (by unfold ulpExp; omega) hxB
    have h2 : (2 : ℚ) ^ floorLog2 y ≤ roundPos y :=
      zpow_le_roundPos _ (by unfold ulpExp; omega) y1
    exact le_trans h1 h2

theorem round_ne_nan (q : ℚ) : round q ≠ nan := by
  unfold round
  split_ifs <;> simp

/-- Rounding is monotone. -/
theorem round_mono {x y : ℚ} (h : x ≤ y) : round x ≤ round y := by
  show ble (round x) (round y) = true
  have hp : ∀ q : ℚ, 0 < q → 0 ≤ roundPos q := fun q hq => roundPos_nonneg hq
  unfold round
  by_cases hx0 : x = 0
  · subst hx0
    by_cases hy0 : y = 0
    · subst hy0
      simp [ble]
    · have hy : 0 < y := lt_of_le_of_ne h (Ne.symm hy0)
      have := hp y hy
      simp only [if_true, hy0, if_false, hy]
      split_ifs <;> simp [ble, this]
  · by_cases hx : 0 < x
    · have hy : 0 < y := lt_of_lt_of_le hx h
      have hm := roundPos_mono hx h
      simp only [hx0, if_false, hx, if_true, hy.ne', hy]
      split_ifs with a b b
      · simp [ble]
      · exact absurd (le_trans a hm) b
      · simp [ble]
      · simp [ble, hm]
    · have hxn : 0 < -x := by
        have := lt_of_le_of_ne (not_lt.1 hx) hx0
        linarith
      have hnx := hp (-x) hxn
      by_cases hy0 : y = 0
      · subst hy0
        simp only [hx0, if_false, hx, if_true]
        split_ifs <;> simp [ble, hnx]
      · by_cases hy : 0 < y
        · have hny := hp y hy
          simp only [hx0, if_false, hx, hy0, hy, if_true]
          split_ifs
          all_goals first | (simp [ble]; linarith) | simp [ble]
        · have hyn : 0 < -y := by
            have := lt_of_le_of_ne (not_lt.1 hy) hy0
            linarith
          have hm := roundPos_mono hyn (by linarith : -y ≤ -x)
          simp only [hx0, if_false, hx, hy0, hy]
          split_ifs with a b b
          · simp [ble]
          · simp [ble]
          · exact absurd (le_trans b hm) a
          · simp [ble, hm]

end Double

namespace Double

/-- A positive rational is a multiple of the unit in its last place exactly when rounding
leaves it as it is. -/
theorem roundPos_eq_self_iff {q : ℚ} :
    roundPos q = q ↔ ∃ n : ℤ, q = n * (2 : ℚ) ^ ulpExp q := by
  constructor
  · intro h
    exact ⟨roundHalfEven (q / 2 ^ ulpExp q), h.symm⟩
  · rintro ⟨n, hn⟩
    unfold roundPos
    have : q / 2 ^ ulpExp q = n := by
      rw [div_eq_iff (two_zpow_pos _).ne']
      exact hn
    rw [this, roundHalfEven_intCast]
    exact hn.symm

theorem round_pos {q : ℚ} (hq : 0 < q) :
    round q = if (2 : ℚ) ^ (1024 : ℤ) ≤ roundPos q then posInf else finite (roundPos q) := by
  unfold round
  simp [hq.ne', hq]

theorem round_neg (q : ℚ) : round (-q) = neg (round q) := by
  unfold round
  by_cases h0 : q = 0
  · subst h0
    simp [neg]
  · by_cases hq : 0 < q
    · have h1 : ¬ 0 < -q := by linarith
      have h2 : -q ≠ 0 := by simpa using h0
      simp only [h0, h2, h1, hq, if_false, if_true, neg_neg]
      split_ifs <;> simp [neg]
    · have h1 : 0 < -q := by
        have := lt_of_le_of_ne (not_lt.1 hq) h0
        linarith
      have h2 : -q ≠ 0 := by simpa using h0
      simp only [h0, h2, h1, hq, if_false, if_true]
      split_ifs <;> simp [neg]

theorem round_zero : round 0 = finite 0 := by
  simp [round]

theorem round_eq_finite_pos {q : ℚ} (hq : 0 < q) :
    round q = finite q ↔ roundPos q = q ∧ q < (2 : ℚ) ^ (1024 : ℤ) := by
  rw [round_pos hq]
  constructor
  · intro h
    split_ifs at h with a
    simp only [finite.injEq] at h
    exact ⟨h, by rw [h] at a; exact lt_of_not_le a⟩
  · rintro ⟨h1, h2⟩
    rw [h1, if_neg (not_le.2 h2)]

/-- The result of rounding a positive rational is a multiple of the unit in its own last
place. -/
theorem roundPos_on_grid {q : ℚ} (hq : 0 < q) (hr : 0 < roundPos q) :
    roundPos (roundPos q) = roundPos q := by
  rw [roundPos_eq_self_iff]
  obtain ⟨q1, q2⟩ := floorLog2_spec q hq
  have hle : roundPos q ≤ (2 : ℚ) ^ max (floorLog2 q + 1) (ulpExp q) :=
    roundPos_le_zpow _ (le_max_right _ _)
      (le_trans q2.le (zpow_le_zpow_right₀ (by norm_num) (le_max_left _ _)))
  obtain ⟨r1, r2⟩ := floorLog2_spec (roundPos q) hr
  have hfl : floorLog2 (roundPos q) ≤ max (floorLog2 q + 1) (ulpExp q) := by
    have := zpow_two_lt (lt_of_le_of_lt (le_trans r1 hle)
      (zpow_lt_zpow_right₀ (by norm_num : (1 : ℚ) < 2)
        (lt_add_one (max (floorLog2 q + 1) (ulpExp q)))))
    omega
  by_cases hcase : ulpExp (roundPos q) ≤ ulpExp q
  · obtain ⟨m, hm⟩ : ∃ m : ℕ, ulpExp q - ulpExp (roundPos q) = m :=
      ⟨(ulpExp q - ulpExp (roundPos q)).toNat, by omega⟩
    refine ⟨roundHalfEven (q / 2 ^ ulpExp q) * 2 ^ m, ?_⟩
    push_cast
    rw [mul_assoc, ← zpow_natCast, ← hm, ← zpow_add₀ (by norm_num : (2 : ℚ) ≠ 0)]
    simp [roundPos]
  · have hfl' : floorLog2 (roundPos q) = floorLog2 q + 1 := by
      unfold ulpExp at hcase hfl
      omega
    have hmax : max (floorLog2 q + 1) (ulpExp q) = floorLog2 q + 1 := by
      unfold ulpExp at hcase hfl ⊢
      omega
    have hnorm : -1022 < floorLog2 q + 1 := by
      unfold ulpExp at hcase
      omega
    rw [hmax] at hle
    have heq : roundPos q = (2 : ℚ) ^ (floorLog2 q + 1) :=
      le_antisymm hle (hfl' ▸ r1)
    refine ⟨2 ^ 52, ?_⟩
    have hu : ulpExp (roundPos q) = floorLog2 q + 1 - 52 := by
      unfold ulpExp
      rw [hfl']
      omega
    have e : (2 : ℚ) ^ (floorLog2 q + 1)
        = (2 : ℚ) ^ (52 : ℤ) * (2 : ℚ) ^ (floorLog2 q + 1 - 52) := by
      rw [← zpow_add₀ (by norm_num : (2 : ℚ) ≠ 0)]
      congr 1
      ring
    rw [hu, heq, e]
    congr 1
    norm_num

theorem isDouble_round_pos {q : ℚ} (hq : 0 < q) : IsDouble (round q) := by
  rw [round_pos hq]
  split_ifs with a
  · trivial
  · show round (roundPos q) = finite (roundPos q)
    rcases eq_or_lt_of_le (roundPos_nonneg hq) with h0 | hr
    · rw [← h0, round_zero]
    · rw [round_eq_finite_pos hr]
      exact ⟨roundPos_on_grid hq hr, lt_of_not_le a⟩

theorem isDouble_neg {x : Double} (h : IsDouble x) : IsDouble (neg x) := by
  cases x with
  | nan => trivial
  | negInf => trivial
  | posInf => trivial
  | finite q =>
    show round (-q) = finite (-q)
    rw [round_neg, show round q = finite q from h]
    rfl

/-- Rounding returns a binary64 value. -/
theorem isDouble_round (q : ℚ) : IsDouble (round q) := by
  rcases lt_trichotomy q 0 with h | h | h
  · have := isDouble_neg (isDouble_round_pos (by linarith : 0 < -q))
    rw [← round_neg, neg_neg] at this
    exact this
  · subst h
    rw [round_zero]
    exact round_zero
  · exact isDouble_round_pos h

theorem isDouble_add (a b : Double) : IsDouble (a + b) := by
  show IsDouble (add a b)
  cases a <;> cases b <;> simp only [add] <;> first | trivial | exact isDouble_round _

theorem isDouble_mul (a b : Double) : IsDouble (a * b) := by
  show IsDouble (mul a b)
  cases a <;> cases b <;> simp only [mul] <;>
    first | trivial | exact isDouble_round _ | (split_ifs <;> trivial)

theorem isDouble_sub (a b : Double) : IsDouble (a - b) := isDouble_add a (neg b)

/-- Twice a binary64 value of magnitude below `2 ^ 1023` is a binary64 value. -/
theorem round_double_pos {q : ℚ} (hq : 0 < q) (h : round q = finite q)
    (hb : q < (2 : ℚ) ^ (1023 : ℤ)) : round (2 * q) = finite (2 * q) := by
  have h2q : 0 < 2 * q := by linarith
  rw [round_eq_finite_pos hq] at h
  rw [round_eq_finite_pos h2q]
  obtain ⟨n, hn⟩ := roundPos_eq_self_iff.1 h.1
  obtain ⟨q1, q2⟩ := floorLog2_spec q hq
  have hfl : floorLog2 (2 * q) = floorLog2 q + 1 := by
    apply floorLog2_unique _ h2q
    · rw [zpow_add_one₀ (by norm_num : (2 : ℚ) ≠ 0)]
      linarith
    · rw [zpow_add_one₀ (by norm_num : (2 : ℚ) ≠ 0)]
      linarith
  constructor
  · rw [roundPos_eq_self_iff]
    by_cases hc : ulpExp (2 * q) = ulpExp q
    · refine ⟨2 * n, ?_⟩
      rw [hc]
      push_cast
      rw [mul_assoc, ← hn]
    · have hc' : ulpExp (2 * q) = ulpExp q + 1 := by
        unfold ulpExp at hc ⊢
        rw [hfl] at hc ⊢
        omega
      refine ⟨n, ?_⟩
      rw [hc', zpow_add_one₀ (by norm_num : (2 : ℚ) ≠ 0)]
      rw [mul_comm ((2 : ℚ) ^ ulpExp q) 2, ← mul_assoc, mul_comm (n : ℚ) 2, mul_assoc, ← hn]
  · have : (2 : ℚ) ^ (1024 : ℤ) = 2 * (2 : ℚ) ^ (1023 : ℤ) := by norm_num
    rw [this]
    linarith

theorem round_double {q : ℚ} (h : round q = finite q) (h1 : -(2 : ℚ) ^ (1023 : ℤ) < q)
    (h2 : q < (2 : ℚ) ^ (1023 : ℤ)) : round (2 * q) = finite (2 * q) := by
  rcases lt_trichotomy q 0 with hq | hq | hq
  · have hn : round (-q) = finite (-q) := by
      rw [round_neg, h]
      rfl
    have := round_double_pos (by linarith : 0 < -q) hn (by linarith)
    have h3 : round (2 * q) = neg (round (2 * -q)) := by
      rw [← round_neg]
      congr 1
      ring
    rw [h3, this]
    simp [neg]
  · subst hq
    simpa using round_zero
  · exact round_double_pos hq h h2

end Double

/-! ## Comparison and arithmetic of `Double` -/

namespace Double

theorem lt_iff_blt (a b : Double) : a < b ↔ blt a b = true := Iff.rfl

theorem le_iff_ble (a b : Double) : a ≤ b ↔ ble a b = true := Iff.rfl

theorem zero_eq : (0 : Double) = finite 0 := round_zero

theorem half_eq : (0.5 : Double) = finite (1 / 2) := by decide!

theorem add_def (a b : Double) : a + b = add a b := rfl

theorem sub_def (a b : Double) : a - b = add a (neg b) := rfl

theorem mul_def (a b : Double) : a * b = mul a b := rfl

theorem dlt_irrefl (a : Double) : ¬ a < a := by
  cases a <;> simp [lt_iff_blt, blt]

theorem dlt_asymm {a b : Double} (h : a < b) : ¬ b < a := by
  cases a <;> cases b <;> simp_all [lt_iff_blt, blt]
  exact le_of_lt h

theorem dlt_trans {a b c : Double} (h : a < b) (h' : b < c) : a < c := by
  cases a <;> cases b <;> cases c <;> simp_all [lt_iff_blt, blt]
  exact lt_trans h h'

theorem dle_trans {a b c : Double} (h : a ≤ b) (h' : b ≤ c) : a ≤ c := by
  cases a <;> cases b <;> cases c <;> simp_all [le_iff_ble, ble]
  exact le_trans h h'

theorem dlt_of_lt_of_le {a b c : Double} (h : a < b) (h' : b ≤ c) : a < c := by
  cases a <;> cases b <;> cases c <;> simp_all [lt_iff_blt, le_iff_ble, blt, ble]
  exact lt_of_lt_of_le h h'

theorem dlt_of_le_of_lt {a b c : Double} (h : a ≤ b) (h' : b < c) : a < c := by
  cases a <;> cases b <;> cases c <;> simp_all [lt_iff_blt, le_iff_ble, blt, ble]
  exact lt_of_le_of_lt h h'

theorem not_dlt_of_le {a b : Double} (h : a ≤ b) : ¬ b < a := by
  cases a <;> cases b <;> simp_all [lt_iff_blt, le_iff_ble, blt, ble]

theorem dle_of_lt {a b : Double} (h : a < b) : a ≤ b := by
  cases a <;> cases b <;> simp_all [lt_iff_blt, le_iff_ble, blt, ble]
  exact le_of_lt h

theorem dle_of_not_lt {a b : Double} (ha : a ≠ nan) (hb : b ≠ nan) (h : ¬ b < a) : a ≤ b := by
  cases a <;> cases b <;> simp_all [lt_iff_blt, le_iff_ble, blt, ble]

theorem dle_refl {a : Double} (ha : a ≠ nan) : a ≤ a := by
  cases a <;> simp_all [le_iff_ble, ble]

theorem ne_nan_of_le {a b : Double} (h : a ≤ b) : a ≠ nan ∧ b ≠ nan := by
  cases a <;> cases b <;> simp_all [le_iff_ble, ble]

theorem ne_nan_of_lt {a b : Double} (h : a < b) : a ≠ nan ∧ b ≠ nan := by
  cases a <;> cases b <;> simp_all [lt_iff_blt, blt]

/-- A value that is not NaN lies above the smaller or below the larger of two values. -/
theorem dlt_cotrans {a b : Double} (c : Double) (hc : c ≠ nan) (h : a < b) :
    a < c ∨ c < b := by
  cases a <;> cases b <;> cases c <;> simp_all [lt_iff_blt, blt]
  rename_i x y z
  rcases lt_or_le x z with h1 | h1
  · exact Or.inl h1
  · exact Or.inr (lt_of_le_of_lt h1 h)

theorem zero_le_iff (r : Double) : 0 ≤ r ↔ r = posInf ∨ ∃ q, r = finite q ∧ 0 ≤ q := by
  rw [zero_eq]
  cases r <;> simp [le_iff_ble, ble]

/-- The bounding box `[p - r, p + r]` computed for a radius `r >= 0` is not inverted. -/
theorem not_add_lt_sub (p r : Double) (hr : 0 ≤ r) : ¬ p + r < p - r := by
  rw [zero_le_iff] at hr
  rw [add_def, sub_def]
  rcases hr with rfl | ⟨q, rfl, hq⟩
  · cases p <;> simp [add, neg, lt_iff_blt, blt]
  · cases p with
    | nan => simp [add, neg, lt_iff_blt, blt]
    | negInf => simp [add, neg, lt_iff_blt, blt]
    | posInf => simp [add, neg, lt_iff_blt, blt]
    | finite p =>
      simp only [add, neg]
      exact not_dlt_of_le (round_mono (by linarith))

/-- The lower corner `p - r` computed for a radius `r >= 0` is not above a bound of `p`. -/
theorem not_lt_sub (u p r : Double) (hp : IsDouble p) (hr : 0 ≤ r) (hu : p ≤ u) :
    ¬ u < p - r := by
  rw [zero_le_iff] at hr
  rw [sub_def]
  rcases hr with rfl | ⟨q, rfl, hq⟩
  · cases p <;> cases u <;> simp_all [add, neg, lt_iff_blt, le_iff_ble, blt, ble]
  · cases p with
    | nan => simp [add, neg, lt_iff_blt, blt]
    | negInf => cases u <;> simp [add, neg, lt_iff_blt, blt]
    | posInf => cases u <;> simp_all [add, neg, lt_iff_blt, le_iff_ble, blt, ble]
    | finite p =>
      simp only [add, neg]
      have h1 : round (p + -q) ≤ round p := round_mono (by linarith)
      rw [show round p = finite p from hp] at h1
      exact not_dlt_of_le (dle_trans h1 hu)

/-- The upper corner `p + r` computed for a radius `r >= 0` is not below a bound of `p`. -/
theorem not_add_lt (l p r : Double) (hp : IsDouble p) (hr : 0 ≤ r) (hl : l ≤ p) :
    ¬ p + r < l := by
  rw [zero_le_iff] at hr
  rw [add_def]
  rcases hr with rfl | ⟨q, rfl, hq⟩
  · cases p <;> cases l <;> simp_all [add, lt_iff_blt, le_iff_ble, blt, ble]
  · cases p with
    | nan => simp [add, lt_iff_blt, blt]
    | negInf => cases l <;> simp_all [add, lt_iff_blt, le_iff_ble, blt, ble]
    | posInf => cases l <;> simp [add, lt_iff_blt, blt]
    | finite p =>
      simp only [add]
      have h1 : round p ≤ round (p + q) := round_mono (by linarith)
      rw [show round p = finite p from hp] at h1
      exact not_dlt_of_le (dle_trans hl h1)

end Double

namespace Double

theorem sub_swap (a b : Double) : a - b = neg (b - a) := by
  rw [sub_def, sub_def]
  cases a <;> cases b <;> try rfl
  rename_i x y
  show round (x + -y) = neg (round (y + -x))
  rw [← round_neg]
  congr 1
  ring

theorem mul_neg_neg (x : Double) : neg x * neg x = x * x := by
  rw [mul_def, mul_def]
  cases x <;> try rfl
  rename_i q
  show round (-q * -q) = round (q * q)
  rw [neg_mul_neg]

theorem add_swap (a b : Double) : a + b = b + a := by
  rw [add_def, add_def]
  cases a <;> cases b <;> try rfl
  rename_i x y
  show round (x + y) = round (y + x)
  rw [add_comm]

end Double

namespace Double

theorem dadd_le_add (s t1 t2 : Double) (h : t1 ≤ t2) (h0 : 0 ≤ s + t1) :
    s + t1 ≤ s + t2 := by
  rw [zero_eq] at h0
  rw [add_def] at h0
  rw [add_def, add_def]
  cases s <;> cases t1 <;> cases t2 <;> simp_all [le_iff_ble, ble, add]
  all_goals first
    | exact round_mono (by linarith)
    | (rename_i x y
       have hn := round_ne_nan (x + y)
       revert hn
       cases round (x + y) <;> simp [ble])

theorem dmul_self_le (b1 b2 : Double) (h0 : 0 ≤ b1) (h : b1 ≤ b2) :
    b1 * b1 ≤ b2 * b2 := by
  rw [zero_eq] at h0
  rw [mul_def, mul_def]
  cases b1 <;> cases b2 <;> simp_all [le_iff_ble, ble, mul]
  all_goals first
    | exact round_mono (mul_self_le_mul_self h0 h)
    | (rename_i x
       have hn := round_ne_nan (x * x)
       revert hn
       cases round (x * x) <;> simp [ble])

end Double

/-! ## Lemmas on the container models -/

theorem mem_setInsert (a x : Int) (s : IntSet) : x ∈ setInsert a s ↔ x = a ∨ x ∈ s := by
  induction s with
  | nil => simp [setInsert]
  | cons b bs ih =>
    unfold setInsert
    split_ifs with h1 h2
    · simp
    · subst h2; simp
    · simp [ih]; tauto

theorem mapFind_eq_none_iff (m : Bonds) (a : Int) : mapFind m a = none ↔ a ∉ mapKeys m := by
  induction m with
  | nil => simp [mapFind, mapKeys]
  | cons e rest ih =>
    obtain ⟨k, v⟩ := e
    unfold mapFind
    by_cases h : k = a
    · simp [h, mapKeys]
    · simp only [h, if_false, ih]
      simp [mapKeys, Ne.symm h]

theorem mapFind_isSome_iff (m : Bonds) (a : Int) : (mapFind m a).isSome ↔ a ∈ mapKeys m := by
  rw [← not_iff_not, ← mapFind_eq_none_iff]
  cases mapFind m a <;> simp

theorem mapErase_sublist (m : Bonds) (a : Int) : (mapErase m a).Sublist m := by
  induction m with
  | nil => simp [mapErase]
  | cons e rest ih =>
    obtain ⟨k, v⟩ := e
    unfold mapErase
    split_ifs
    · exact List.sublist_cons_self _ _
    · exact ih.cons₂ _

theorem mapErase_length (m : Bonds) (a : Int) (h : mapFind m a ≠ none) :
    (mapErase m a).length + 1 = m.length := by
  induction m with
  | nil => simp [mapFind] at h
  | cons e rest ih =>
    obtain ⟨k, v⟩ := e
    unfold mapErase
    unfold mapFind at h
    split_ifs with hk
    · simp
    · simp only [hk, if_false] at h
      simp [ih h]

theorem mapFind_mapErase (m : Bonds) (a x : Int) (hm : (mapKeys m).Nodup) :
    mapFind (mapErase m a) x = if x = a then none else mapFind m x := by
  induction m with
  | nil => simp [mapErase, mapFind]
  | cons e rest ih =>
    obtain ⟨k, v⟩ := e
    have hm' : (mapKeys rest).Nodup := (List.nodup_cons.1 hm).2
    have hk : k ∉ mapKeys rest := (List.nodup_cons.1 hm).1
    unfold mapErase
    by_cases hka : k = a
    · subst hka
      simp only [if_true]
      by_cases hx : x = k
      · subst hx; simp [(mapFind_eq_none_iff rest x).2 hk]
      · simp [hx, mapFind, Ne.symm hx]
    · simp only [hka, if_false]
      unfold mapFind
      by_cases hkx : k = x
      · subst hkx; simp [hka]
      · simp only [hkx, if_false]; exact ih hm'

theorem nodup_keys_of_sublist {m m' : Bonds} (h : m'.Sublist m) (hm : (mapKeys m).Nodup) :
    (mapKeys m').Nodup :=
  (h.map Prod.fst).nodup hm

/-! ## Reachability in a bond map seen as a lookup function -/

theorem Restr.congr_set {G G' : Int → Option IntSet} {D D' : Int → Prop}
    (h : Restr G G' D) (hD : ∀ x, D x ↔ D' x) : Restr G G' D' := by
  intro x
  rw [← hD x]
  exact h x

theorem Restr.comp {G G₁ G₂ : Int → Option IntSet} {D₁ D₂ : Int → Prop}
    (h₁ : Restr G G₁ D₁) (h₂ : Restr G₁ G₂ D₂) : Restr G G₂ (fun x => D₁ x ∨ D₂ x) := by
  intro x
  constructor
  · rintro (h | h)
    · by_cases h' : D₂ x
      · exact (h₂ x).1 h'
      · rw [(h₂ x).2 h']; exact (h₁ x).1 h
    · exact (h₂ x).1 h
  · intro h
    have h' := not_or.1 h
    rw [(h₂ x).2 h'.2, (h₁ x).2 h'.1]

theorem Restr.live_of {G G' : Int → Option IntSet} {D : Int → Prop} (h : Restr G G' D) {x : Int}
    (hx : G' x ≠ none) : ¬ D x ∧ G x ≠ none := by
  by_cases hD : D x
  · exact absurd ((h x).1 hD) hx
  · exact ⟨hD, by rw [← (h x).2 hD]; exact hx⟩

theorem Restr.edge {G G' : Int → Option IntSet} {D : Int → Prop} (h : Restr G G' D) {x y : Int}
    (hxy : Edge G' x y) : Edge G x y := by
  obtain ⟨s, hs, hy, hl⟩ := hxy
  have hx : G' x ≠ none := by rw [hs]; simp
  refine ⟨s, ?_, hy, (h.live_of hl).2⟩
  rw [← (h x).2 (h.live_of hx).1]; exact hs

theorem Restr.path_mono {G G' : Int → Option IntSet} {D : Int → Prop} (h : Restr G G' D) {x y : Int}
    (hxy : Relation.ReflTransGen (Edge G') x y) : Relation.ReflTransGen (Edge G) x y :=
  Relation.ReflTransGen.mono (fun _ _ e => h.edge e) hxy

theorem Edge.live_right {G : Int → Option IntSet} {x y : Int} (h : Edge G x y) : G y ≠ none := by
  obtain ⟨_, _, _, hl⟩ := h
  exact hl

theorem path_live {G : Int → Option IntSet} {x y : Int} (hx : G x ≠ none)
    (h : Relation.ReflTransGen (Edge G) x y) : G y ≠ none := by
  induction h with
  | refl => exact hx
  | tail _ e _ => exact e.live_right

theorem Reach.live_end {G : Int → Option IntSet} {S : Int → Prop} {y : Int} (h : Reach G S y) :
    G y ≠ none := by
  obtain ⟨b, _, hb, hp⟩ := h
  exact path_live hb hp

theorem Reach.step {G : Int → Option IntSet} {S : Int → Prop} {y z : Int} (h : Reach G S y)
    (e : Edge G y z) : Reach G S z := by
  obtain ⟨b, hS, hb, hp⟩ := h
  exact ⟨b, hS, hb, hp.tail e⟩

/-- A path that starts outside a set closed under bonds either enters the set or is a path of
the restricted map. -/
theorem path_split {G G' : Int → Option IntSet} {D : Int → Prop} (h : Restr G G' D)
    (hcl : ∀ y z, D y → Edge G y z → D z) {x y : Int}
    (hp : Relation.ReflTransGen (Edge G) x y) :
    D y ∨ (¬ D y ∧ Relation.ReflTransGen (Edge G') x y) := by
  induction hp with
  | refl =>
    by_cases hD : D x
    · exact Or.inl hD
    · exact Or.inr ⟨hD, Relation.ReflTransGen.refl⟩
  | tail hp' e ih =>
    rename_i b c
    rcases ih with hb | ⟨hb, hpb⟩
    · exact Or.inl (hcl _ _ hb e)
    · by_cases hc : D c
      · exact Or.inl hc
      · refine Or.inr ⟨hc, hpb.tail ?_⟩
        obtain ⟨s, hs, hcs, hl⟩ := e
        refine ⟨s, ?_, hcs, ?_⟩
        · rw [(h b).2 hb]; exact hs
        · rw [(h c).2 hc]; exact hl

/-- Removing what is reached from `S₁` and then exploring from `S₂` reaches what is reached
from `S₁` or `S₂`. -/
theorem reach_union {G G' : Int → Option IntSet} {S₁ S₂ : Int → Prop}
    (h : Restr G G' (Reach G S₁)) (y : Int) :
    Reach G (fun b => S₁ b ∨ S₂ b) y ↔ Reach G S₁ y ∨ Reach G' S₂ y := by
  constructor
  · rintro ⟨b, hS | hS, hb, hp⟩
    · exact Or.inl ⟨b, hS, hb, hp⟩
    · rcases path_split h (fun y z hy e => hy.step e) hp with hD | ⟨hD, hp'⟩
      · exact Or.inl hD
      · right
        refine ⟨b, hS, ?_, hp'⟩
        have hbD : ¬ Reach G S₁ b := by
          rintro ⟨b₁, hS₁, hb₁, hp₁⟩
          exact hD ⟨b₁, hS₁, hb₁, hp₁.trans hp⟩
        rw [(h b).2 hbD]; exact hb
  · rintro (⟨b, hS, hb, hp⟩ | ⟨b, hS, hb, hp⟩)
    · exact ⟨b, Or.inl hS, hb, hp⟩
    · exact ⟨b, Or.inr hS, (h.live_of hb).2, h.path_mono hp⟩

/-- What is reached from a live key `a` is `a` itself and what its neighbours reach once `a`
is removed. -/
theorem reach_single {G G₁ : Int → Option IntSet} {a : Int} {s : IntSet} (ha : G a = some s)
    (h : Restr G G₁ (fun x => x = a)) (y : Int) :
    Reach G (fun b => b = a) y ↔ y = a ∨ Reach G₁ (fun b => b ∈ s) y := by
  constructor
  · rintro ⟨b, rfl, hb, hp⟩
    induction hp with
    | refl => exact Or.inl rfl
    | tail hp' e ih =>
      rename_i c d
      by_cases hd : d = b
      · exact Or.inl hd
      · right
        have hdl : G₁ d ≠ none := by rw [(h d).2 hd]; exact e.live_right
        rcases ih with hc | hc
        · subst hc
          obtain ⟨s', hs', hds, _⟩ := e
          rw [ha] at hs'
          cases hs'
          exact ⟨d, hds, hdl, Relation.ReflTransGen.refl⟩
        · have hcl : G₁ c ≠ none := hc.live_end
          refine hc.step ?_
          obtain ⟨s', hs', hds, _⟩ := e
          exact ⟨s', by rw [(h c).2 (h.live_of hcl).1]; exact hs', hds, hdl⟩
  · rintro (rfl | ⟨b, hS, hb, hp⟩)
    · exact ⟨y, rfl, by rw [ha]; simp, Relation.ReflTransGen.refl⟩
    · refine ⟨a, rfl, by rw [ha]; simp, ?_⟩
      exact Relation.ReflTransGen.head ⟨s, ha, hS, (h.live_of hb).2⟩ (h.path_mono hp)

theorem Reach.congr_start {G : Int → Option IntSet} {S S' : Int → Prop} (hS : ∀ b, S b ↔ S' b)
    (y : Int) : Reach G S y ↔ Reach G S' y := by
  constructor
  · rintro ⟨b, h, r⟩
    exact ⟨b, (hS b).1 h, r⟩
  · rintro ⟨b, h, r⟩
    exact ⟨b, (hS b).2 h, r⟩

theorem Reach.self {G : Int → Option IntSet} {k : Int} (hk : G k ≠ none) :
    Reach G (fun b => b = k) k :=
  ⟨k, rfl, hk, Relation.ReflTransGen.refl⟩

/-! ## Termination of the clustering -/

theorem clusterNeighbours_ok
    (recurse : Bonds → IntSet → Int → Except ClusterError (Bonds × IntSet)) (n : Nat)
    (hrec : ∀ m cur a, m.length ≤ n → mapFind m a ≠ none →
      ∃ m' cur', recurse m cur a = .ok (m', cur') ∧ m'.length ≤ m.length) :
    ∀ (ns : List Int) (m : Bonds) (cur : IntSet), m.length ≤ n →
      ∃ m' cur', clusterNeighbours recurse m cur ns = .ok (m', cur') ∧ m'.length ≤ m.length := by
  intro ns
  induction ns with
  | nil =>
    intro m cur _
    exact ⟨m, cur, rfl, le_refl _⟩
  | cons b rest ih =>
    intro m cur hm
    unfold clusterNeighbours
    cases hb : mapFind m b with
    | none => exact ih m cur hm
    | some s =>
      obtain ⟨m₁, cur₁, h₁, hl₁⟩ := hrec m cur b hm (by rw [hb]; simp)
      obtain ⟨m₂, cur₂, h₂, hl₂⟩ := ih m₁ cur₁ (le_trans hl₁ hm)
      refine ⟨m₂, cur₂, ?_, le_trans hl₂ hl₁⟩
      simp only [h₁, h₂]

theorem clusterSingleMolecule_ok :
    ∀ (fuel : Nat) (m : Bonds) (cur : IntSet) (a : Int), m.length ≤ fuel → mapFind m a ≠ none →
      ∃ m' cur', clusterSingleMolecule fuel m cur a = .ok (m', cur') ∧ m'.length < m.length := by
  intro fuel
  induction fuel with
  | zero =>
    intro m cur a hm ha
    have : m = [] := List.length_eq_zero.1 (Nat.le_zero.1 hm)
    subst this
    simp [mapFind] at ha
  | succ fuel ih =>
    intro m cur a hm ha
    unfold clusterSingleMolecule
    cases hs : mapFind m a with
    | none => exact absurd hs ha
    | some s =>
      have hlen := mapErase_length m a ha
      obtain ⟨m', cur', h, hl⟩ :=
        clusterNeighbours_ok (clusterSingleMolecule fuel) fuel
          (fun m cur a hm ha => by
            obtain ⟨m', cur', h, hl⟩ := ih m cur a hm ha
            exact ⟨m', cur', h, le_of_lt hl⟩)
          s (mapErase m a) (if a ∈ cur then cur else setInsert a cur) (by omega)
      exact ⟨m', cur', h, by omega⟩

theorem clusterMoleculesLoop_ok :
    ∀ (fuel : Nat) (m : Bonds) (acc : List IntSet), m.length ≤ fuel →
      ∃ cs, clusterMoleculesLoop fuel m acc = .ok ([], cs) := by
  intro fuel
  induction fuel with
  | zero =>
    intro m acc hm
    have : m = [] := List.length_eq_zero.1 (Nat.le_zero.1 hm)
    subst this
    exact ⟨acc, rfl⟩
  | succ fuel ih =>
    intro m acc hm
    cases m with
    | nil => exact ⟨acc, by unfold clusterMoleculesLoop; rfl⟩
    | cons e rest =>
      obtain ⟨k, v⟩ := e
      obtain ⟨m', cur', h, hl⟩ :=
        clusterSingleMolecule_ok ((k, v) :: rest).length ((k, v) :: rest) [] k (le_refl _)
          (by simp [mapFind])
      obtain ⟨cs, hcs⟩ := ih m' (acc ++ [cur']) (by simp at hl hm; omega)
      refine ⟨cs, ?_⟩
      unfold clusterMoleculesLoop
      simp only [h, hcs]

/-! ## What the clustering computes -/

theorem clusterNeighbours_spec
    (recurse : Bonds → IntSet → Int → Except ClusterError (Bonds × IntSet))
    (hrec : ∀ m cur a m' cur', (mapKeys m).Nodup → recurse m cur a = .ok (m', cur') →
      Explores m cur (fun b => b = a) m' cur') :
    ∀ (ns : List Int) (m : Bonds) (cur : IntSet) (m' : Bonds) (cur' : IntSet),
      (mapKeys m).Nodup → clusterNeighbours recurse m cur ns = .ok (m', cur') →
      Explores m cur (fun b => b ∈ ns) m' cur' := by
  intro ns
  induction ns with
  | nil =>
    intro m cur m' cur' _ h
    simp only [clusterNeighbours, Except.ok.injEq, Prod.mk.injEq] at h
    obtain ⟨rfl, rfl⟩ := h
    have hno : ∀ x, ¬ Reach (mapFind m) (fun b => b ∈ ([] : List Int)) x := by
      rintro x ⟨b, hb, _⟩
      simp at hb
    refine ⟨List.Sublist.refl _, fun x => ⟨fun hx => absurd hx (hno x), fun _ => rfl⟩, ?_⟩
    intro x
    exact ⟨Or.inl, fun hx => hx.elim id (fun hr => absurd hr (hno x))⟩
  | cons b rest ih =>
    intro m cur m' cur' hm h
    unfold clusterNeighbours at h
    cases hb : mapFind m b with
    | none =>
      simp only [hb] at h
      obtain ⟨hsub, hre, hcur⟩ := ih m cur m' cur' hm h
      have hiff : ∀ y, Reach (mapFind m) (fun x => x ∈ rest) y ↔
          Reach (mapFind m) (fun x => x ∈ b :: rest) y := by
        intro y
        constructor
        · rintro ⟨c, hc, r⟩
          exact ⟨c, List.mem_cons_of_mem _ hc, r⟩
        · rintro ⟨c, hc, hl, r⟩
          rcases List.mem_cons.1 hc with rfl | hc
          · exact absurd hb hl
          · exact ⟨c, hc, hl, r⟩
      exact ⟨hsub, hre.congr_set hiff, fun x => by rw [hcur x, hiff x]⟩
    | some s =>
      simp only [hb] at h
      cases h₁ : recurse m cur b with
      | error e => simp [h₁] at h
      | ok r =>
        obtain ⟨m₁, cur₁⟩ := r
        simp only [h₁] at h
        obtain ⟨hsub₁, hre₁, hcur₁⟩ := hrec m cur b m₁ cur₁ hm h₁
        obtain ⟨hsub₂, hre₂, hcur₂⟩ :=
          ih m₁ cur₁ m' cur' (nodup_keys_of_sublist hsub₁ hm) h
        have hiff : ∀ y, (Reach (mapFind m) (fun x => x = b) y ∨
            Reach (mapFind m₁) (fun x => x ∈ rest) y) ↔
            Reach (mapFind m) (fun x => x ∈ b :: rest) y := by
          intro y
          rw [← reach_union hre₁ y]
          exact Reach.congr_start (fun c => by simp) y
        refine ⟨hsub₂.trans hsub₁, (hre₁.comp hre₂).congr_set hiff, fun x => ?_⟩
        rw [hcur₂ x, hcur₁ x, ← hiff x, or_assoc]

theorem clusterSingleMolecule_spec :
    ∀ (fuel : Nat) (m : Bonds) (cur : IntSet) (a : Int) (m' : Bonds) (cur' : IntSet),
      (mapKeys m).Nodup → clusterSingleMolecule fuel m cur a = .ok (m', cur') →
      Explores m cur (fun b => b = a) m' cur' := by
  intro fuel
  induction fuel with
  | zero =>
    intro m cur a m' cur' _ h
    simp [clusterSingleMolecule] at h
  | succ fuel ih =>
    intro m cur a m' cur' hm h
    unfold clusterSingleMolecule at h
    cases hs : mapFind m a with
    | none => simp [hs] at h
    | some s =>
      simp only [hs] at h
      have hsub₁ := mapErase_sublist m a
      obtain ⟨hsub, hre, hcur⟩ :=
        clusterNeighbours_spec (clusterSingleMolecule fuel) ih s (mapErase m a) _ m' cur'
          (nodup_keys_of_sublist hsub₁ hm) h
      have hre₁ : Restr (mapFind m) (mapFind (mapErase m a)) (fun x => x = a) := by
        intro x
        rw [mapFind_mapErase m a x hm]
        constructor
        · intro hx; simp [hx]
        · intro hx; simp [hx]
      have hiff : ∀ y, (y = a ∨ Reach (mapFind (mapErase m a)) (fun x => x ∈ s) y) ↔
          Reach (mapFind m) (fun x => x = a) y := fun y => (reach_single hs hre₁ y).symm
      refine ⟨hsub.trans hsub₁, (hre₁.comp hre).congr_set hiff, fun x => ?_⟩
      rw [hcur x, ← hiff x]
      have hins : x ∈ (if a ∈ cur then cur else setInsert a cur) ↔ x = a ∨ x ∈ cur := by
        split_ifs with hac
        · constructor
          · exact Or.inr
          · rintro (rfl | hx)
            · exact hac
            · exact hx
        · exact mem_setInsert a x cur
      rw [hins]
      tauto

theorem clusterMoleculesLoop_spec :
    ∀ (fuel : Nat) (m : Bonds) (acc : List IntSet), m.length ≤ fuel → (mapKeys m).Nodup →
      ∃ cs, clusterMoleculesLoop fuel m acc = .ok ([], acc ++ cs) ∧ ClusterSeq (mapFind m) cs := by
  intro fuel
  induction fuel with
  | zero =>
    intro m acc hm _
    have : m = [] := List.length_eq_zero.1 (Nat.le_zero.1 hm)
    subst this
    exact ⟨[], by simp [clusterMoleculesLoop], ClusterSeq.nil (fun x => rfl)⟩
  | succ fuel ih =>
    intro m acc hm hnd
    cases m with
    | nil => exact ⟨[], by simp [clusterMoleculesLoop], ClusterSeq.nil (fun x => rfl)⟩
    | cons e rest =>
      obtain ⟨k, v⟩ := e
      have hk : mapFind ((k, v) :: rest) k ≠ none := by simp [mapFind]
      obtain ⟨m', cur', h, hl⟩ :=
        clusterSingleMolecule_ok ((k, v) :: rest).length ((k, v) :: rest) [] k (le_refl _) hk
      obtain ⟨hsub, hre, hcur⟩ := clusterSingleMolecule_spec _ _ _ _ _ _ hnd h
      obtain ⟨cs, hcs, hseq⟩ :=
        ih m' (acc ++ [cur']) (by simp at hl hm; omega) (nodup_keys_of_sublist hsub hnd)
      refine ⟨cur' :: cs, ?_, ClusterSeq.cons hk (fun x => by simpa using hcur x) hre hseq⟩
      unfold clusterMoleculesLoop
      simp only [h, hcs, List.append_assoc, List.singleton_append]

theorem ClusterSeq.ne_nil {G : Int → Option IntSet} {cs : List IntSet} (h : ClusterSeq G cs) :
    ∀ c ∈ cs, c ≠ [] := by
  induction h with
  | nil _ => simp
  | cons hk hc _ _ ih =>
    intro c' hc'
    rcases List.mem_cons.1 hc' with rfl | hc'
    · exact List.ne_nil_of_mem ((hc _).2 (Reach.self hk))
    · exact ih c' hc'

theorem ClusterSeq.live_mem {G : Int → Option IntSet} {cs : List IntSet} (h : ClusterSeq G cs) :
    ∀ c ∈ cs, ∀ x ∈ c, G x ≠ none := by
  induction h with
  | nil _ => simp
  | cons hk hc hre _ ih =>
    intro c' hc' x hx
    rcases List.mem_cons.1 hc' with rfl | hc'
    · exact ((hc x).1 hx).live_end
    · exact (hre.live_of (ih c' hc' x hx)).2

theorem ClusterSeq.disjoint {G : Int → Option IntSet} {cs : List IntSet} (h : ClusterSeq G cs) :
    cs.Pairwise List.Disjoint := by
  induction h with
  | nil _ => exact List.Pairwise.nil
  | cons hk hc hre hseq ih =>
    refine List.Pairwise.cons ?_ ih
    intro c' hc' x hx hx'
    exact (hre.live_of (hseq.live_mem c' hc' x hx')).1 ((hc x).1 hx)

theorem ClusterSeq.cover {G : Int → Option IntSet} {cs : List IntSet} (h : ClusterSeq G cs) :
    ∀ x, G x ≠ none → ∃ c ∈ cs, x ∈ c := by
  induction h with
  | nil h0 => intro x hx; exact absurd (h0 x) hx
  | @cons G G' k c cs hk hc hre _ ih =>
    intro x hx
    by_cases hD : Reach G (fun b => b = k) x
    · exact ⟨c, List.mem_cons_self _ _, (hc x).2 hD⟩
    · obtain ⟨c', hc', hxc⟩ := ih x (by rw [(hre x).2 hD]; exact hx)
      exact ⟨c', List.mem_cons_of_mem _ hc', hxc⟩

theorem SymClosed.edge_symm {G : Int → Option IntSet} (h : SymClosed G) {x y : Int}
    (e : Edge G x y) : Edge G y x := by
  obtain ⟨s, hs, hy, _⟩ := e
  obtain ⟨s', hs', hx⟩ := h x y s hs hy
  exact ⟨s', hs', hx, by rw [hs]; simp⟩

theorem SymClosed.path_symm {G : Int → Option IntSet} (h : SymClosed G) {x y : Int}
    (p : Relation.ReflTransGen (Edge G) x y) : Relation.ReflTransGen (Edge G) y x :=
  Relation.ReflTransGen.symmetric (fun _ _ e => h.edge_symm e) p

theorem SymClosed.bonded_iff {G : Int → Option IntSet} (h : SymClosed G) (x y : Int) :
    Bonded G x y ↔ Edge G x y := by
  constructor
  · rintro ⟨s, hs, hy⟩
    obtain ⟨s', hs', _⟩ := h x y s hs hy
    exact ⟨s, hs, hy, by rw [hs']; simp⟩
  · rintro ⟨s, hs, hy, _⟩
    exact ⟨s, hs, hy⟩

theorem Reach.path_trans {G : Int → Option IntSet} {S : Int → Prop} {y z : Int} (h : Reach G S y)
    (p : Relation.ReflTransGen (Edge G) y z) : Reach G S z := by
  obtain ⟨b, hS, hb, hp⟩ := h
  exact ⟨b, hS, hb, hp.trans p⟩

theorem SymClosed.restr {G G' : Int → Option IntSet} {S : Int → Prop} (h : SymClosed G)
    (hre : Restr G G' (Reach G S)) : SymClosed G' := by
  intro a b s hs hb
  have ha : G' a ≠ none := by rw [hs]; simp
  have haD := (hre.live_of ha).1
  have hGa : G a = some s := by rw [← (hre a).2 haD]; exact hs
  obtain ⟨s', hs', has'⟩ := h a b s hGa hb
  have hbD : ¬ Reach G S b := fun hbD =>
    haD (hbD.step ⟨s', hs', has', (hre.live_of ha).2⟩)
  exact ⟨s', by rw [(hre b).2 hbD]; exact hs', has'⟩

theorem ClusterSeq.components {G : Int → Option IntSet} {cs : List IntSet}
    (h : ClusterSeq G cs) (hsym : SymClosed G) :
    ∀ x y, G x ≠ none → G y ≠ none →
      ((∃ c ∈ cs, x ∈ c ∧ y ∈ c) ↔ Relation.ReflTransGen (Edge G) x y) := by
  induction h with
  | nil h0 => intro x y hx; exact absurd (h0 x) hx
  | @cons G G' k c cs hk hc hre hseq ih =>
    intro x y hx hy
    have hin : ∀ z, Reach G (fun b => b = k) z → ∀ c' ∈ cs, z ∉ c' := by
      intro z hz c' hc' hzc
      exact (hre.live_of (hseq.live_mem c' hc' z hzc)).1 hz
    by_cases hDx : Reach G (fun b => b = k) x
    · by_cases hDy : Reach G (fun b => b = k) y
      · constructor
        · intro _
          obtain ⟨b, rfl, _, px⟩ := hDx
          obtain ⟨b', rfl, _, py⟩ := hDy
          exact (hsym.path_symm px).trans py
        · intro _
          exact ⟨c, List.mem_cons_self _ _, (hc x).2 hDx, (hc y).2 hDy⟩
      · constructor
        · rintro ⟨c', hc', hxc, hyc⟩
          rcases List.mem_cons.1 hc' with rfl | hc'
          · exact absurd ((hc y).1 hyc) hDy
          · exact absurd hxc (hin x hDx c' hc')
        · intro p
          exact absurd (hDx.path_trans p) hDy
    · by_cases hDy : Reach G (fun b => b = k) y
      · constructor
        · rintro ⟨c', hc', hxc, hyc⟩
          rcases List.mem_cons.1 hc' with rfl | hc'
          · exact absurd ((hc x).1 hxc) hDx
          · exact absurd hyc (hin y hDy c' hc')
        · intro p
          exact absurd (hDy.path_trans (hsym.path_symm p)) hDx
      · have hx' : G' x ≠ none := by rw [(hre x).2 hDx]; exact hx
        have hy' : G' y ≠ none := by rw [(hre y).2 hDy]; exact hy
        have hIH := ih (hsym.restr hre) x y hx' hy'
        constructor
        · rintro ⟨c', hc', hxc, hyc⟩
          rcases List.mem_cons.1 hc' with rfl | hc'
          · exact absurd ((hc x).1 hxc) hDx
          · exact hre.path_mono (hIH.1 ⟨c', hc', hxc, hyc⟩)
        · intro p
          rcases path_split hre (fun y z hy e => hy.step e) p with hD | ⟨_, p'⟩
          · exact absurd hD hDy
          · obtain ⟨c', hc', hxc, hyc⟩ := hIH.2 p'
            exact ⟨c', List.mem_cons_of_mem _ hc', hxc, hyc⟩

/-! ## The pairwise query on the records of one leaf -/

theorem mapFind_mapInsertAt (m : Bonds) (k x k' : Int) :
    mapFind (mapInsertAt m k x) k' =
      if k' = k then (mapFind m k).map (setInsert x) else mapFind m k' := by
  induction m with
  | nil => simp [mapInsertAt, mapFind]
  | cons e rest ih =>
    obtain ⟨k₀, v₀⟩ := e
    unfold mapInsertAt
    by_cases h0 : k₀ = k
    · subst h0
      by_cases h1 : k' = k₀
      · subst h1; simp [mapFind]
      · simp [mapFind, h1, Ne.symm h1]
    · simp only [h0, if_false]
      by_cases h1 : k' = k
      · subst h1
        simp only [mapFind, h0, if_false, ih, if_true]
      · by_cases h2 : k₀ = k'
        · simp [mapFind, h2, h1]
        · simp [mapFind, h2, h1, ih]

theorem mapFind_mapEmplace (m : Bonds) (k : Int) (v : IntSet) (k' : Int)
    (h : mapFind m k = none) :
    mapFind (mapEmplace m k v) k' = if k' = k then some v else mapFind m k' := by
  induction m with
  | nil =>
    by_cases h1 : k' = k
    · simp [mapEmplace, mapFind, h1]
    · simp [mapEmplace, mapFind, h1, Ne.symm h1]
  | cons e rest ih =>
    obtain ⟨k₀, v₀⟩ := e
    have hk : k₀ ≠ k := by
      intro hk
      simp [mapFind, hk] at h
    have hrest : mapFind rest k = none := by
      simpa [mapFind, hk] using h
    unfold mapEmplace
    by_cases hlt : k < k₀
    · simp only [hlt, if_true]
      by_cases h1 : k' = k
      · simp [mapFind, h1]
      · simp [mapFind, h1, Ne.symm h1]
    · simp only [hlt, if_false, Ne.symm hk]
      by_cases h1 : k' = k
      · subst h1
        simp [mapFind, hk, ih hrest]
      · by_cases h2 : k₀ = k'
        · simp [mapFind, h2, h1]
        · simp [mapFind, h2, h1, ih hrest]

theorem bonded_addBond (m : Bonds) (a b x y : Int) :
    Bonded (mapFind (addBond m a b)) x y ↔ Bonded (mapFind m) x y ∨ (x = a ∧ y = b) := by
  unfold addBond Bonded
  cases h : mapFind m a with
  | none =>
    simp only [mapFind_mapEmplace m a [b] x h]
    by_cases hx : x = a
    · subst hx; simp [h]
    · simp [hx]
  | some s =>
    simp only [mapFind_mapInsertAt]
    by_cases hx : x = a
    · subst hx
      simp [h, mem_setInsert]
      tauto
    · simp [hx]

theorem live_addBond (m : Bonds) (a b x : Int) :
    mapFind (addBond m a b) x ≠ none ↔ mapFind m x ≠ none ∨ x = a := by
  unfold addBond
  cases h : mapFind m a with
  | none =>
    simp only [mapFind_mapEmplace m a [b] x h]
    by_cases hx : x = a
    · simp [hx]
    · simp [hx]
  | some s =>
    simp only [mapFind_mapInsertAt]
    by_cases hx : x = a
    · subst hx; simp [h]
    · simp [hx]

theorem collidePair_eq (tolerance : Double) (di : Data) (m : Bonds) (dj : Data) :
    (Bonded (mapFind m) di.index dj.index → collidePair tolerance di m dj = m) ∧
    (¬ Bonded (mapFind m) di.index dj.index → Close tolerance di dj →
      collidePair tolerance di m dj
        = addBond (addBond m di.index dj.index) dj.index di.index) ∧
    (¬ Bonded (mapFind m) di.index dj.index → ¬ Close tolerance di dj →
      collidePair tolerance di m dj = m) := by
  unfold collidePair Close addBond Bonded
  by_cases hc : (Vec3.sub di.point dj.point).squaredNorm
      ≤ (di.radius + dj.radius + tolerance) * (di.radius + dj.radius + tolerance)
  · cases h : mapFind m di.index with
    | none => simp [hc]
    | some s =>
      by_cases hj : dj.index ∈ s
      · simp [hj]
      · simp [hj, hc]
  · cases h : mapFind m di.index with
    | none => simp [hc]
    | some s =>
      by_cases hj : dj.index ∈ s
      · simp [hj]
      · simp [hj, hc]

theorem Close.swap {tolerance : Double} {a b : Data} (h : Close tolerance a b) :
    Close tolerance b a := by
  unfold Close Vec3.squaredNorm Vec3.sub at *
  simp only at *
  rw [Double.sub_swap b.point.x, Double.sub_swap b.point.y, Double.sub_swap b.point.z,
    Double.mul_neg_neg, Double.mul_neg_neg, Double.mul_neg_neg, Double.add_swap b.radius]
  exact h

theorem bonded_collidePair (tolerance : Double) (di dj : Data) (m : Bonds) (hm : SymMap m)
    (x y : Int) :
    Bonded (mapFind (collidePair tolerance di m dj)) x y ↔
      Bonded (mapFind m) x y ∨
        (Close tolerance di dj ∧
          ((x = di.index ∧ y = dj.index) ∨ (x = dj.index ∧ y = di.index))) := by
  obtain ⟨e₁, e₂, e₃⟩ := collidePair_eq tolerance di m dj
  by_cases hb : Bonded (mapFind m) di.index dj.index
  · rw [e₁ hb]
    constructor
    · exact Or.inl
    · rintro (h | ⟨_, ⟨rfl, rfl⟩ | ⟨rfl, rfl⟩⟩)
      · exact h
      · exact hb
      · exact hm _ _ hb
  · by_cases hc : Close tolerance di dj
    · rw [e₂ hb hc]
      simp only [hc, bonded_addBond, true_and]
      tauto
    · rw [e₃ hb hc]
      simp [hc]

theorem symMap_collidePair (tolerance : Double) (di dj : Data) (m : Bonds) (hm : SymMap m) :
    SymMap (collidePair tolerance di m dj) := by
  intro a b h
  rw [bonded_collidePair tolerance di dj m hm] at h ⊢
  rcases h with h | ⟨hc, h⟩
  · exact Or.inl (hm _ _ h)
  · exact Or.inr ⟨hc, by tauto⟩

theorem live_collidePair (tolerance : Double) (di dj : Data) (m : Bonds) (x : Int) :
    (mapFind m x ≠ none → mapFind (collidePair tolerance di m dj) x ≠ none) ∧
    (mapFind (collidePair tolerance di m dj) x ≠ none →
      mapFind m x ≠ none ∨ x = di.index ∨ x = dj.index) := by
  obtain ⟨e₁, e₂, e₃⟩ := collidePair_eq tolerance di m dj
  by_cases hb : Bonded (mapFind m) di.index dj.index
  · rw [e₁ hb]
    exact ⟨id, Or.inl⟩
  · by_cases hc : Close tolerance di dj
    · rw [e₂ hb hc]
      simp only [live_addBond]
      tauto
    · rw [e₃ hb hc]
      exact ⟨id, Or.inl⟩

theorem pairIn_cons (d : Data) (rest : List Data) (a b : Data) :
    PairIn (d :: rest) a b ↔ PairIn rest a b ∨ (a = d ∧ b ∈ rest) ∨ (b = d ∧ a ∈ rest) := by
  unfold PairIn
  have key : ∀ u v : Data, List.Sublist [u, v] (d :: rest) ↔
      List.Sublist [u, v] rest ∨ (u = d ∧ v ∈ rest) := by
    intro u v
    rw [List.sublist_cons_iff]
    constructor
    · rintro (h | ⟨r, hr, hsub⟩)
      · exact Or.inl h
      · simp only [List.cons.injEq] at hr
        obtain ⟨rfl, rfl⟩ := hr
        exact Or.inr ⟨rfl, List.singleton_sublist.1 hsub⟩
    · rintro (h | ⟨rfl, hv⟩)
      · exact Or.inl h
      · exact Or.inr ⟨[v], rfl, List.singleton_sublist.2 hv⟩
  rw [key a b, key b a]
  tauto

theorem PairIn.flip {ds : List Data} {a b : Data} (h : PairIn ds a b) : PairIn ds b a :=
  Or.symm h

theorem PairIn.mem {ds : List Data} {a b : Data} (h : PairIn ds a b) : a ∈ ds ∧ b ∈ ds := by
  rcases h with h | h
  · exact ⟨h.subset (by simp), h.subset (by simp)⟩
  · exact ⟨h.subset (by simp), h.subset (by simp)⟩

theorem inner_spec (tolerance : Double) (di : Data) :
    ∀ (rest : List Data) (m : Bonds), SymMap m →
      AddsBonds m (rest.foldl (collidePair tolerance di) m)
        (fun a b => Close tolerance a b ∧ ((a = di ∧ b ∈ rest) ∨ (b = di ∧ a ∈ rest)))
        (fun x => x = di.index ∨ ∃ d ∈ rest, x = d.index) := by
  intro rest
  induction rest with
  | nil =>
    intro m hm
    refine ⟨hm, fun x y => ?_, fun x h => h, fun x h => Or.inl h⟩
    simp
  | cons dj rest ih =>
    intro m hm
    simp only [List.foldl_cons]
    obtain ⟨hs, hb, hl₁, hl₂⟩ := ih _ (symMap_collidePair tolerance di dj m hm)
    refine ⟨hs, fun x y => ?_, fun x h => hl₁ x ((live_collidePair tolerance di dj m x).1 h),
      fun x h => ?_⟩
    · rw [hb x y, bonded_collidePair tolerance di dj m hm]
      constructor
      · rintro ((h | ⟨hc, ⟨rfl, rfl⟩ | ⟨rfl, rfl⟩⟩) | ⟨a, b, ⟨hc, h⟩, rfl, rfl⟩)
        · exact Or.inl h
        · exact Or.inr ⟨di, dj, ⟨hc, Or.inl ⟨rfl, List.mem_cons_self _ _⟩⟩, rfl, rfl⟩
        · exact Or.inr ⟨dj, di, ⟨hc.swap, Or.inr ⟨rfl, List.mem_cons_self _ _⟩⟩, rfl, rfl⟩
        · refine Or.inr ⟨a, b, ⟨hc, ?_⟩, rfl, rfl⟩
          rcases h with ⟨h1, h2⟩ | ⟨h1, h2⟩
          · exact Or.inl ⟨h1, List.mem_cons_of_mem _ h2⟩
          · exact Or.inr ⟨h1, List.mem_cons_of_mem _ h2⟩
      · rintro (h | ⟨a, b, ⟨hc, h⟩, rfl, rfl⟩)
        · exact Or.inl (Or.inl h)
        · rcases h with ⟨rfl, h2⟩ | ⟨rfl, h2⟩
          · rcases List.mem_cons.1 h2 with rfl | h2
            · exact Or.inl (Or.inr ⟨hc, Or.inl ⟨rfl, rfl⟩⟩)
            · exact Or.inr ⟨a, b, ⟨hc, Or.inl ⟨rfl, h2⟩⟩, rfl, rfl⟩
          · rcases List.mem_cons.1 h2 with rfl | h2
            · exact Or.inl (Or.inr ⟨hc.swap, Or.inr ⟨rfl, rfl⟩⟩)
            · exact Or.inr ⟨a, b, ⟨hc, Or.inr ⟨rfl, h2⟩⟩, rfl, rfl⟩
    · rcases hl₂ x h with h | h | ⟨d, hd, rfl⟩
      · rcases (live_collidePair tolerance di dj m x).2 h with h | h | h
        · exact Or.inl h
        · exact Or.inr (Or.inl h)
        · exact Or.inr (Or.inr ⟨dj, List.mem_cons_self _ _, h⟩)
      · exact Or.inr (Or.inl h)
      · exact Or.inr (Or.inr ⟨d, List.mem_cons_of_mem _ hd, rfl⟩)

theorem leafCollisions_spec (tolerance : Double) :
    ∀ (ds : List Data) (m : Bonds), SymMap m →
      AddsBonds m (leafCollisions tolerance m ds)
        (fun a b => PairIn ds a b ∧ Close tolerance a b) (fun x => ∃ d ∈ ds, x = d.index) := by
  intro ds
  induction ds with
  | nil =>
    intro m hm
    refine ⟨hm, fun x y => ?_, fun x h => h, fun x h => Or.inl h⟩
    simp [leafCollisions, PairIn]
  | cons di rest ih =>
    intro m hm
    unfold leafCollisions
    obtain ⟨hs₁, hb₁, hk₁, hk₁'⟩ := inner_spec tolerance di rest m hm
    obtain ⟨hs₂, hb₂, hk₂, hk₂'⟩ := ih _ hs₁
    refine ⟨hs₂, fun x y => ?_, fun x h => hk₂ x (hk₁ x h), fun x h => ?_⟩
    · rw [hb₂ x y, hb₁ x y]
      constructor
      · rintro ((h | ⟨a, b, ⟨hc, h⟩, rfl, rfl⟩) | ⟨a, b, ⟨hp, hc⟩, rfl, rfl⟩)
        · exact Or.inl h
        · exact Or.inr ⟨a, b, ⟨(pairIn_cons di rest a b).2 (Or.inr h), hc⟩, rfl, rfl⟩
        · exact Or.inr ⟨a, b, ⟨(pairIn_cons di rest a b).2 (Or.inl hp), hc⟩, rfl, rfl⟩
      · rintro (h | ⟨a, b, ⟨hp, hc⟩, rfl, rfl⟩)
        · exact Or.inl (Or.inl h)
        · rcases (pairIn_cons di rest a b).1 hp with hp | hp
          · exact Or.inr ⟨a, b, ⟨hp, hc⟩, rfl, rfl⟩
          · exact Or.inl (Or.inr ⟨a, b, ⟨hc, hp⟩, rfl, rfl⟩)
    · rcases hk₂' x h with h | ⟨d, hd, rfl⟩
      · rcases hk₁' x h with h | h | ⟨d, hd, rfl⟩
        · exact Or.inl h
        · exact Or.inr ⟨di, List.mem_cons_self _ _, h⟩
        · exact Or.inr ⟨d, List.mem_cons_of_mem _ hd, rfl⟩
      · exact Or.inr ⟨d, List.mem_cons_of_mem _ hd, rfl⟩

theorem leaves_fold_spec (tolerance : Double) :
    ∀ (ls : List (List Data)) (m : Bonds), SymMap m →
      AddsBonds m (ls.foldl (leafCollisions tolerance) m)
        (fun a b => ∃ l ∈ ls, PairIn l a b ∧ Close tolerance a b)
        (fun x => ∃ l ∈ ls, ∃ d ∈ l, x = d.index) := by
  intro ls
  induction ls with
  | nil =>
    intro m hm
    refine ⟨hm, fun x y => ?_, fun x h => h, fun x h => Or.inl h⟩
    simp
  | cons l ls ih =>
    intro m hm
    simp only [List.foldl_cons]
    obtain ⟨hs₁, hb₁, hk₁, hk₁'⟩ := leafCollisions_spec tolerance l m hm
    obtain ⟨hs₂, hb₂, hk₂, hk₂'⟩ := ih _ hs₁
    refine ⟨hs₂, fun x y => ?_, fun x h => hk₂ x (hk₁ x h), fun x h => ?_⟩
    · rw [hb₂ x y, hb₁ x y]
      constructor
      · rintro ((h | ⟨a, b, h, rfl, rfl⟩) | ⟨a, b, ⟨l', hl', h⟩, rfl, rfl⟩)
        · exact Or.inl h
        · exact Or.inr ⟨a, b, ⟨l, List.mem_cons_self _ _, h⟩, rfl, rfl⟩
        · exact Or.inr ⟨a, b, ⟨l', List.mem_cons_of_mem _ hl', h⟩, rfl, rfl⟩
      · rintro (h | ⟨a, b, ⟨l', hl', h⟩, rfl, rfl⟩)
        · exact Or.inl (Or.inl h)
        · rcases List.mem_cons.1 hl' with rfl | hl'
          · exact Or.inl (Or.inr ⟨a, b, h, rfl, rfl⟩)
          · exact Or.inr ⟨a, b, ⟨l', hl', h⟩, rfl, rfl⟩
    · rcases hk₂' x h with h | ⟨l', hl', d, hd, rfl⟩
      · rcases hk₁' x h with h | ⟨d, hd, rfl⟩
        · exact Or.inl h
        · exact Or.inr ⟨l, List.mem_cons_self _ _, d, hd, rfl⟩
      · exact Or.inr ⟨l', List.mem_cons_of_mem _ hl', d, hd, rfl⟩

/-! ## Traversals of the tree -/

theorem leafNodesList_eq (cs : List ConnectivityOctree) :
    leafNodesList cs = cs.flatMap leafNodes := by
  induction cs with
  | nil => simp [leafNodesList]
  | cons c cs ih => simp [leafNodesList, ih]

theorem leafNodes_leaf (lb ub : Vec3) (d s m : Int) (ds : List Data) :
    leafNodes (.mk lb ub d s m [] ds) = [.mk lb ub d s m [] ds] := by
  simp [leafNodes]

theorem leafNodes_node (lb ub : Vec3) (d s m : Int) (cs : List ConnectivityOctree)
    (ds : List Data) (h : cs ≠ []) :
    leafNodes (.mk lb ub d s m cs ds) = cs.flatMap leafNodes := by
  cases cs with
  | nil => exact absurd rfl h
  | cons c cs => rw [leafNodes, leafNodesList_eq]

mutual
theorem getCollisions_eq :
    ∀ (t : ConnectivityOctree) (m : Bonds) (tolerance : Double),
      getCollisions t m tolerance = (leaves t).foldl (leafCollisions tolerance) m
  | .mk _ _ _ _ _ [] ds, m, tolerance => by
    simp [getCollisions, leaves, leafNodes, ConnectivityOctree.data]
  | .mk _ _ _ _ _ (c :: cs) _, m, tolerance => by
    rw [getCollisions, getCollisionsList_eq (c :: cs) m tolerance]
    simp [leaves, leafNodes]
theorem getCollisionsList_eq :
    ∀ (cs : List ConnectivityOctree) (m : Bonds) (tolerance : Double),
      getCollisionsList cs m tolerance
        = ((leafNodesList cs).map data).foldl (leafCollisions tolerance) m
  | [], m, tolerance => by simp [getCollisionsList, leafNodesList]
  | c :: cs, m, tolerance => by
    rw [getCollisionsList, getCollisions_eq c m tolerance, getCollisionsList_eq cs _ tolerance]
    simp [leafNodesList, leaves]
end

mutual
theorem getData_eq :
    ∀ (t : ConnectivityOctree) (out : List Data),
      getData t out
        = (leaves t).foldl (fun out ds => ds.foldl (fun acc d => dataInsert d acc) out) out
  | .mk _ _ _ _ _ [] ds, out => by
    simp [getData, leaves, leafNodes, ConnectivityOctree.data]
  | .mk _ _ _ _ _ (c :: cs) _, out => by
    rw [getData, getDataList_eq (c :: cs) out]
    simp [leaves, leafNodes]
theorem getDataList_eq :
    ∀ (cs : List ConnectivityOctree) (out : List Data),
      getDataList cs out
        = ((leafNodesList cs).map data).foldl
            (fun out ds => ds.foldl (fun acc d => dataInsert d acc) out) out
  | [], out => by simp [getDataList, leafNodesList]
  | c :: cs, out => by
    rw [getDataList, getData_eq c out, getDataList_eq cs _]
    simp [leafNodesList, leaves]
end

/-! ## `getData` and `addIsolatedAtoms` -/

theorem hasIndex_nil (x : Int) : ¬ HasIndex [] x := by
  rintro ⟨e, he, _⟩
  simp at he

theorem hasIndex_cons (e : Data) (es : List Data) (x : Int) :
    HasIndex (e :: es) x ↔ e.index = x ∨ HasIndex es x := by
  unfold HasIndex
  constructor
  · rintro ⟨d, hd, hx⟩
    rcases List.mem_cons.1 hd with rfl | hd
    · exact Or.inl hx
    · exact Or.inr ⟨d, hd, hx⟩
  · rintro (h | ⟨d, hd, hx⟩)
    · exact ⟨e, List.mem_cons_self _ _, h⟩
    · exact ⟨d, List.mem_cons_of_mem _ hd, hx⟩

theorem index_dataInsert (d : Data) (acc : List Data) (x : Int) :
    HasIndex (dataInsert d acc) x ↔ d.index = x ∨ HasIndex acc x := by
  induction acc with
  | nil => simp [dataInsert, hasIndex_cons]
  | cons e es ih =>
    unfold dataInsert
    split_ifs with h1 h2
    · simp only [hasIndex_cons]
    · simp only [hasIndex_cons, ih]
      tauto
    · have he : e.index = d.index := by omega
      simp only [hasIndex_cons]
      constructor
      · exact Or.inr
      · rintro (h | h)
        · exact Or.inl (he.trans h)
        · exact h

theorem index_fold_dataInsert (ds : List Data) :
    ∀ (out : List Data) (x : Int),
      HasIndex (ds.foldl (fun acc d => dataInsert d acc) out) x ↔
        HasIndex out x ∨ HasIndex ds x := by
  induction ds with
  | nil =>
    intro out x
    simp [hasIndex_nil]
  | cons d ds ih =>
    intro out x
    simp only [List.foldl_cons, ih, index_dataInsert, hasIndex_cons]
    tauto

theorem index_getData (t : ConnectivityOctree) (x : Int) :
    HasIndex (getData t []) x ↔ StoredId t x := by
  rw [getData_eq]
  have key : ∀ (ls : List (List Data)) (out : List Data),
      HasIndex (ls.foldl (fun out ds => ds.foldl (fun acc d => dataInsert d acc) out) out) x ↔
        HasIndex out x ∨ ∃ l ∈ ls, HasIndex l x := by
    intro ls
    induction ls with
    | nil =>
      intro out
      simp
    | cons l ls ih =>
      intro out
      simp only [List.foldl_cons, ih, index_fold_dataInsert, List.mem_cons, exists_eq_or_imp]
      tauto
  rw [key]
  unfold StoredId Stored leaves HasIndex
  simp only [List.not_mem_nil, false_and, exists_false, false_or, List.mem_map]
  constructor
  · rintro ⟨l, ⟨n, hn, rfl⟩, e, he, hx⟩
    exact ⟨e, ⟨n, hn, he⟩, hx⟩
  · rintro ⟨e, ⟨n, hn, he⟩, hx⟩
    exact ⟨_, ⟨n, hn, rfl⟩, e, he, hx⟩

theorem sorted_setInsert (a : Int) (s : IntSet) (hs : s.Sorted (· < ·)) :
    (setInsert a s).Sorted (· < ·) := by
  induction s with
  | nil => simp [setInsert]
  | cons b bs ih =>
    have hb := List.sorted_cons.1 hs
    unfold setInsert
    split_ifs with h1 h2
    · refine List.sorted_cons.2 ⟨?_, hs⟩
      intro c hc
      rcases List.mem_cons.1 hc with rfl | hc
      · exact h1
      · exact lt_trans h1 (hb.1 c hc)
    · exact hs
    · refine List.sorted_cons.2 ⟨?_, ih hb.2⟩
      intro c hc
      rcases (mem_setInsert a c bs).1 hc with rfl | hc
      · omega
      · exact hb.1 c hc

theorem fold_setInsert {α : Type} (f : α → Int) (l : List α) :
    ∀ (s : IntSet), s.Sorted (· < ·) →
      (l.foldl (fun s d => setInsert (f d) s) s).Sorted (· < ·) ∧
      ∀ x, x ∈ l.foldl (fun s d => setInsert (f d) s) s ↔ x ∈ s ∨ ∃ d ∈ l, f d = x := by
  induction l with
  | nil => intro s hs; simp [hs]
  | cons d l ih =>
    intro s hs
    obtain ⟨h1, h2⟩ := ih (setInsert (f d) s) (sorted_setInsert _ _ hs)
    refine ⟨h1, fun x => ?_⟩
    simp only [List.foldl_cons, h2, mem_setInsert, List.mem_cons, exists_eq_or_imp]
    constructor
    · rintro ((h | h) | h)
      · exact Or.inr (Or.inl h.symm)
      · exact Or.inl h
      · exact Or.inr (Or.inr h)
    · rintro (h | h | h)
      · exact Or.inl (Or.inr h)
      · exact Or.inl (Or.inl h.symm)
      · exact Or.inr h

theorem setDifference_sublist : ∀ (l₁ l₂ : List Int), (setDifference l₁ l₂).Sublist l₁ := by
  intro l₁ l₂
  induction l₁, l₂ using setDifference.induct with
  | case1 l₂ => simp [setDifference]
  | case2 a as => simp [setDifference]
  | case3 a as b bs h ih =>
    rw [setDifference]; simp only [h, if_true]
    exact ih.cons₂ _
  | case4 a as b bs h1 h2 ih =>
    rw [setDifference]; simp only [h1, h2, if_true, if_false]
    exact ih
  | case5 a as b bs h1 h2 ih =>
    rw [setDifference]; simp only [h1, h2, if_false]
    exact ih.cons _

theorem mem_setDifference : ∀ (l₁ l₂ : List Int), l₁.Sorted (· < ·) → l₂.Sorted (· < ·) →
    ∀ x, x ∈ setDifference l₁ l₂ ↔ x ∈ l₁ ∧ x ∉ l₂ := by
  intro l₁ l₂
  induction l₁, l₂ using setDifference.induct with
  | case1 l₂ => intro _ _ x; simp [setDifference]
  | case2 a as => intro _ _ x; simp [setDifference]
  | case3 a as b bs h ih =>
    intro h₁ h₂ x
    have ha := List.sorted_cons.1 h₁
    have hb := List.sorted_cons.1 h₂
    rw [setDifference]; simp only [h, if_true, List.mem_cons, ih ha.2 h₂]
    constructor
    · rintro (rfl | ⟨hx, hn⟩)
      · refine ⟨Or.inl rfl, ?_⟩
        rintro (rfl | hx)
        · omega
        · have := hb.1 x hx; omega
      · exact ⟨Or.inr hx, hn⟩
    · rintro ⟨rfl | hx, hn⟩
      · exact Or.inl rfl
      · exact Or.inr ⟨hx, hn⟩
  | case4 a as b bs h1 h2 ih =>
    intro h₁ h₂ x
    have ha := List.sorted_cons.1 h₁
    have hb := List.sorted_cons.1 h₂
    rw [setDifference]; simp only [h1, h2, if_true, if_false, ih h₁ hb.2, List.mem_cons]
    constructor
    · rintro ⟨hx, hn⟩
      refine ⟨hx, ?_⟩
      rintro (rfl | hx')
      · rcases hx with rfl | hx
        · omega
        · have := ha.1 x hx; omega
      · exact hn hx'
    · rintro ⟨hx, hn⟩
      exact ⟨hx, fun h => hn (Or.inr h)⟩
  | case5 a as b bs h1 h2 ih =>
    intro h₁ h₂ x
    have ha := List.sorted_cons.1 h₁
    have hb := List.sorted_cons.1 h₂
    have hab : a = b := by omega
    subst hab
    rw [setDifference]; simp only [h1, if_false, ih ha.2 hb.2, List.mem_cons]
    constructor
    · rintro ⟨hx, hn⟩
      refine ⟨Or.inr hx, ?_⟩
      rintro (rfl | hx')
      · have := ha.1 x hx; omega
      · exact hn hx'
    · rintro ⟨hx, hn⟩
      rcases hx with rfl | hx
      · exact absurd (Or.inl rfl) hn
      · exact ⟨hx, fun h => hn (Or.inr h)⟩

theorem mapFind_fold_emplace :
    ∀ (vs : List Int) (m : Bonds), vs.Nodup → (∀ v ∈ vs, mapFind m v = none) →
      ∀ x, mapFind (vs.foldl (fun m v => mapEmplace m v []) m) x =
        if x ∈ vs then some [] else mapFind m x := by
  intro vs
  induction vs with
  | nil => intro m _ _ x; simp
  | cons v vs ih =>
    intro m hnd hab x
    have hnd' := List.nodup_cons.1 hnd
    have hv : mapFind m v = none := hab v (List.mem_cons_self _ _)
    have hab' : ∀ w ∈ vs, mapFind (mapEmplace m v []) w = none := by
      intro w hw
      rw [mapFind_mapEmplace m v [] w hv]
      have : w ≠ v := fun h => hnd'.1 (h ▸ hw)
      simp [this, hab w (List.mem_cons_of_mem _ hw)]
    simp only [List.foldl_cons, ih _ hnd'.2 hab' x, mapFind_mapEmplace m v [] x hv,
      List.mem_cons]
    by_cases h1 : x ∈ vs
    · simp [h1]
    · by_cases h2 : x = v
      · simp [h2]
      · simp [h1, h2]

theorem mapFind_addIsolatedAtoms (t : ConnectivityOctree) (m : Bonds) (x : Int) :
    (mapFind m x ≠ none → mapFind (addIsolatedAtoms t m) x = mapFind m x) ∧
    (mapFind m x = none → StoredId t x → mapFind (addIsolatedAtoms t m) x = some []) ∧
    (mapFind m x = none → ¬ StoredId t x → mapFind (addIsolatedAtoms t m) x = none) := by
  unfold addIsolatedAtoms
  simp only
  obtain ⟨hs₁, hm₁⟩ := fold_setInsert (fun d : Data => d.index) (getData t []) []
    (List.sorted_nil)
  obtain ⟨hs₂, hm₂⟩ := fold_setInsert (fun col : Int × IntSet => col.1) m []
    (List.sorted_nil)
  have hdiff := mem_setDifference _ _ hs₁ hs₂
  have hnd : (setDifference
      (List.foldl (fun s d => setInsert d.index s) [] (getData t []))
      (List.foldl (fun s col => setInsert col.1 s) [] m)).Nodup :=
    (setDifference_sublist _ _).nodup hs₁.nodup
  have hkeys : ∀ v, v ∈ List.foldl (fun s col => setInsert col.1 s) [] m ↔
      mapFind m v ≠ none := by
    intro v
    rw [hm₂ v, Ne, mapFind_eq_none_iff, not_not]
    simp [mapKeys]
  have hfirst : ∀ v, v ∈ List.foldl (fun s d => setInsert d.index s) [] (getData t []) ↔
      StoredId t v := by
    intro v
    rw [hm₁ v, ← index_getData]
    simp [HasIndex]
  have hab : ∀ v ∈ setDifference
      (List.foldl (fun s d => setInsert d.index s) [] (getData t []))
      (List.foldl (fun s col => setInsert col.1 s) [] m), mapFind m v = none := by
    intro v hv
    have := ((hdiff v).1 hv).2
    rw [hkeys v] at this
    exact not_not.1 this
  have hx : x ∈ setDifference
      (List.foldl (fun s d => setInsert d.index s) [] (getData t []))
      (List.foldl (fun s col => setInsert col.1 s) [] m) ↔
      StoredId t x ∧ mapFind m x = none := by
    rw [hdiff x, hkeys x, hfirst x, not_not]
  rw [mapFind_fold_emplace _ m hnd hab x]
  refine ⟨fun h => ?_, fun h hst => ?_, fun h hst => ?_⟩
  · rw [if_neg (fun hc => h (hx.1 hc).2)]
  · rw [if_pos (hx.2 ⟨hst, h⟩)]
  · rw [if_neg (fun hc => hst (hx.1 hc).1), h]

/-! ## The map returned by `findCollisions` -/

theorem findCollisions_spec (t : ConnectivityOctree) (tolerance : Double) :
    SymMap (findCollisions t [] tolerance) ∧
    (∀ x y, Bonded (mapFind (findCollisions t [] tolerance)) x y ↔
      ∃ l ∈ leaves t, ∃ a b, PairIn l a b ∧ Close tolerance a b ∧ x = a.index ∧ y = b.index) ∧
    (∀ x, mapFind (findCollisions t [] tolerance) x ≠ none ↔ StoredId t x) := by
  have hempty : SymMap [] := by
    rintro a b ⟨s, hs, _⟩
    simp [mapFind] at hs
  obtain ⟨hs, hb, hk, hk'⟩ := leaves_fold_spec tolerance (leaves t) [] hempty
  rw [← getCollisions_eq] at hs hb hk hk'
  have hbond : ∀ x y, Bonded (mapFind (findCollisions t [] tolerance)) x y ↔
      Bonded (mapFind (getCollisions t [] tolerance)) x y := by
    intro x y
    obtain ⟨h1, h2, h3⟩ := mapFind_addIsolatedAtoms t (getCollisions t [] tolerance) x
    unfold findCollisions Bonded
    by_cases hx : mapFind (getCollisions t [] tolerance) x = none
    · by_cases hst : StoredId t x
      · rw [h2 hx hst, hx]; simp
      · rw [h3 hx hst, hx]
    · rw [h1 hx]
  refine ⟨fun a b h => (hbond b a).2 (hs a b ((hbond a b).1 h)), fun x y => ?_, fun x => ?_⟩
  · rw [hbond x y, hb x y]
    constructor
    · rintro (⟨s, hs, _⟩ | ⟨a, b, ⟨l, hl, hp, hc⟩, rfl, rfl⟩)
      · simp [mapFind] at hs
      · exact ⟨l, hl, a, b, hp, hc, rfl, rfl⟩
    · rintro ⟨l, hl, a, b, hp, hc, rfl, rfl⟩
      exact Or.inr ⟨a, b, ⟨l, hl, hp, hc⟩, rfl, rfl⟩
  · obtain ⟨h1, h2, h3⟩ := mapFind_addIsolatedAtoms t (getCollisions t [] tolerance) x
    have hsub : mapFind (getCollisions t [] tolerance) x ≠ none → StoredId t x := by
      intro h
      rcases hk' x h with h | ⟨l, hl, d, hd, rfl⟩
      · simp [mapFind] at h
      · obtain ⟨n, hn, rfl⟩ := List.mem_map.1 hl
        exact ⟨d, ⟨n, hn, hd⟩, rfl⟩
    unfold findCollisions
    by_cases hx : mapFind (getCollisions t [] tolerance) x = none
    · by_cases hst : StoredId t x
      · rw [h2 hx hst]; simp [hst]
      · rw [h3 hx hst]; simp [hst]
    · rw [h1 hx]
      exact ⟨fun _ => hsub hx, fun _ => hx⟩

/-! ## Induction over the calls of `addPoint` -/

theorem addToChildren_forall₂ (add : ConnectivityOctree → Option (Bool × ConnectivityOctree)) :
    ∀ (cs cs' : List ConnectivityOctree), addToChildren add cs = some cs' →
      List.Forall₂ (fun c c' => ∃ b, add c = some (b, c')) cs cs' := by
  intro cs
  induction cs with
  | nil =>
    intro cs' h
    simp only [addToChildren, Option.some.injEq] at h
    subst h
    exact List.Forall₂.nil
  | cons c cs ih =>
    intro cs' h
    unfold addToChildren at h
    cases hc : add c with
    | none => simp [hc] at h
    | some r =>
      obtain ⟨b, c'⟩ := r
      simp only [hc] at h
      cases hcs : addToChildren add cs with
      | none => simp [hcs] at h
      | some cs₁ =>
        simp only [hcs, Option.some.injEq] at h
        subst h
        exact List.Forall₂.cons ⟨b, hc⟩ (ih cs₁ hcs)

theorem redistribute_spec
    (add : ConnectivityOctree → Int → Vec3 → Double → Option (Bool × ConnectivityOctree))
    (P : ConnectivityOctree → Data → Bool → ConnectivityOctree → Prop)
    (hadd : ∀ c i p r b c', add c i p r = some (b, c') → P c ⟨i, p, r⟩ b c') :
    ∀ (ds : List Data) (cs cs' : List ConnectivityOctree),
      redistribute add ds cs = some cs' → Redistributed P ds cs cs' := by
  intro ds
  induction ds with
  | nil =>
    intro cs cs' h
    simp only [redistribute, Option.some.injEq] at h
    subst h
    exact Redistributed.nil cs
  | cons d ds ih =>
    intro cs cs' h
    unfold redistribute at h
    cases hc : addToChildren (fun c => add c d.index d.point d.radius) cs with
    | none => simp [hc] at h
    | some cs₁ =>
      simp only [hc] at h
      refine Redistributed.cons ?_ (ih cs₁ cs' h)
      exact (addToChildren_forall₂ _ cs cs₁ hc).imp
        (fun c c' ⟨b, hb⟩ => ⟨b, hadd c d.index d.point d.radius b c' hb⟩)

/-- Induction over the calls of `addPoint`: a relation between the node before the call,
the record, the returned flag and the node after the call holds for every call that
returns as soon as it holds in the four ways in which a call ends. -/
theorem addPoint_induct
    (P : ConnectivityOctree → Data → Bool → ConnectivityOctree → Prop)
    (hreject : ∀ t e, accepts t e = false → P t e false t)
    (hforward : ∀ lb ub d s m cs ds e cs', accepts (.mk lb ub d s m cs ds) e = true →
      cs ≠ [] → EachChild P e cs cs' →
      P (.mk lb ub d s m cs ds) e true (.mk lb ub d s m cs' ds))
    (hstore : ∀ lb ub d s m ds e, accepts (.mk lb ub d s m [] ds) e = true →
      (¬ ((ds ++ [e]).length : Int) > toSizeT s ∨ d > m) →
      P (.mk lb ub d s m [] ds) e true (.mk lb ub d s m [] (ds ++ [e])))
    (hsplit : ∀ lb ub d s m ds e cs, accepts (.mk lb ub d s m [] ds) e = true →
      ((ds ++ [e]).length : Int) > toSizeT s → ¬ d > m →
      Redistributed P (ds ++ [e]) (freshChildren lb ub d s m) cs →
      P (.mk lb ub d s m [] ds) e true (.mk lb ub d s m cs [])) :
    ∀ (fuel : Nat) (t : ConnectivityOctree) (i : Int) (p : Vec3) (r : Double) (b : Bool)
      (t' : ConnectivityOctree),
      addPoint fuel t i p r = some (b, t') → P t ⟨i, p, r⟩ b t' := by
  intro fuel
  induction fuel with
  | zero =>
    intro t i p r b t' h
    simp [addPoint] at h
  | succ fuel ih =>
    intro t i p r b t' h
    obtain ⟨lb, ub, d, s, m, cs, ds⟩ := t
    unfold addPoint at h
    simp only at h
    by_cases hacc : accepts (.mk lb ub d s m cs ds) ⟨i, p, r⟩ = true
    · have hacc' : collide (.mk lb ub d s m cs ds) (Vec3.sub p (Vec3.constant r))
          (Vec3.add p (Vec3.constant r)) = true := hacc
      simp only [hacc', Bool.not_true, Bool.false_eq_true, if_false] at h
      cases cs with
      | cons c cs =>
        simp only [hasChildren, ConnectivityOctree.children, List.isEmpty_cons, Bool.not_false,
          if_true, ConnectivityOctree.lowerBound, ConnectivityOctree.upperBound,
          ConnectivityOctree.depth, ConnectivityOctree.maxStorage,
          ConnectivityOctree.maxDepth, ConnectivityOctree.data] at h
        cases hc : addToChildren (fun c => addPoint fuel c i p r) (c :: cs) with
        | none => simp [hc] at h
        | some cs' =>
          simp only [hc, Option.some.injEq, Prod.mk.injEq] at h
          obtain ⟨rfl, rfl⟩ := h
          refine hforward lb ub d s m (c :: cs) ds ⟨i, p, r⟩ cs' hacc (by simp) ?_
          exact (addToChildren_forall₂ _ _ _ hc).imp
            (fun c c' ⟨b, hb⟩ => ⟨b, ih c i p r b c' hb⟩)
      | nil =>
        simp only [hasChildren, ConnectivityOctree.children, List.isEmpty_nil, Bool.not_true,
          Bool.false_eq_true, if_false, ConnectivityOctree.lowerBound,
          ConnectivityOctree.upperBound, ConnectivityOctree.depth,
          ConnectivityOctree.maxStorage, ConnectivityOctree.maxDepth,
          ConnectivityOctree.data] at h
        by_cases hfull : ((ds ++ [(⟨i, p, r⟩ : Data)]).length : Int) > toSizeT s
        · simp only [hfull, if_true] at h
          unfold split at h
          simp only [ConnectivityOctree.lowerBound,
            ConnectivityOctree.upperBound, ConnectivityOctree.depth,
            ConnectivityOctree.maxStorage, ConnectivityOctree.maxDepth,
            ConnectivityOctree.data] at h
          by_cases hdeep : d > m
          · simp only [hdeep, if_true, Option.some.injEq, Prod.mk.injEq] at h
            obtain ⟨rfl, rfl⟩ := h
            exact hstore lb ub d s m ds ⟨i, p, r⟩ hacc (Or.inr hdeep)
          · simp only [hdeep, if_false] at h
            cases hr : redistribute (addPoint fuel) (ds ++ [(⟨i, p, r⟩ : Data)])
                (List.map (fun sector =>
                  updateBoundingBox (newOctree5 lb ub (d + 1) s m) sector) (List.range 8)) with
            | none => simp [hr] at h
            | some cs' =>
              simp only [hr, Option.some.injEq, Prod.mk.injEq] at h
              obtain ⟨rfl, rfl⟩ := h
              exact hsplit lb ub d s m ds ⟨i, p, r⟩ cs' hacc hfull hdeep
                (redistribute_spec (addPoint fuel) P ih _ _ _ hr)
        · simp only [hfull, if_false, Option.some.injEq, Prod.mk.injEq] at h
          obtain ⟨rfl, rfl⟩ := h
          exact hstore lb ub d s m ds ⟨i, p, r⟩ hacc (Or.inl hfull)
    · have hacc' : collide (.mk lb ub d s m cs ds) (Vec3.sub p (Vec3.constant r))
          (Vec3.add p (Vec3.constant r)) = false := by
        simpa [accepts] using hacc
      simp only [hacc', Bool.not_false, if_true, Option.some.injEq, Prod.mk.injEq] at h
      obtain ⟨rfl, rfl⟩ := h
      exact hreject _ _ (by simpa using hacc)

/-! ## Which records the leaves hold -/

theorem forall₂_right {α β : Type} {R : α → β → Prop} {l : List α} {l' : List β}
    (h : List.Forall₂ R l l') : ∀ b ∈ l', ∃ a ∈ l, R a b := by
  induction h with
  | nil => simp
  | cons hab _ ih =>
    intro b hb
    rcases List.mem_cons.1 hb with rfl | hb
    · exact ⟨_, List.mem_cons_self _ _, hab⟩
    · obtain ⟨a, ha, hr⟩ := ih b hb
      exact ⟨a, List.mem_cons_of_mem _ ha, hr⟩

theorem forall₂_left {α β : Type} {R : α → β → Prop} {l : List α} {l' : List β}
    (h : List.Forall₂ R l l') : ∀ a ∈ l, ∃ b ∈ l', R a b := by
  induction h with
  | nil => simp
  | cons hab _ ih =>
    intro a ha
    rcases List.mem_cons.1 ha with rfl | ha
    · exact ⟨_, List.mem_cons_self _ _, hab⟩
    · obtain ⟨b, hb, hr⟩ := ih a ha
      exact ⟨b, List.mem_cons_of_mem _ hb, hr⟩

theorem forall₂_ne_nil {α β : Type} {R : α → β → Prop} {l : List α} {l' : List β}
    (h : List.Forall₂ R l l') (hl : l ≠ []) : l' ≠ [] := by
  cases h with
  | nil => exact absurd rfl hl
  | cons _ _ => simp

theorem stored_leaf (lb ub : Vec3) (d s m : Int) (ds : List Data) (x : Data) :
    Stored (.mk lb ub d s m [] ds) x ↔ x ∈ ds := by
  simp [Stored, leafNodes_leaf, ConnectivityOctree.data]

theorem stored_node (lb ub : Vec3) (d s m : Int) (cs : List ConnectivityOctree)
    (ds : List Data) (h : cs ≠ []) (x : Data) :
    Stored (.mk lb ub d s m cs ds) x ↔ ∃ c ∈ cs, Stored c x := by
  unfold Stored
  rw [leafNodes_node lb ub d s m cs ds h]
  simp only [List.mem_flatMap]
  constructor
  · rintro ⟨n, ⟨c, hc, hn⟩, hx⟩
    exact ⟨c, hc, n, hn, hx⟩
  · rintro ⟨c, hc, n, hn, hx⟩
    exact ⟨n, ⟨c, hc, hn⟩, hx⟩

theorem nodupLeaves_leaf (lb ub : Vec3) (d s m : Int) (ds : List Data) :
    NodupLeaves (.mk lb ub d s m [] ds) ↔ (ds.map Data.index).Nodup := by
  simp [NodupLeaves, leafNodes_leaf, ConnectivityOctree.data]

theorem nodupLeaves_node (lb ub : Vec3) (d s m : Int) (cs : List ConnectivityOctree)
    (ds : List Data) (h : cs ≠ []) :
    NodupLeaves (.mk lb ub d s m cs ds) ↔ ∀ c ∈ cs, NodupLeaves c := by
  unfold NodupLeaves
  rw [leafNodes_node lb ub d s m cs ds h]
  simp only [List.mem_flatMap]
  constructor
  · intro hn c hc n hnc
    exact hn n ⟨c, hc, hnc⟩
  · rintro hn n ⟨c, hc, hnc⟩
    exact hn c hc n hnc

theorem fresh_shape (lb ub : Vec3) (d s m : Int) :
    ∀ c ∈ freshChildren lb ub d s m, ∃ lb' ub', c = .mk lb' ub' (d + 1) 10 8 [] [] := by
  intro c hc
  obtain ⟨k, _, rfl⟩ := List.mem_map.1 hc
  exact ⟨_, _, rfl⟩

theorem fresh_length (lb ub : Vec3) (d s m : Int) : (freshChildren lb ub d s m).length = 8 := by
  simp [freshChildren]

theorem redistributed_keepsRecords {L : List Data} {cs₀ cs₁ : List ConnectivityOctree}
    (h : Redistributed KeepsRecords L cs₀ cs₁) :
    cs₁.length = cs₀.length ∧
    (∀ x, (∃ c ∈ cs₁, Stored c x) → (∃ c ∈ cs₀, Stored c x) ∨ x ∈ L) ∧
    ((L.map Data.index).Nodup → (∀ c ∈ cs₀, NodupLeaves c) →
      (∀ c ∈ cs₀, ∀ d ∈ L, ¬ StoredId c d.index) → ∀ c ∈ cs₁, NodupLeaves c) := by
  induction h with
  | nil cs => exact ⟨rfl, fun x hx => Or.inl hx, fun _ h _ => h⟩
  | @cons d ds cs cs₁ cs₂ hstep _ ih =>
    obtain ⟨hlen, hA, hB⟩ := ih
    have hstepA : ∀ x, (∃ c ∈ cs₁, Stored c x) → (∃ c ∈ cs, Stored c x) ∨ x = d := by
      rintro x ⟨c₁, hc₁, hx⟩
      obtain ⟨c, hc, b, hP⟩ := forall₂_right hstep c₁ hc₁
      rcases hP.1 x hx with h | h
      · exact Or.inl ⟨c, hc, h⟩
      · exact Or.inr h
    refine ⟨by rw [hlen, (List.Forall₂.length_eq hstep)], fun x hx => ?_, fun hnd hn hfresh => ?_⟩
    · rcases hA x hx with h | h
      · rcases hstepA x h with h | h
        · exact Or.inl h
        · exact Or.inr (h ▸ List.mem_cons_self _ _)
      · exact Or.inr (List.mem_cons_of_mem _ h)
    · have hnd' := List.nodup_cons.1 (by simpa using hnd :
        (d.index :: ds.map Data.index).Nodup)
      refine hB hnd'.2 ?_ ?_
      · intro c₁ hc₁
        obtain ⟨c, hc, b, hP⟩ := forall₂_right hstep c₁ hc₁
        exact hP.2 (hn c hc) (hfresh c hc d (List.mem_cons_self _ _))
      · rintro c₁ hc₁ d' hd' ⟨x, hx, hxi⟩
        rcases hstepA x ⟨c₁, hc₁, hx⟩ with ⟨c, hc, h⟩ | h
        · exact hfresh c hc d' (List.mem_cons_of_mem _ hd') ⟨x, h, hxi⟩
        · subst h
          exact hnd'.1 (hxi ▸ List.mem_map_of_mem _ hd')

theorem addPoint_keepsRecords (fuel : Nat) (t : ConnectivityOctree) (i : Int) (p : Vec3)
    (r : Double) (b : Bool) (t' : ConnectivityOctree) (h : addPoint fuel t i p r = some (b, t')) :
    KeepsRecords t ⟨i, p, r⟩ b t' := by
  refine addPoint_induct KeepsRecords ?_ ?_ ?_ ?_ fuel t i p r b t' h
  · intro t e _
    exact ⟨fun x hx => Or.inl hx, fun h _ => h⟩
  · intro lb ub d s m cs ds e cs' _ hcs hch
    have hcs' := forall₂_ne_nil hch hcs
    refine ⟨fun x hx => ?_, fun hn hfresh => ?_⟩
    · obtain ⟨c', hc', hx'⟩ := (stored_node lb ub d s m cs' ds hcs' x).1 hx
      obtain ⟨c, hc, b, hP⟩ := forall₂_right hch c' hc'
      rcases hP.1 x hx' with h | h
      · exact Or.inl ((stored_node lb ub d s m cs ds hcs x).2 ⟨c, hc, h⟩)
      · exact Or.inr h
    · rw [nodupLeaves_node lb ub d s m cs' ds hcs']
      rw [nodupLeaves_node lb ub d s m cs ds hcs] at hn
      intro c' hc'
      obtain ⟨c, hc, b, hP⟩ := forall₂_right hch c' hc'
      refine hP.2 (hn c hc) ?_
      rintro ⟨x, hx, hxi⟩
      exact hfresh ⟨x, (stored_node lb ub d s m cs ds hcs x).2 ⟨c, hc, hx⟩, hxi⟩
  · intro lb ub d s m ds e _ _
    refine ⟨fun x hx => ?_, fun hn hfresh => ?_⟩
    · rw [stored_leaf] at hx
      rcases List.mem_append.1 hx with h | h
      · exact Or.inl ((stored_leaf lb ub d s m ds x).2 h)
      · exact Or.inr (by simpa using h)
    · rw [nodupLeaves_leaf] at hn ⊢
      rw [List.map_append, List.nodup_append]
      refine ⟨hn, by simp, ?_⟩
      intro a ha hb
      simp only [List.map_cons, List.map_nil, List.mem_singleton] at hb
      subst hb
      obtain ⟨x, hx, hxi⟩ := List.mem_map.1 ha
      exact hfresh ⟨x, (stored_leaf lb ub d s m ds x).2 hx, hxi⟩
  · intro lb ub d s m ds e cs _ _ _ hred
    obtain ⟨hlen, hA, hB⟩ := redistributed_keepsRecords hred
    have hcs : cs ≠ [] := by
      intro hc
      rw [hc, fresh_length] at hlen
      simp at hlen
    have hempty : ∀ c ∈ freshChildren lb ub d s m, ∀ x, ¬ Stored c x := by
      intro c hc x hx
      obtain ⟨lb', ub', rfl⟩ := fresh_shape lb ub d s m c hc
      rw [stored_leaf] at hx
      simp at hx
    refine ⟨fun x hx => ?_, fun hn hfresh => ?_⟩
    · rcases hA x ((stored_node lb ub d s m cs [] hcs x).1 hx) with ⟨c, hc, h⟩ | h
      · exact absurd h (hempty c hc x)
      · rcases List.mem_append.1 h with h | h
        · exact Or.inl ((stored_leaf lb ub d s m ds x).2 h)
        · exact Or.inr (by simpa using h)
    · rw [nodupLeaves_node lb ub d s m cs [] hcs]
      rw [nodupLeaves_leaf] at hn
      refine hB ?_ ?_ ?_
      · rw [List.map_append, List.nodup_append]
        refine ⟨hn, by simp, ?_⟩
        intro a ha hb
        simp only [List.map_cons, List.map_nil, List.mem_singleton] at hb
        subst hb
        obtain ⟨x, hx, hxi⟩ := List.mem_map.1 ha
        exact hfresh ⟨x, (stored_leaf lb ub d s m ds x).2 hx, hxi⟩
      · intro c hc
        obtain ⟨lb', ub', rfl⟩ := fresh_shape lb ub d s m c hc
        rw [nodupLeaves_leaf]
        simp
      · rintro c hc d' _ ⟨x, hx, _⟩
        exact hempty c hc x hx

theorem addPoints_keepsRecords (fuel : Nat) :
    ∀ (es : List Data) (t t' : ConnectivityOctree), addPoints fuel t es = some t' →
      (∀ x, Stored t' x → Stored t x ∨ x ∈ es) ∧
      (NodupLeaves t → (es.map Data.index).Nodup → (∀ e ∈ es, ¬ StoredId t e.index) →
        NodupLeaves t') := by
  intro es
  induction es with
  | nil =>
    intro t t' h
    simp only [addPoints, Option.some.injEq] at h
    subst h
    exact ⟨fun x hx => Or.inl hx, fun hn _ _ => hn⟩
  | cons e es ih =>
    intro t t' h
    unfold addPoints at h
    cases h₁ : addPoint fuel t e.index e.point e.radius with
    | none => simp [h₁] at h
    | some r =>
      obtain ⟨b, t₁⟩ := r
      simp only [h₁] at h
      obtain ⟨hA₁, hB₁⟩ := addPoint_keepsRecords fuel t e.index e.point e.radius b t₁ h₁
      obtain ⟨hA, hB⟩ := ih t₁ t' h
      refine ⟨fun x hx => ?_, fun hn hnd hfresh => ?_⟩
      · rcases hA x hx with h | h
        · rcases hA₁ x h with h | h
          · exact Or.inl h
          · exact Or.inr (h ▸ List.mem_cons_self _ _)
        · exact Or.inr (List.mem_cons_of_mem _ h)
      · have hnd' := List.nodup_cons.1 (by simpa using hnd :
          (e.index :: es.map Data.index).Nodup)
        refine hB (hB₁ hn (hfresh e (List.mem_cons_self _ _))) hnd'.2 ?_
        rintro e' he' ⟨x, hx, hxi⟩
        rcases hA₁ x hx with h | h
        · exact hfresh e' (List.mem_cons_of_mem _ he') ⟨x, h, hxi⟩
        · subst h
          exact hnd'.1 (hxi ▸ List.mem_map_of_mem _ he')

/-! ## Accepted records stay in the tree -/

theorem accepts_iff (lb ub : Vec3) (d s m : Int) (cs : List ConnectivityOctree)
    (ds : List Data) (e : Data) :
    accepts (.mk lb ub d s m cs ds) e = true ↔ acceptsBox lb ub e := by
  simp [accepts, collide, acceptsBox, Vec3.coord, Vec3.sub, Vec3.add, Vec3.constant,
    ConnectivityOctree.lowerBound, ConnectivityOctree.upperBound]

theorem goodList_iff (cs : List ConnectivityOctree) : GoodList cs ↔ ∀ c ∈ cs, Good c := by
  induction cs with
  | nil => simp [GoodList]
  | cons c cs ih => simp [GoodList, ih]

theorem good_leaf (lb ub : Vec3) (d s m : Int) (ds : List Data) :
    Good (.mk lb ub d s m [] ds) ↔ ∀ x ∈ ds, 0 ≤ x.radius ∧ acceptsBox lb ub x := by
  simp [Good]

theorem good_node (lb ub : Vec3) (d s m : Int) (cs : List ConnectivityOctree)
    (ds : List Data) (h : cs ≠ []) :
    Good (.mk lb ub d s m cs ds) ↔ Covers lb ub cs ∧ ∀ c ∈ cs, Good c := by
  cases cs with
  | nil => exact absurd rfl h
  | cons c cs => rw [Good, goodList_iff]

theorem SameBox.accepts {t t' : ConnectivityOctree} (h : SameBox t t') (e : Data) :
    accepts t' e = accepts t e := by
  unfold Geometry.accepts collide
  rw [h.1, h.2]

theorem covers_of_sameBox {lb ub : Vec3} {cs cs' : List ConnectivityOctree}
    (h : List.Forall₂ SameBox cs cs') (hc : Covers lb ub cs) : Covers lb ub cs' := by
  intro e he hacc
  obtain ⟨c, hcm, ha⟩ := hc e he hacc
  obtain ⟨c', hc', hs⟩ := forall₂_left h c hcm
  exact ⟨c', hc', by rw [hs.accepts e]; exact ha⟩

theorem accepts_fresh (lb ub : Vec3) (d s m : Int) (k : Nat) (e : Data) :
    accepts (updateBoundingBox (newOctree5 lb ub d s m) k) e = true ↔
      acceptsBox
        ⟨if sectorTest k 0 then 0.5 * (lb.x + ub.x) else lb.x,
         if sectorTest k 1 then 0.5 * (lb.y + ub.y) else lb.y,
         if sectorTest k 2 then 0.5 * (lb.z + ub.z) else lb.z⟩
        ⟨if sectorTest k 0 then ub.x else 0.5 * (lb.x + ub.x),
         if sectorTest k 1 then ub.y else 0.5 * (lb.y + ub.y),
         if sectorTest k 2 then ub.z else 0.5 * (lb.z + ub.z)⟩ e := by
  unfold updateBoundingBox
  rw [accepts_iff]
  simp only [List.foldl_cons, List.foldl_nil, updateAxis, newOctree5, Vec3.set, Vec3.coord,
    Vec3.smul, Vec3.add, ConnectivityOctree.lowerBound, ConnectivityOctree.upperBound,
    sectorTest]

theorem covers_fresh (lb ub : Vec3) (d s m : Int) :
    Covers lb ub (freshChildren lb ub d s m) := by
  intro e he hacc
  obtain ⟨⟨hx₁, hx₂⟩, ⟨hy₁, hy₂⟩, ⟨hz₁, hz₂⟩⟩ := hacc
  have key : ∀ bx cy bz : Bool,
      (bx = true ↔ 0.5 * (lb.x + ub.x) < e.point.x - e.radius) →
      (cy = true ↔ 0.5 * (lb.y + ub.y) < e.point.y - e.radius) →
      (bz = true ↔ 0.5 * (lb.z + ub.z) < e.point.z - e.radius) →
      ∃ k, k < 8 ∧ accepts (updateBoundingBox (newOctree5 lb ub (d + 1) s m) k) e = true := by
    intro bx cy bz hbx hcy hbz
    refine ⟨bx.toNat + 2 * cy.toNat + 4 * bz.toNat, ?_, ?_⟩
    · cases bx <;> cases cy <;> cases bz <;> decide
    · rw [accepts_fresh]
      cases bx <;> cases cy <;> cases bz <;>
        simp only [Bool.toNat_false, Bool.toNat_true, Bool.false_eq_true, false_iff,
          true_iff] at hbx hcy hbz ⊢ <;>
        simp only [show sectorTest 0 0 = false from by decide,
          show sectorTest 0 1 = false from by decide, show sectorTest 0 2 = false from by decide,
          show sectorTest 1 0 = true from by decide,
          show sectorTest 1 1 = false from by decide, show sectorTest 1 2 = false from by decide,
          show sectorTest 2 0 = false from by decide,
          show sectorTest 2 1 = true from by decide, show sectorTest 2 2 = false from by decide,
          show sectorTest 3 0 = true from by decide,
          show sectorTest 3 1 = true from by decide, show sectorTest 3 2 = false from by decide,
          show sectorTest 4 0 = false from by decide,
          show sectorTest 4 1 = false from by decide, show sectorTest 4 2 = true from by decide,
          show sectorTest 5 0 = true from by decide,
          show sectorTest 5 1 = false from by decide, show sectorTest 5 2 = true from by decide,
          show sectorTest 6 0 = false from by decide,
          show sectorTest 6 1 = true from by decide, show sectorTest 6 2 = true from by decide,
          show sectorTest 7 0 = true from by decide,
          show sectorTest 7 1 = true from by decide, show sectorTest 7 2 = true from by decide,
          Nat.reduceMul, Nat.reduceAdd, if_true, if_false, Bool.false_eq_true, acceptsBox] <;>
        refine ⟨⟨?_, ?_⟩, ⟨?_, ?_⟩, ⟨?_, ?_⟩⟩ <;>
        first
        | assumption
        | exact fun h => Double.not_add_lt_sub _ _ he (Double.dlt_trans h hbx)
        | exact fun h => Double.not_add_lt_sub _ _ he (Double.dlt_trans h hcy)
        | exact fun h => Double.not_add_lt_sub _ _ he (Double.dlt_trans h hbz)
  obtain ⟨k, hk, hacc⟩ := key
    (decide (0.5 * (lb.x + ub.x) < e.point.x - e.radius))
    (decide (0.5 * (lb.y + ub.y) < e.point.y - e.radius))
    (decide (0.5 * (lb.z + ub.z) < e.point.z - e.radius))
    decide_eq_true_iff decide_eq_true_iff decide_eq_true_iff
  exact ⟨_, List.mem_map.2 ⟨k, List.mem_range.2 hk, rfl⟩, hacc⟩

theorem eachChild_retains {d : Data} {cs cs₁ : List ConnectivityOctree}
    (h : EachChild Retains d cs cs₁) :
    (∀ e, (∃ c ∈ cs, accepts c e = true) → ∃ c ∈ cs₁, accepts c e = true) ∧
    ((∀ c ∈ cs, Good c) → 0 ≤ d.radius →
      (∀ c ∈ cs₁, Good c) ∧ ((∃ c ∈ cs, accepts c d = true) → ∃ c ∈ cs₁, Stored c d) ∧
      ∀ x, (∃ c ∈ cs, Stored c x) → ∃ c ∈ cs₁, Stored c x) := by
  refine ⟨?_, fun hg hd => ⟨?_, ?_, ?_⟩⟩
  · rintro e ⟨c, hc, ha⟩
    obtain ⟨c₁, hc₁, b, hP⟩ := forall₂_left h c hc
    exact ⟨c₁, hc₁, by rw [hP.2.1.accepts e]; exact ha⟩
  · intro c₁ hc₁
    obtain ⟨c, hc, b, hP⟩ := forall₂_right h c₁ hc₁
    exact (hP.2.2 (hg c hc) hd).1
  · rintro ⟨c, hc, ha⟩
    obtain ⟨c₁, hc₁, b, hP⟩ := forall₂_left h c hc
    exact ⟨c₁, hc₁, (hP.2.2 (hg c hc) hd).2.1 (by rw [hP.1]; exact ha)⟩
  · rintro x ⟨c, hc, hx⟩
    obtain ⟨c₁, hc₁, b, hP⟩ := forall₂_left h c hc
    exact ⟨c₁, hc₁, (hP.2.2 (hg c hc) hd).2.2 x hx⟩

theorem redistributed_retains {L : List Data} {cs₀ cs₁ : List ConnectivityOctree}
    (h : Redistributed Retains L cs₀ cs₁) :
    cs₁.length = cs₀.length ∧
    (∀ e, (∃ c ∈ cs₀, accepts c e = true) → ∃ c ∈ cs₁, accepts c e = true) ∧
    ((∀ c ∈ cs₀, Good c) → (∀ d ∈ L, 0 ≤ d.radius ∧ ∃ c ∈ cs₀, accepts c d = true) →
      (∀ c ∈ cs₁, Good c) ∧ (∀ d ∈ L, ∃ c ∈ cs₁, Stored c d) ∧
      ∀ x, (∃ c ∈ cs₀, Stored c x) → ∃ c ∈ cs₁, Stored c x) := by
  induction h with
  | nil cs => exact ⟨rfl, fun e he => he, fun hg _ => ⟨hg, by simp, fun x hx => hx⟩⟩
  | @cons d ds cs cs₁ cs₂ hstep _ ih =>
    obtain ⟨hacc₁, hrest₁⟩ := eachChild_retains hstep
    obtain ⟨hlen, hacc₂, hrest₂⟩ := ih
    refine ⟨by rw [hlen, List.Forall₂.length_eq hstep],
      fun e he => hacc₂ e (hacc₁ e he), fun hg hL => ?_⟩
    obtain ⟨hd, hdacc⟩ := hL d (List.mem_cons_self _ _)
    obtain ⟨hg₁, hst₁, hkeep₁⟩ := hrest₁ hg hd
    obtain ⟨hg₂, hst₂, hkeep₂⟩ := hrest₂ hg₁ (fun d' hd' =>
      ⟨(hL d' (List.mem_cons_of_mem _ hd')).1,
        hacc₁ d' (hL d' (List.mem_cons_of_mem _ hd')).2⟩)
    refine ⟨hg₂, fun d' hd' => ?_, fun x hx => hkeep₂ x (hkeep₁ x hx)⟩
    rcases List.mem_cons.1 hd' with rfl | hd'
    · exact hkeep₂ d' (hst₁ hdacc)
    · exact hst₂ d' hd'

theorem addPoint_retains (fuel : Nat) (t : ConnectivityOctree) (i : Int) (p : Vec3)
    (r : Double) (b : Bool) (t' : ConnectivityOctree) (h : addPoint fuel t i p r = some (b, t')) :
    Retains t ⟨i, p, r⟩ b t' := by
  refine addPoint_induct Retains ?_ ?_ ?_ ?_ fuel t i p r b t' h
  · intro t e hacc
    exact ⟨hacc.symm, ⟨rfl, rfl⟩, fun hg _ => ⟨hg, by simp, fun x hx => hx⟩⟩
  · intro lb ub d s m cs ds e cs' hacc hcs hch
    have hcs' := forall₂_ne_nil hch hcs
    obtain ⟨hacc₁, hrest₁⟩ := eachChild_retains hch
    refine ⟨hacc.symm, ⟨rfl, rfl⟩, fun hg he => ?_⟩
    rw [good_node lb ub d s m cs ds hcs] at hg
    obtain ⟨hg₁, hst₁, hkeep₁⟩ := hrest₁ hg.2 he
    have hcov : Covers lb ub cs' := fun e' he' ha' => hacc₁ e' (hg.1 e' he' ha')
    refine ⟨(good_node lb ub d s m cs' ds hcs').2 ⟨hcov, hg₁⟩, fun _ => ?_, fun x hx => ?_⟩
    · exact (stored_node lb ub d s m cs' ds hcs' e).2
        (hst₁ (hg.1 e he ((accepts_iff lb ub d s m cs ds e).1 hacc)))
    · exact (stored_node lb ub d s m cs' ds hcs' x).2
        (hkeep₁ x ((stored_node lb ub d s m cs ds hcs x).1 hx))
  · intro lb ub d s m ds e hacc _
    refine ⟨hacc.symm, ⟨rfl, rfl⟩, fun hg he => ⟨?_, fun _ => ?_, fun x hx => ?_⟩⟩
    · rw [good_leaf] at hg ⊢
      intro x hx
      rcases List.mem_append.1 hx with hx | hx
      · exact hg x hx
      · have : x = e := by simpa using hx
        subst this
        exact ⟨he, (accepts_iff lb ub d s m [] ds x).1 hacc⟩
    · rw [stored_leaf]; simp
    · rw [stored_leaf] at hx ⊢
      exact List.mem_append_left _ hx
  · intro lb ub d s m ds e cs hacc _ _ hred
    obtain ⟨hlen, hacc₁, hrest₁⟩ := redistributed_retains hred
    have hcs : cs ≠ [] := by
      intro hc
      rw [hc, fresh_length] at hlen
      simp at hlen
    refine ⟨hacc.symm, ⟨rfl, rfl⟩, fun hg he => ?_⟩
    rw [good_leaf] at hg
    have hfresh : ∀ c ∈ freshChildren lb ub d s m, Good c := by
      intro c hc
      obtain ⟨lb', ub', rfl⟩ := fresh_shape lb ub d s m c hc
      rw [good_leaf]
      simp
    have hL : ∀ x ∈ ds ++ [e], 0 ≤ x.radius ∧
        ∃ c ∈ freshChildren lb ub d s m, accepts c x = true := by
      intro x hx
      have hx' : 0 ≤ x.radius ∧ acceptsBox lb ub x := by
        rcases List.mem_append.1 hx with hx | hx
        · exact hg x hx
        · have : x = e := by simpa using hx
          subst this
          exact ⟨he, (accepts_iff lb ub d s m [] ds x).1 hacc⟩
      exact ⟨hx'.1, covers_fresh lb ub d s m x hx'.1 hx'.2⟩
    obtain ⟨hg₁, hst₁, _⟩ := hrest₁ hfresh hL
    have hcov : Covers lb ub cs :=
      fun e' he' ha' => hacc₁ e' (covers_fresh lb ub d s m e' he' ha')
    refine ⟨(good_node lb ub d s m cs [] hcs).2 ⟨hcov, hg₁⟩, fun _ => ?_, fun x hx => ?_⟩
    · exact (stored_node lb ub d s m cs [] hcs e).2 (hst₁ e (by simp))
    · rw [stored_leaf] at hx
      exact (stored_node lb ub d s m cs [] hcs x).2 (hst₁ x (List.mem_append_left _ hx))

/-! ## Enough fuel -/

theorem callDepthList_le (cs : List ConnectivityOctree) (n : Nat) :
    callDepthList cs ≤ n ↔ ∀ c ∈ cs, callDepth c ≤ n := by
  induction cs with
  | nil => simp [callDepthList]
  | cons c cs ih => simp [callDepthList, ih]

theorem callDepth_node (lb ub : Vec3) (d s m : Int) (cs : List ConnectivityOctree)
    (ds : List Data) (h : cs ≠ []) :
    callDepth (.mk lb ub d s m cs ds) = 1 + callDepthList cs := by
  cases cs with
  | nil => exact absurd rfl h
  | cons c cs => rw [callDepth]

theorem callDepth_leaf (lb ub : Vec3) (d s m : Int) (ds : List Data) :
    callDepth (.mk lb ub d s m [] ds) = if d > m then 1 else 2 + (8 - d).toNat := by
  rw [callDepth]

theorem addToChildren_total (add : ConnectivityOctree → Option (Bool × ConnectivityOctree))
    (k : Nat)
    (hadd : ∀ c, callDepth c ≤ k → ∃ b c', add c = some (b, c') ∧ callDepth c' ≤ k) :
    ∀ cs : List ConnectivityOctree, (∀ c ∈ cs, callDepth c ≤ k) →
      ∃ cs', addToChildren add cs = some cs' ∧ cs'.length = cs.length ∧
        ∀ c ∈ cs', callDepth c ≤ k := by
  intro cs
  induction cs with
  | nil => intro _; exact ⟨[], rfl, rfl, by simp⟩
  | cons c cs ih =>
    intro h
    obtain ⟨b, c', hc, hk⟩ := hadd c (h c (List.mem_cons_self _ _))
    obtain ⟨cs', hcs, hlen, hk'⟩ := ih (fun x hx => h x (List.mem_cons_of_mem _ hx))
    refine ⟨c' :: cs', ?_, by simp [hlen], ?_⟩
    · unfold addToChildren
      simp only [hc, hcs]
    · intro x hx
      rcases List.mem_cons.1 hx with rfl | hx
      · exact hk
      · exact hk' x hx

theorem redistribute_total
    (add : ConnectivityOctree → Int → Vec3 → Double → Option (Bool × ConnectivityOctree)) (k : Nat)
    (hadd : ∀ c i p r, callDepth c ≤ k →
      ∃ b c', add c i p r = some (b, c') ∧ callDepth c' ≤ k) :
    ∀ (ds : List Data) (cs : List ConnectivityOctree), (∀ c ∈ cs, callDepth c ≤ k) →
      ∃ cs', redistribute add ds cs = some cs' ∧ cs'.length = cs.length ∧
        ∀ c ∈ cs', callDepth c ≤ k := by
  intro ds
  induction ds with
  | nil => intro cs h; exact ⟨cs, rfl, rfl, h⟩
  | cons d ds ih =>
    intro cs h
    obtain ⟨cs₁, h₁, hlen₁, hk₁⟩ :=
      addToChildren_total (fun c => add c d.index d.point d.radius) k
        (fun c hc => hadd c d.index d.point d.radius hc) cs h
    obtain ⟨cs₂, h₂, hlen₂, hk₂⟩ := ih cs₁ hk₁
    refine ⟨cs₂, ?_, by rw [hlen₂, hlen₁], hk₂⟩
    unfold redistribute
    simp only [h₁, h₂]

theorem callDepth_fresh (lb ub : Vec3) (d s m : Int) :
    ∀ c ∈ freshChildren lb ub d s m, callDepth c ≤ 1 + (8 - d).toNat := by
  intro c hc
  obtain ⟨lb', ub', rfl⟩ := fresh_shape lb ub d s m c hc
  rw [callDepth_leaf]
  split_ifs <;> omega

theorem addPoint_total :
    ∀ (fuel : Nat) (t : ConnectivityOctree) (i : Int) (p : Vec3) (r : Double),
      callDepth t ≤ fuel →
      ∃ b t', addPoint fuel t i p r = some (b, t') ∧ callDepth t' ≤ callDepth t := by
  intro fuel
  induction fuel with
  | zero =>
    intro t i p r h
    obtain ⟨lb, ub, d, s, m, cs, ds⟩ := t
    cases cs with
    | nil => rw [callDepth_leaf] at h; split_ifs at h <;> omega
    | cons c cs => rw [callDepth_node _ _ _ _ _ _ _ (by simp)] at h; omega
  | succ fuel ih =>
    intro t i p r h
    obtain ⟨lb, ub, d, s, m, cs, ds⟩ := t
    have ih' : ∀ k, k ≤ fuel → ∀ c i p r, callDepth c ≤ k →
        ∃ b c', addPoint fuel c i p r = some (b, c') ∧ callDepth c' ≤ k := by
      intro k hk c i p r hc
      obtain ⟨b, c', h₁, h₂⟩ := ih c i p r (le_trans hc hk)
      exact ⟨b, c', h₁, le_trans h₂ hc⟩
    unfold addPoint
    simp only
    by_cases hacc : collide (.mk lb ub d s m cs ds) (Vec3.sub p (Vec3.constant r))
        (Vec3.add p (Vec3.constant r)) = true
    · simp only [hacc, Bool.not_true, Bool.false_eq_true, if_false]
      cases cs with
      | cons c cs =>
        rw [callDepth_node _ _ _ _ _ _ _ (by simp)] at h ⊢
        obtain ⟨cs', hcs, hlen, hk⟩ :=
          addToChildren_total (fun c => addPoint fuel c i p r) (callDepthList (c :: cs))
            (fun c hc => ih' _ (by omega) c i p r hc) (c :: cs)
            ((callDepthList_le _ _).1 (le_refl _))
        have hne : cs' ≠ [] := by
          intro h0
          rw [h0] at hlen
          simp at hlen
        refine ⟨true, .mk lb ub d s m cs' ds, ?_, ?_⟩
        · simp only [hasChildren, ConnectivityOctree.children, List.isEmpty_cons,
            Bool.not_false, if_true, hcs, ConnectivityOctree.lowerBound,
            ConnectivityOctree.upperBound, ConnectivityOctree.depth,
            ConnectivityOctree.maxStorage, ConnectivityOctree.maxDepth,
            ConnectivityOctree.data]
        · rw [callDepth_node _ _ _ _ _ _ _ hne]
          have := (callDepthList_le cs' _).2 hk
          omega
      | nil =>
        simp only [hasChildren, ConnectivityOctree.children, List.isEmpty_nil, Bool.not_true,
          Bool.false_eq_true, if_false, ConnectivityOctree.lowerBound,
          ConnectivityOctree.upperBound, ConnectivityOctree.depth,
          ConnectivityOctree.maxStorage, ConnectivityOctree.maxDepth,
          ConnectivityOctree.data]
        by_cases hfull : ((ds ++ [(⟨i, p, r⟩ : Data)]).length : Int) > toSizeT s
        · simp only [hfull, if_true]
          unfold split
          simp only [ConnectivityOctree.lowerBound,
            ConnectivityOctree.upperBound, ConnectivityOctree.depth,
            ConnectivityOctree.maxStorage, ConnectivityOctree.maxDepth,
            ConnectivityOctree.data]
          by_cases hdeep : d > m
          · simp only [hdeep, if_true]
            exact ⟨true, _, rfl, by rw [callDepth_leaf, callDepth_leaf]⟩
          · simp only [hdeep, if_false]
            rw [callDepth_leaf] at h ⊢
            simp only [hdeep, if_false] at h ⊢
            obtain ⟨cs', hcs, hlen, hk⟩ :=
              redistribute_total (addPoint fuel) (1 + (8 - d).toNat)
                (fun c i p r hc => ih' _ (by omega) c i p r hc) (ds ++ [⟨i, p, r⟩])
                (freshChildren lb ub d s m) (callDepth_fresh lb ub d s m)
            have hne : cs' ≠ [] := by
              intro h0
              rw [h0, fresh_length] at hlen
              simp at hlen
            refine ⟨true, .mk lb ub d s m cs' [], ?_, ?_⟩
            · have hcs' : redistribute (addPoint fuel) (ds ++ [⟨i, p, r⟩])
                  (List.map (fun sector =>
                    updateBoundingBox (newOctree5 lb ub (d + 1) s m) sector) (List.range 8))
                  = some cs' := hcs
              simp only [hcs']
            · rw [callDepth_node _ _ _ _ _ _ _ hne]
              have := (callDepthList_le cs' _).2 hk
              omega
        · simp only [hfull, if_false]
          exact ⟨true, _, rfl, by rw [callDepth_leaf, callDepth_leaf]⟩
    · simp only [hacc, Bool.not_false, if_true]
      exact ⟨false, _, by simp, le_refl _⟩

theorem addPoints_total (fuel : Nat) :
    ∀ (es : List Data) (t : ConnectivityOctree), callDepth t ≤ fuel →
      ∃ t', addPoints fuel t es = some t' ∧ callDepth t' ≤ callDepth t := by
  intro es
  induction es with
  | nil => intro t _; exact ⟨t, rfl, le_refl _⟩
  | cons e es ih =>
    intro t h
    obtain ⟨b, t₁, h₁, hk⟩ := addPoint_total fuel t e.index e.point e.radius h
    obtain ⟨t', h', hk'⟩ := ih t₁ (le_trans hk h)
    refine ⟨t', ?_, le_trans hk' hk⟩
    unfold addPoints
    simp only [h₁, h']

/-! ## Trees built from a fresh root -/

theorem addPoints_retains (fuel : Nat) :
    ∀ (es : List Data) (t t' : ConnectivityOctree), addPoints fuel t es = some t' →
      Good t → (∀ e ∈ es, 0 ≤ e.radius) →
      Good t' ∧ SameBox t t' ∧ (∀ e ∈ es, accepts t e = true → Stored t' e) ∧
        ∀ x, Stored t x → Stored t' x := by
  intro es
  induction es with
  | nil =>
    intro t t' h hg _
    simp only [addPoints, Option.some.injEq] at h
    subst h
    exact ⟨hg, ⟨rfl, rfl⟩, by simp, fun x hx => hx⟩
  | cons e es ih =>
    intro t t' h hg hr
    unfold addPoints at h
    cases h₁ : addPoint fuel t e.index e.point e.radius with
    | none => simp [h₁] at h
    | some r =>
      obtain ⟨b, t₁⟩ := r
      simp only [h₁] at h
      obtain ⟨hb, hbox₁, hrest⟩ := addPoint_retains fuel t e.index e.point e.radius b t₁ h₁
      obtain ⟨hg₁, hst₁, hkeep₁⟩ := hrest hg (hr e (List.mem_cons_self _ _))
      obtain ⟨hg', hbox', hst', hkeep'⟩ :=
        ih t₁ t' h hg₁ (fun x hx => hr x (List.mem_cons_of_mem _ hx))
      refine ⟨hg', ⟨hbox'.1.trans hbox₁.1, hbox'.2.trans hbox₁.2⟩, fun x hx hacc => ?_,
        fun x hx => hkeep' x (hkeep₁ x hx)⟩
      rcases List.mem_cons.1 hx with rfl | hx
      · exact hkeep' _ (hst₁ (by rw [hb]; exact hacc))
      · exact hst' x hx (by rw [hbox₁.accepts x]; exact hacc)

theorem callDepth_newOctree5 (lb ub : Vec3) (depth s m : Int) (hdepth : 0 ≤ depth) :
    callDepth (newOctree5 lb ub depth s m) ≤ 10 := by
  unfold newOctree5
  rw [callDepth_leaf]
  split_ifs <;> omega

theorem not_stored_newOctree5 (lb ub : Vec3) (depth s m : Int) (x : Data) :
    ¬ Stored (newOctree5 lb ub depth s m) x := by
  unfold newOctree5
  rw [stored_leaf]
  simp

theorem good_newOctree5 (lb ub : Vec3) (depth s m : Int) :
    Good (newOctree5 lb ub depth s m) := by
  unfold newOctree5
  rw [good_leaf]
  simp

theorem newOctree_eq (lb ub : Vec3) : newOctree lb ub = newOctree5 lb ub 0 10 8 := rfl

/-- The facts about a tree built from a fresh root that the theorems on `findCollisions`
rest on. -/
theorem built_tree (lb ub : Vec3) (depth s m : Int) (es : List Data) (fuel : Nat)
    (hdepth : 0 ≤ depth) (hfuel : 10 ≤ fuel) :
    ∃ t, addPoints fuel (newOctree5 lb ub depth s m) es = some t ∧
      (∀ x, Stored t x → x ∈ es) ∧
      ((es.map Data.index).Nodup → NodupLeaves t) ∧
      ((∀ e ∈ es, 0 ≤ e.radius) → ∀ e ∈ es, acceptsBox lb ub e → Stored t e) := by
  obtain ⟨t, ht, _⟩ := addPoints_total fuel es (newOctree5 lb ub depth s m)
    (le_trans (callDepth_newOctree5 lb ub depth s m hdepth) hfuel)
  obtain ⟨hA, hB⟩ := addPoints_keepsRecords fuel es _ t ht
  refine ⟨t, ht, fun x hx => ?_, fun hnd => ?_, fun hr e he hacc => ?_⟩
  · rcases hA x hx with h | h
    · exact absurd h (not_stored_newOctree5 lb ub depth s m x)
    · exact h
  · refine hB ?_ hnd ?_
    · unfold newOctree5
      rw [nodupLeaves_leaf]
      simp
    · rintro e _ ⟨x, hx, _⟩
      exact not_stored_newOctree5 lb ub depth s m x hx
  · exact (addPoints_retains fuel es _ t ht (good_newOctree5 lb ub depth s m) hr).2.2.1 e he
      ((accepts_iff lb ub depth 10 8 [] [] e).2 hacc)

theorem close_iff (tolerance : Double) (a b : Data) :
    Close tolerance a b ↔ sqDist a b ≤ sqBond tolerance a b := Iff.rfl

theorem PairIn.index_ne {l : List Data} (hl : (l.map Data.index).Nodup) {a b : Data}
    (h : PairIn l a b) : a.index ≠ b.index := by
  intro hab
  rcases h with h | h
  · have := (h.map Data.index).nodup hl
    simp [hab] at this
  · have := (h.map Data.index).nodup hl
    simp [hab] at this

theorem pairIn_of_mem {l : List Data} {a b : Data} (ha : a ∈ l) (hb : b ∈ l) (hab : a ≠ b) :
    PairIn l a b := by
  induction l with
  | nil => simp at ha
  | cons d rest ih =>
    rw [pairIn_cons]
    rcases List.mem_cons.1 ha with ha' | ha'
    · rcases List.mem_cons.1 hb with hb' | hb'
      · exact absurd (ha'.trans hb'.symm) hab
      · exact Or.inr (Or.inl ⟨ha', hb'⟩)
    · rcases List.mem_cons.1 hb with hb' | hb'
      · exact Or.inr (Or.inr ⟨hb', ha'⟩)
      · exact Or.inl (ih ha' hb')

theorem acceptsBox_of_inside {lb ub : Vec3} {e : Data} (hd : e.point.IsDouble)
    (hr : 0 ≤ e.radius) (h : Inside lb ub e.point) : acceptsBox lb ub e := by
  obtain ⟨⟨h1, h2⟩, ⟨h3, h4⟩, ⟨h5, h6⟩⟩ := h
  obtain ⟨d1, d2, d3⟩ := hd
  exact ⟨⟨Double.not_lt_sub _ _ _ d1 hr h2, Double.not_add_lt _ _ _ d1 hr h1⟩,
    ⟨Double.not_lt_sub _ _ _ d2 hr h4, Double.not_add_lt _ _ _ d2 hr h3⟩,
    ⟨Double.not_lt_sub _ _ _ d3 hr h6, Double.not_add_lt _ _ _ d3 hr h5⟩⟩

theorem bonded_findCollisions (t : ConnectivityOctree) (tolerance : Double) (x y : Int) :
    Bonded (mapFind (findCollisions t [] tolerance)) x y ↔
      ∃ n ∈ leafNodes t, ∃ a b, PairIn n.data a b ∧
        sqDist a b ≤ sqBond tolerance a b ∧ a.index = x ∧ b.index = y := by
  rw [(findCollisions_spec t tolerance).2.1 x y]
  constructor
  · rintro ⟨l, hl, a, b, hp, hc, rfl, rfl⟩
    obtain ⟨n, hn, rfl⟩ := List.mem_map.1 hl
    exact ⟨n, hn, a, b, hp, (close_iff tolerance a b).1 hc, rfl, rfl⟩
  · rintro ⟨n, hn, a, b, hp, hc, rfl, rfl⟩
    exact ⟨n.data, List.mem_map.2 ⟨n, hn, rfl⟩, a, b, hp, (close_iff tolerance a b).2 hc,
      rfl, rfl⟩

/-- C1, as amended. For every root box, every tolerance and every finite sequence of
entities of non-negative radius with pairwise distinct ids whose centres are binary64 points
inside the root box, building the tree with `addPoint` (with enough fuel the build returns)
and calling `findCollisions` on an empty map yields a map in which every inserted id is a
key and `b` is in `map[a]` iff `a ≠ b`, the squared distance between the centres is at most
the square of `r_a + r_b + tolerance`, both as lines 203-205 compute them in `double`, and
some leaf of the tree holds both `a` and `b`. -/
theorem findCollisions_same_leaf_pairs (lb ub : Vec3) (tolerance : Double) (es : List Data)
    (fuel : Nat) (hfuel : 10 ≤ fuel) (hids : (es.map Data.index).Nodup)
    (hradius : ∀ e ∈ es, 0 ≤ e.radius) (hdouble : ∀ e ∈ es, e.point.IsDouble)
    (hinside : ∀ e ∈ es, Inside lb ub e.point) :
    ∃ t, addPoints fuel (newOctree lb ub) es = some t ∧
      (∀ e ∈ es, mapFind (findCollisions t [] tolerance) e.index ≠ none) ∧
      ∀ a ∈ es, ∀ b ∈ es,
        (Bonded (mapFind (findCollisions t [] tolerance)) a.index b.index ↔
          a.index ≠ b.index ∧ sqDist a b ≤ sqBond tolerance a b ∧
            ∃ n ∈ leafNodes t, a ∈ n.data ∧ b ∈ n.data) := by
  obtain ⟨t, ht, hsub, hnd, hst⟩ := built_tree lb ub 0 10 8 es fuel (le_refl 0) hfuel
  refine ⟨t, ht, fun e he => ?_, fun a ha b hb => ?_⟩
  · rw [(findCollisions_spec t tolerance).2.2]
    exact ⟨e, hst hradius e he
      (acceptsBox_of_inside (hdouble e he) (hradius e he) (hinside e he)), rfl⟩
  · rw [bonded_findCollisions]
    constructor
    · rintro ⟨n, hn, a', b', hp, hc, hia, hib⟩
      have ha' : a' = a :=
        List.inj_on_of_nodup_map hids (hsub a' ⟨n, hn, hp.mem.1⟩) ha hia
      have hb' : b' = b :=
        List.inj_on_of_nodup_map hids (hsub b' ⟨n, hn, hp.mem.2⟩) hb hib
      subst ha' hb'
      exact ⟨hp.index_ne (hnd hids n hn), hc, n, hn, hp.mem.1, hp.mem.2⟩
    · rintro ⟨hne, hc, n, hn, han, hbn⟩
      exact ⟨n, hn, a, b, pairIn_of_mem han hbn (fun h => hne (by rw [h])), hc, rfl, rfl⟩

/-- Witness of `findCollisions_same_leaf_pairs` on the eleven points of `farApart`. -/
theorem findCollisions_same_leaf_pairs_witness :
    10 ≤ 10 ∧ (farApart.map Data.index).Nodup ∧ (∀ e ∈ farApart, 0 ≤ e.radius) ∧
    (∀ e ∈ farApart, e.point.IsDouble) ∧
    (∀ e ∈ farApart, Inside ⟨0, 0, 0⟩ ⟨16, 16, 16⟩ e.point) ∧
    ∃ t, addPoints 10 (newOctree ⟨0, 0, 0⟩ ⟨16, 16, 16⟩) farApart = some t ∧
      (∀ e ∈ farApart, mapFind (findCollisions t [] 25) e.index ≠ none) ∧
      ∀ a ∈ farApart, ∀ b ∈ farApart,
        (Bonded (mapFind (findCollisions t [] 25)) a.index b.index ↔
          a.index ≠ b.index ∧ sqDist a b ≤ sqBond 25 a b ∧
            ∃ n ∈ leafNodes t, a ∈ n.data ∧ b ∈ n.data) :=
  ⟨le_refl 10, by decide, by decide!, by decide!, by decide!,
    findCollisions_same_leaf_pairs ⟨0, 0, 0⟩ ⟨16, 16, 16⟩ 25 farApart 10 (le_refl 10)
      (by decide) (by decide!) (by decide!) (by decide!)⟩

/-- C1, counterexample. The eleven points of `farApart` have distinct ids, radius `0` and lie
inside the cube `[0,16]³`; entities `0` and `1` are at squared distance `588 ≤ (0 + 0 + 25)²`
and the brute-force comparison bonds entity `0` to all ten others, yet `findCollisions` with
tolerance `25` returns the empty set for id `0`: after the split the two entities are held
by different leaves. And the two spheres of `roundedApart`, in the unit cube, are bonded by
`findCollisions` with tolerance `0` although their exact squared distance `1` exceeds the
exact `(r_a + r_b)²`, so that the brute-force comparison does not bond them. -/
theorem findCollisions_misses_far_pair :
    ((farApart.map Data.index).Nodup ∧
      (∀ e ∈ farApart, 0 ≤ e.radius ∧ e.point.IsDouble ∧
        Inside ⟨0, 0, 0⟩ ⟨16, 16, 16⟩ e.point) ∧
      (addPoints 10 (newOctree ⟨0, 0, 0⟩ ⟨16, 16, 16⟩) farApart).map
        (fun t => mapFind (findCollisions t [] 25) 0) = some (some []) ∧
      mapFind (bruteForceCollisions 25 farApart) 0 = some [1, 2, 3, 4, 5, 6, 7, 8, 9, 10] ∧
      (⟨0, ⟨1, 1, 1⟩, 0⟩ : Data) ∈ farApart ∧ (⟨1, ⟨15, 15, 15⟩, 0⟩ : Data) ∈ farApart ∧
      exactSqDist ⟨0, ⟨1, 1, 1⟩, 0⟩ ⟨1, ⟨15, 15, 15⟩, 0⟩ = 588 ∧
      exactBond 25 ⟨0, ⟨1, 1, 1⟩, 0⟩ ⟨1, ⟨15, 15, 15⟩, 0⟩ ^ 2 = 625) ∧
    ((roundedApart.map Data.index).Nodup ∧
      (∀ e ∈ roundedApart, 0 ≤ e.radius ∧ e.radius.IsDouble ∧ e.point.IsDouble ∧
        Inside ⟨0, 0, 0⟩ ⟨1, 1, 1⟩ e.point) ∧
      (addPoints 10 (newOctree ⟨0, 0, 0⟩ ⟨1, 1, 1⟩) roundedApart).map
        (fun t => findCollisions t [] 0) = some [(0, [1]), (1, [0])] ∧
      bruteForceCollisions 0 roundedApart = [(0, []), (1, [])] ∧
      ∀ a ∈ roundedApart, ∀ b ∈ roundedApart, a.index ≠ b.index →
        exactBond 0 a b ^ 2 < exactSqDist a b) := by
  decide!

/-- C2, as amended. Soundness of the proximity query: in the tree built by `addPoint` calls
from a root made by either constructor (with enough fuel the build returns), whenever
`findCollisions` on an empty map puts `b` in `map[a]`, the ids `a` and `b` belong to two
inserted entities that are stored in the tree and for which the squared distance of the
centres is at most the square of `r_a + r_b + tolerance`, both as lines 203-205 compute
them in `double`. -/
theorem findCollisions_sound (lb ub : Vec3) (depth maxStorage maxDepth : Int)
    (tolerance : Double) (es : List Data) (fuel : Nat) (hdepth : 0 ≤ depth) (hfuel : 10 ≤ fuel) :
    ∃ t, addPoints fuel (newOctree5 lb ub depth maxStorage maxDepth) es = some t ∧
      ∀ a b, Bonded (mapFind (findCollisions t [] tolerance)) a b →
        ∃ da db, da ∈ es ∧ db ∈ es ∧ Stored t da ∧ Stored t db ∧
          da.index = a ∧ db.index = b ∧ sqDist da db ≤ sqBond tolerance da db := by
  obtain ⟨t, ht, hsub, _, _⟩ := built_tree lb ub depth maxStorage maxDepth es fuel hdepth hfuel
  refine ⟨t, ht, fun a b hab => ?_⟩
  obtain ⟨n, hn, da, db, hp, hc, hia, hib⟩ := (bonded_findCollisions t tolerance a b).1 hab
  have hda : Stored t da := ⟨n, hn, hp.mem.1⟩
  have hdb : Stored t db := ⟨n, hn, hp.mem.2⟩
  exact ⟨da, db, hsub da hda, hsub db hdb, hda, hdb, hia, hib, hc⟩

/-- Witness of `findCollisions_sound` on scenario A. -/
theorem findCollisions_sound_witness :
    (0 : Int) ≤ 0 ∧ 10 ≤ 10 ∧
    (∃ t, addPoints 10 (newOctree5 ⟨-1, -1, -1⟩ ⟨6, 6, 6⟩ 0 10 8) scenarioA = some t ∧
      ∀ a b, Bonded (mapFind (findCollisions t [] 0.1)) a b →
        ∃ da db, da ∈ scenarioA ∧ db ∈ scenarioA ∧ Stored t da ∧ Stored t db ∧
          da.index = a ∧ db.index = b ∧ sqDist da db ≤ sqBond 0.1 da db) ∧
    (addPoints 10 (newOctree5 ⟨-1, -1, -1⟩ ⟨6, 6, 6⟩ 0 10 8) scenarioA).map
      (fun t => findCollisions t [] 0.1) = some [(0, [1]), (1, [0]), (2, [])] :=
  ⟨le_refl 0, le_refl 10,
    findCollisions_sound ⟨-1, -1, -1⟩ ⟨6, 6, 6⟩ 0 10 8 0.1 scenarioA 10 (le_refl 0)
      (le_refl 10), by decide!⟩

/-- C2, counterexample. The two spheres of `roundedApart` are inserted in the unit cube;
`findCollisions` with tolerance `0` puts `1` in `map[0]`, and the exact squared distance of
the centres, `1`, is greater than the exact `(r_0 + r_1 + 0)² = (1 - 2⁻⁵⁴)²`. -/
theorem findCollisions_bonds_rounded_pair :
    (∀ e ∈ roundedApart, 0 ≤ e.radius ∧ e.radius.IsDouble ∧ e.point.IsDouble) ∧
    (addPoints 10 (newOctree ⟨0, 0, 0⟩ ⟨1, 1, 1⟩) roundedApart).map
      (fun t => mapFind (findCollisions t [] 0) 0) = some (some [1]) ∧
    exactSqDist ⟨0, ⟨0, 0, 0⟩, 0.5⟩ ⟨1, ⟨1, 0, 0⟩, .finite (1 / 2 - 1 / 2 ^ 54)⟩ = 1 ∧
    exactBond 0 ⟨0, ⟨0, 0, 0⟩, 0.5⟩ ⟨1, ⟨1, 0, 0⟩, .finite (1 / 2 - 1 / 2 ^ 54)⟩ ^ 2 < 1 := by
  decide!

/-- C3. Symmetry: in the tree built by `addPoint` calls from a root made by either
constructor, the map produced by `findCollisions` from an empty map has `b ∈ map[a]` iff
`a ∈ map[b]`, and every id that occurs in an adjacency set is a key. -/
theorem findCollisions_symmetric (lb ub : Vec3) (depth maxStorage maxDepth : Int)
    (tolerance : Double) (es : List Data) (fuel : Nat) (hdepth : 0 ≤ depth) (hfuel : 10 ≤ fuel) :
    ∃ t, addPoints fuel (newOctree5 lb ub depth maxStorage maxDepth) es = some t ∧
      ∀ a b,
        (Bonded (mapFind (findCollisions t [] tolerance)) a b ↔
          Bonded (mapFind (findCollisions t [] tolerance)) b a) ∧
        (Bonded (mapFind (findCollisions t [] tolerance)) a b →
          mapFind (findCollisions t [] tolerance) b ≠ none) := by
  obtain ⟨t, ht, _⟩ := built_tree lb ub depth maxStorage maxDepth es fuel hdepth hfuel
  have hsym := (findCollisions_spec t tolerance).1
  refine ⟨t, ht, fun a b => ⟨⟨hsym a b, hsym b a⟩, fun hab => ?_⟩⟩
  obtain ⟨s, hs, _⟩ := hsym a b hab
  rw [hs]
  simp

/-- Witness of `findCollisions_symmetric` on the eleven points of `farApart`. -/
theorem findCollisions_symmetric_witness :
    (0 : Int) ≤ 0 ∧ 10 ≤ 10 ∧
    ∃ t, addPoints 10 (newOctree5 ⟨0, 0, 0⟩ ⟨16, 16, 16⟩ 0 10 8) farApart = some t ∧
      ∀ a b,
        (Bonded (mapFind (findCollisions t [] 25)) a b ↔
          Bonded (mapFind (findCollisions t [] 25)) b a) ∧
        (Bonded (mapFind (findCollisions t [] 25)) a b →
          mapFind (findCollisions t [] 25) b ≠ none) :=
  ⟨le_refl 0, le_refl 10,
    findCollisions_symmetric ⟨0, 0, 0⟩ ⟨16, 16, 16⟩ 0 10 8 25 farApart 10 (le_refl 0)
      (le_refl 10)⟩

theorem addPoints_append (fuel : Nat) :
    ∀ (l₁ l₂ : List Data) (t : ConnectivityOctree),
      addPoints fuel t (l₁ ++ l₂) = (addPoints fuel t l₁).bind fun t₁ => addPoints fuel t₁ l₂ := by
  intro l₁
  induction l₁ with
  | nil =>
    intro l₂ t
    simp [addPoints]
  | cons e l₁ ih =>
    intro l₂ t
    simp only [List.cons_append, addPoints]
    cases h : addPoint fuel t e.index e.point e.radius with
    | none => simp
    | some r =>
      obtain ⟨b, t₁⟩ := r
      simp only
      exact ih l₂ t₁

/-- C4, as amended. For every sequence of `addPoint` calls on a fresh root with entities of
non-negative radius, every entity for which `addPoint` on the root returned `true` has its
id as a key of the map produced by `findCollisions` after any number of later insertions;
when the ids are distinct, its set is empty if no other entity passes the test of lines
203-206 with it, the squared distance and the squared bonding distance being those computed
in `double`. -/
theorem accepted_id_is_key (lb ub : Vec3) (depth maxStorage maxDepth : Int) (tolerance : Double)
    (before after : List Data) (e : Data) (fuel : Nat) (hdepth : 0 ≤ depth)
    (hfuel : 10 ≤ fuel) (hbefore : ∀ x ∈ before, 0 ≤ x.radius) (he : 0 ≤ e.radius)
    (hafter : ∀ x ∈ after, 0 ≤ x.radius) :
    ∃ t₁ b t₂ t,
      addPoints fuel (newOctree5 lb ub depth maxStorage maxDepth) before = some t₁ ∧
      addPoint fuel t₁ e.index e.point e.radius = some (b, t₂) ∧
      addPoints fuel t₂ after = some t ∧
      (b = true → ∃ s, mapFind (findCollisions t [] tolerance) e.index = some s ∧
        (((before ++ e :: after).map Data.index).Nodup →
          (∀ x ∈ before ++ after, ¬ sqDist e x ≤ sqBond tolerance e x) → s = [])) := by
  have hroot := callDepth_newOctree5 lb ub depth maxStorage maxDepth hdepth
  obtain ⟨t₁, h₁, hk₁⟩ := addPoints_total fuel before
    (newOctree5 lb ub depth maxStorage maxDepth) (le_trans hroot hfuel)
  have hk₁' := le_trans hk₁ hroot
  obtain ⟨b, t₂, h₂, hk₂⟩ := addPoint_total fuel t₁ e.index e.point e.radius
    (le_trans hk₁' hfuel)
  obtain ⟨t, h₃, _⟩ := addPoints_total fuel after t₂ (le_trans (le_trans hk₂ hk₁') hfuel)
  refine ⟨t₁, b, t₂, t, h₁, h₂, h₃, fun hb => ?_⟩
  have hg₁ := (addPoints_retains fuel before _ t₁ h₁
    (good_newOctree5 lb ub depth maxStorage maxDepth) hbefore).1
  obtain ⟨hg₂, hst₂, _⟩ := (addPoint_retains fuel t₁ e.index e.point e.radius b t₂ h₂).2.2
    hg₁ he
  have hst : Stored t e := (addPoints_retains fuel after t₂ t h₃ hg₂ hafter).2.2.2 e (hst₂ hb)
  have hkey := ((findCollisions_spec t tolerance).2.2 e.index).2 ⟨e, hst, rfl⟩
  cases hs : mapFind (findCollisions t [] tolerance) e.index with
  | none => exact absurd hs hkey
  | some s =>
    refine ⟨s, rfl, fun hids hfar => ?_⟩
    obtain ⟨t', ht', hsub, hnd, _⟩ := built_tree lb ub depth maxStorage maxDepth
      (before ++ e :: after) fuel hdepth hfuel
    have hall : addPoints fuel (newOctree5 lb ub depth maxStorage maxDepth)
        (before ++ e :: after) = some t := by
      rw [addPoints_append, h₁]
      simp only [Option.some_bind, addPoints, h₂, h₃]
    rw [hall] at ht'
    cases ht'
    refine List.eq_nil_iff_forall_not_mem.2 (fun y hy => ?_)
    obtain ⟨n, hn, a, c, hp, hc, hia, hic⟩ :=
      (bonded_findCollisions t tolerance e.index y).1 ⟨s, hs, hy⟩
    have hmem : e ∈ before ++ e :: after := by simp
    have ha : a = e :=
      List.inj_on_of_nodup_map hids (hsub a ⟨n, hn, hp.mem.1⟩) hmem hia
    subst ha
    have hcm := hsub c ⟨n, hn, hp.mem.2⟩
    have hne : a.index ≠ c.index := hp.index_ne (hnd hids n hn)
    have hc' : c ∈ before ++ after := by
      simp only [List.mem_append, List.mem_cons] at hcm ⊢
      rcases hcm with h | h | h
      · exact Or.inl h
      · exact absurd (by rw [h]) hne
      · exact Or.inr h
    exact hfar c hc' hc

/-- Witness of `accepted_id_is_key`: entity `2` of scenario A, inserted between the two
others, has the key `2` with an empty set. -/
theorem accepted_id_is_key_witness :
    (0 : Int) ≤ 0 ∧ 10 ≤ 10 ∧ (0 : Double) ≤ 0.6 ∧
    (∃ t₁ b t₂ t,
      addPoints 10 (newOctree5 ⟨-1, -1, -1⟩ ⟨6, 6, 6⟩ 0 10 8) [⟨0, ⟨0, 0, 0⟩, 0.6⟩]
        = some t₁ ∧
      addPoint 10 t₁ 2 ⟨5, 5, 5⟩ 0.6 = some (b, t₂) ∧
      addPoints 10 t₂ [⟨1, ⟨1, 0, 0⟩, 0.6⟩] = some t ∧
      (b = true → ∃ s, mapFind (findCollisions t [] 0.1) 2 = some s ∧
        (((([⟨0, ⟨0, 0, 0⟩, 0.6⟩] : List Data) ++ (⟨2, ⟨5, 5, 5⟩, 0.6⟩ : Data) ::
            [⟨1, ⟨1, 0, 0⟩, 0.6⟩]).map Data.index).Nodup →
          (∀ x ∈ [(⟨0, ⟨0, 0, 0⟩, 0.6⟩ : Data)] ++ [⟨1, ⟨1, 0, 0⟩, 0.6⟩],
            ¬ sqDist ⟨2, ⟨5, 5, 5⟩, 0.6⟩ x ≤ sqBond 0.1 ⟨2, ⟨5, 5, 5⟩, 0.6⟩ x) → s = []))) ∧
    ((([⟨0, ⟨0, 0, 0⟩, 0.6⟩] : List Data) ++ (⟨2, ⟨5, 5, 5⟩, 0.6⟩ : Data) ::
        [⟨1, ⟨1, 0, 0⟩, 0.6⟩]).map Data.index).Nodup ∧
    (∀ x ∈ [(⟨0, ⟨0, 0, 0⟩, 0.6⟩ : Data)] ++ [⟨1, ⟨1, 0, 0⟩, 0.6⟩],
      ¬ sqDist ⟨2, ⟨5, 5, 5⟩, 0.6⟩ x ≤ sqBond 0.1 ⟨2, ⟨5, 5, 5⟩, 0.6⟩ x) :=
  ⟨le_refl 0, le_refl 10, by decide!,
    accepted_id_is_key ⟨-1, -1, -1⟩ ⟨6, 6, 6⟩ 0 10 8 0.1 [⟨0, ⟨0, 0, 0⟩, 0.6⟩]
      [⟨1, ⟨1, 0, 0⟩, 0.6⟩] ⟨2, ⟨5, 5, 5⟩, 0.6⟩ 10 (le_refl 0) (le_refl 10) (by decide!)
      (by decide!) (by decide!), by decide!, by decide!⟩

/-- C4, counterexample. In the unit cube, `addPoint` returns `true` for entity `0` of
`roundedApart`; the only other entity, `1`, does not overlap it (the exact squared distance
`1` exceeds the exact `(r_0 + r_1 + 0)²`), and yet the set of key `0` in the map produced
by `findCollisions` with tolerance `0` is `{1}`, not empty. -/
theorem accepted_id_bonded_by_rounding :
    (∀ e ∈ roundedApart, 0 ≤ e.radius ∧ e.radius.IsDouble ∧ e.point.IsDouble) ∧
    (addPoint 10 (newOctree ⟨0, 0, 0⟩ ⟨1, 1, 1⟩) 0 ⟨0, 0, 0⟩ 0.5).map Prod.fst = some true ∧
    (∀ x ∈ roundedApart, x.index ≠ 0 →
      exactBond 0 ⟨0, ⟨0, 0, 0⟩, 0.5⟩ x ^ 2 < exactSqDist ⟨0, ⟨0, 0, 0⟩, 0.5⟩ x) ∧
    (addPoints 10 (newOctree ⟨0, 0, 0⟩ ⟨1, 1, 1⟩) roundedApart).map
      (fun t => mapFind (findCollisions t [] 0) 0) = some (some [1]) := by
  decide!

/-- C5. No self-loops: in the tree built by `addPoint` calls with pairwise distinct entity
ids from a root made by either constructor, no leaf holds two records with one id, and the
map produced by `findCollisions` from an empty map never has `a ∈ map[a]`. -/
theorem findCollisions_no_self_loop (lb ub : Vec3) (depth maxStorage maxDepth : Int)
    (tolerance : Double) (es : List Data) (fuel : Nat) (hdepth : 0 ≤ depth) (hfuel : 10 ≤ fuel)
    (hids : (es.map Data.index).Nodup) :
    ∃ t, addPoints fuel (newOctree5 lb ub depth maxStorage maxDepth) es = some t ∧
      (∀ n ∈ leafNodes t, (n.data.map Data.index).Nodup) ∧
      ∀ a, ¬ Bonded (mapFind (findCollisions t [] tolerance)) a a := by
  obtain ⟨t, ht, _, hnd, _⟩ :=
    built_tree lb ub depth maxStorage maxDepth es fuel hdepth hfuel
  refine ⟨t, ht, hnd hids, fun a haa => ?_⟩
  obtain ⟨n, hn, da, db, hp, _, hia, hib⟩ := (bonded_findCollisions t tolerance a a).1 haa
  exact hp.index_ne (hnd hids n hn) (hia.trans hib.symm)

/-- Witness of `findCollisions_no_self_loop` on two points. -/
theorem findCollisions_no_self_loop_witness :
    (0 : Int) ≤ 0 ∧ 10 ≤ 10 ∧ (twoPoints.map Data.index).Nodup ∧
    ∃ t, addPoints 10 (newOctree5 ⟨0, 0, 0⟩ ⟨4, 4, 4⟩ 0 10 8) twoPoints = some t ∧
      (∀ n ∈ leafNodes t, (n.data.map Data.index).Nodup) ∧
      ∀ a, ¬ Bonded (mapFind (findCollisions t [] 5)) a a :=
  ⟨le_refl 0, le_refl 10, by decide,
    findCollisions_no_self_loop ⟨0, 0, 0⟩ ⟨4, 4, 4⟩ 0 10 8 5 twoPoints 10 (le_refl 0)
      (le_refl 10) (by decide)⟩

/-- C6, as amended. For every tree and every two tolerances `t1 ≤ t2` such that
`r_a + r_b + t1 ≥ 0` for every two stored entities (as when the radii and `t1` are
non-negative), every pair recorded by `findCollisions` with `t1` is recorded with `t2`, and
the two maps have the same keys. -/
theorem findCollisions_tolerance_mono (t : ConnectivityOctree) (t1 t2 : Double) (h12 : t1 ≤ t2)
    (hpos : ∀ a b, Stored t a → Stored t b → 0 ≤ a.radius + b.radius + t1) :
    ∀ x y,
      (Bonded (mapFind (findCollisions t [] t1)) x y →
        Bonded (mapFind (findCollisions t [] t2)) x y) ∧
      (mapFind (findCollisions t [] t1) x ≠ none ↔
        mapFind (findCollisions t [] t2) x ≠ none) := by
  intro x y
  refine ⟨fun h => ?_, ?_⟩
  · obtain ⟨n, hn, a, b, hp, hc, hia, hib⟩ := (bonded_findCollisions t t1 x y).1 h
    refine (bonded_findCollisions t t2 x y).2
      ⟨n, hn, a, b, hp, Double.dle_trans hc ?_, hia, hib⟩
    have h0 := hpos a b ⟨n, hn, hp.mem.1⟩ ⟨n, hn, hp.mem.2⟩
    exact Double.dmul_self_le _ _ h0 (Double.dadd_le_add _ _ _ h12 h0)
  · rw [(findCollisions_spec t t1).2.2 x, (findCollisions_spec t t2).2.2 x]

/-- Witness of `findCollisions_tolerance_mono`: a leaf holding `twoPoints`, at distance `3`;
the pair is recorded with tolerance `3` and with tolerance `4`. -/
theorem findCollisions_tolerance_mono_witness :
    (3 : Double) ≤ 4 ∧
    (∀ a b, Stored (.mk ⟨0, 0, 0⟩ ⟨4, 4, 4⟩ 0 10 8 [] twoPoints) a →
      Stored (.mk ⟨0, 0, 0⟩ ⟨4, 4, 4⟩ 0 10 8 [] twoPoints) b →
      0 ≤ a.radius + b.radius + 3) ∧
    (∀ x y,
      (Bonded (mapFind (findCollisions
          (.mk ⟨0, 0, 0⟩ ⟨4, 4, 4⟩ 0 10 8 [] twoPoints) [] 3)) x y →
        Bonded (mapFind (findCollisions
          (.mk ⟨0, 0, 0⟩ ⟨4, 4, 4⟩ 0 10 8 [] twoPoints) [] 4)) x y) ∧
      (mapFind (findCollisions (.mk ⟨0, 0, 0⟩ ⟨4, 4, 4⟩ 0 10 8 [] twoPoints) [] 3) x ≠ none ↔
        mapFind (findCollisions (.mk ⟨0, 0, 0⟩ ⟨4, 4, 4⟩ 0 10 8 [] twoPoints) [] 4) x
          ≠ none)) ∧
    findCollisions (.mk ⟨0, 0, 0⟩ ⟨4, 4, 4⟩ 0 10 8 [] twoPoints) [] 3 = [(0, [1]), (1, [0])] ∧
    findCollisions (.mk ⟨0, 0, 0⟩ ⟨4, 4, 4⟩ 0 10 8 [] twoPoints) [] 4 = [(0, [1]), (1, [0])] ∧
    findCollisions (.mk ⟨0, 0, 0⟩ ⟨4, 4, 4⟩ 0 10 8 [] twoPoints) [] 2 = [(0, []), (1, [])] :=
  have hpos : ∀ a b, Stored (.mk ⟨0, 0, 0⟩ ⟨4, 4, 4⟩ 0 10 8 [] twoPoints) a →
      Stored (.mk ⟨0, 0, 0⟩ ⟨4, 4, 4⟩ 0 10 8 [] twoPoints) b →
      0 ≤ a.radius + b.radius + 3 := by
    intro a b ha hb
    rw [stored_leaf] at ha hb
    simp only [twoPoints, List.mem_cons, List.mem_singleton, List.not_mem_nil,
      or_false] at ha hb
    rcases ha with rfl | rfl <;> rcases hb with rfl | rfl <;> decide!
  ⟨by decide!, hpos,
    findCollisions_tolerance_mono (.mk ⟨0, 0, 0⟩ ⟨4, 4, 4⟩ 0 10 8 [] twoPoints) 3 4
      (by decide!) hpos, by decide!, by decide!, by decide!⟩

/-- C6, counterexample. The tree built from `twoPoints` (radius `0`, distance `3`) in the
box `[0,4]³`: with tolerance `-5` the pair is recorded (`9 ≤ (-5)²`), with the larger
tolerance `0` it is not. -/
theorem findCollisions_negative_tolerance :
    (-5 : Double) ≤ 0 ∧
    (addPoints 10 (newOctree ⟨0, 0, 0⟩ ⟨4, 4, 4⟩) twoPoints).map
      (fun t => (findCollisions t [] (-5), findCollisions t [] 0))
      = some ([(0, [1]), (1, [0])], [(0, []), (1, [])]) := by
  decide!

theorem addPoint_leaf (fuel : Nat) (lb ub : Vec3) (d s m : Int) (ds : List Data) (e : Data)
    (hacc : acceptsBox lb ub e) (hlen : ¬ ((ds ++ [e]).length : Int) > toSizeT s) :
    addPoint (fuel + 1) (.mk lb ub d s m [] ds) e.index e.point e.radius
      = some (true, .mk lb ub d s m [] (ds ++ [e])) := by
  have h := (accepts_iff lb ub d s m [] ds e).2 hacc
  unfold accepts at h
  unfold addPoint
  simp only [h, Bool.not_true, Bool.false_eq_true, if_false, hasChildren,
    ConnectivityOctree.children, List.isEmpty_nil, ConnectivityOctree.lowerBound,
    ConnectivityOctree.upperBound, ConnectivityOctree.depth, ConnectivityOctree.maxStorage,
    ConnectivityOctree.maxDepth, ConnectivityOctree.data, hlen]

theorem acceptsBox_of_encloses {lb ub : Vec3} {e : Data} (h : Encloses lb ub e) :
    acceptsBox lb ub e := by
  obtain ⟨⟨⟨h1, h2⟩, ⟨h3, h4⟩, ⟨h5, h6⟩⟩, ⟨⟨h7, h8⟩, ⟨h9, h10⟩, ⟨h11, h12⟩⟩⟩ := h
  simp only [Vec3.sub, Vec3.add, Vec3.constant] at h1 h2 h3 h4 h5 h6 h7 h8 h9 h10 h11 h12
  exact ⟨⟨Double.not_dlt_of_le h2, Double.not_dlt_of_le h7⟩,
    ⟨Double.not_dlt_of_le h4, Double.not_dlt_of_le h9⟩,
    ⟨Double.not_dlt_of_le h6, Double.not_dlt_of_le h11⟩⟩

/-- C7. Scenario A: with a root box enclosing the three spheres of radius `0.6` at
`(0,0,0)`, `(1,0,0)`, `(5,5,5)`, inserting entities `0`, `1`, `2` and calling
`findCollisions` with tolerance `0.1` on an empty map yields exactly `{0:{1}, 1:{0}, 2:{}}`. -/
theorem scenarioA_collisions (lb ub : Vec3) (fuel : Nat) (hfuel : 10 ≤ fuel)
    (hbox : ∀ e ∈ scenarioA, Encloses lb ub e) :
    ∃ t, addPoints fuel (newOctree lb ub) scenarioA = some t ∧
      findCollisions t [] 0.1 = [(0, [1]), (1, [0]), (2, [])] := by
  obtain ⟨k, rfl⟩ : ∃ k, fuel = k + 1 := ⟨fuel - 1, by omega⟩
  have h0 := acceptsBox_of_encloses (hbox ⟨0, ⟨0, 0, 0⟩, 0.6⟩ (by simp [scenarioA]))
  have h1 := acceptsBox_of_encloses (hbox ⟨1, ⟨1, 0, 0⟩, 0.6⟩ (by simp [scenarioA]))
  have h2 := acceptsBox_of_encloses (hbox ⟨2, ⟨5, 5, 5⟩, 0.6⟩ (by simp [scenarioA]))
  have hcap : toSizeT 10 = 10 := by decide
  refine ⟨.mk lb ub 0 10 8 [] scenarioA, ?_, ?_⟩
  · have e0 := addPoint_leaf k lb ub 0 10 8 [] _ h0 (by rw [hcap]; simp)
    have e1 := addPoint_leaf k lb ub 0 10 8 [⟨0, ⟨0, 0, 0⟩, 0.6⟩] _ h1 (by rw [hcap]; simp)
    have e2 := addPoint_leaf k lb ub 0 10 8 [⟨0, ⟨0, 0, 0⟩, 0.6⟩, ⟨1, ⟨1, 0, 0⟩, 0.6⟩] _ h2
      (by rw [hcap]; simp)
    simp only [List.nil_append, List.cons_append] at e0 e1 e2
    simp only [addPoints, scenarioA, newOctree, e0, e1, e2]
  · simp only [findCollisions, getCollisions, addIsolatedAtoms, getData]
    decide!

/-- Witness of `scenarioA_collisions`: the root box with corners `(-1,-1,-1)` and `(6,6,6)`. -/
theorem scenarioA_collisions_witness :
    10 ≤ 10 ∧ (∀ e ∈ scenarioA, Encloses ⟨-1, -1, -1⟩ ⟨6, 6, 6⟩ e) ∧
    ∃ t, addPoints 10 (newOctree ⟨-1, -1, -1⟩ ⟨6, 6, 6⟩) scenarioA = some t ∧
      findCollisions t [] 0.1 = [(0, [1]), (1, [0]), (2, [])] :=
  ⟨le_refl 10, by decide!,
    scenarioA_collisions ⟨-1, -1, -1⟩ ⟨6, 6, 6⟩ 10 (le_refl 10) (by decide!)⟩

theorem clusterMolecules_seq (bonds : Bonds) (hkeys : (mapKeys bonds).Nodup) :
    ∃ clusters, clusterMolecules bonds = .ok ([], clusters) ∧
      ClusterSeq (mapFind bonds) clusters := by
  obtain ⟨cs, h, hseq⟩ := clusterMoleculesLoop_spec bonds.length bonds [] (le_refl _) hkeys
  exact ⟨cs, by simpa [clusterMolecules] using h, hseq⟩

/-- C8. Partition property: for every adjacency map (with distinct keys, as in every
`std::map`), `clusterMolecules` returns clusters that are non-empty, pairwise disjoint and
whose union is the key set the map had on entry. -/
theorem clusterMolecules_partition (bonds : Bonds) (hkeys : (mapKeys bonds).Nodup) :
    ∃ clusters, clusterMolecules bonds = .ok ([], clusters) ∧
      (∀ c ∈ clusters, c ≠ []) ∧
      clusters.Pairwise List.Disjoint ∧
      ∀ x, (∃ c ∈ clusters, x ∈ c) ↔ x ∈ mapKeys bonds := by
  obtain ⟨cs, h, hseq⟩ := clusterMolecules_seq bonds hkeys
  refine ⟨cs, h, hseq.ne_nil, hseq.disjoint, fun x => ?_⟩
  rw [← mapFind_isSome_iff, Option.isSome_iff_ne_none]
  constructor
  · rintro ⟨c, hc, hx⟩
    exact hseq.live_mem c hc x hx
  · exact hseq.cover x

/-- Witness of `clusterMolecules_partition` on a map with a cycle and a dangling id. -/
theorem clusterMolecules_partition_witness :
    (mapKeys [(1, [2, 3]), (2, [1, 3]), (3, [1, 2]), (5, [9])]).Nodup ∧
    ∃ clusters, clusterMolecules [(1, [2, 3]), (2, [1, 3]), (3, [1, 2]), (5, [9])]
        = .ok ([], clusters) ∧
      (∀ c ∈ clusters, c ≠ []) ∧
      clusters.Pairwise List.Disjoint ∧
      ∀ x, (∃ c ∈ clusters, x ∈ c) ↔
        x ∈ mapKeys [(1, [2, 3]), (2, [1, 3]), (3, [1, 2]), (5, [9])] :=
  ⟨by decide, clusterMolecules_partition _ (by decide)⟩

/-- C9. Clusters are connected components: for every adjacency map (with distinct keys)
that is symmetric and whose adjacency sets only mention keys, two keys are in the same
cluster returned by `clusterMolecules` iff they are joined by a path of bonds of the input
map; and the input `{A:{B}, B:{A,C}, C:{B}, D:{}}` with `A < B < C < D` yields exactly the
clusters `{A,B,C}` and `{D}`. -/
theorem clusterMolecules_components :
    (∀ bonds : Bonds, (mapKeys bonds).Nodup → SymClosed (mapFind bonds) →
      ∃ clusters, clusterMolecules bonds = .ok ([], clusters) ∧
        ∀ x ∈ mapKeys bonds, ∀ y ∈ mapKeys bonds,
          ((∃ c ∈ clusters, x ∈ c ∧ y ∈ c) ↔
            Relation.ReflTransGen (Bonded (mapFind bonds)) x y)) ∧
    (∀ A B C D : Int, A < B → B < C → C < D →
      clusterMolecules (scenarioB A B C D) = .ok ([], [[A, B, C], [D]])) := by
  constructor
  · intro bonds hkeys hsym
    obtain ⟨cs, h, hseq⟩ := clusterMolecules_seq bonds hkeys
    refine ⟨cs, h, fun x hx y hy => ?_⟩
    rw [← mapFind_isSome_iff, Option.isSome_iff_ne_none] at hx hy
    rw [hseq.components hsym x y hx hy]
    have : Bonded (mapFind bonds) = Edge (mapFind bonds) := by
      funext a b
      exact propext (hsym.bonded_iff a b)
    rw [this]
  · intro A B C D hAB hBC hCD
    have h1 : ¬ B < A := by omega
    have h2 : ¬ C < B := by omega
    have h3 : ¬ C < A := by omega
    have h4 : A ≠ B := by omega
    have h5 : B ≠ C := by omega
    have h6 : A ≠ C := by omega
    have h7 : A ≠ D := by omega
    have h8 : B ≠ D := by omega
    have h9 : C ≠ D := by omega
    simp [clusterMolecules, scenarioB, clusterMoleculesLoop, clusterSingleMolecule,
      clusterNeighbours, mapFind, mapErase, setInsert, h1, h2, h3, h4, h5, h6, h7, h8, h9,
      Ne.symm h4, Ne.symm h5, Ne.symm h6, Ne.symm h7, Ne.symm h8, Ne.symm h9, hAB, hBC, hCD]

/-- Witness of `clusterMolecules_components`: scenario B with ids `0, 1, 2, 3`. -/
theorem clusterMolecules_components_witness :
    (mapKeys (scenarioB 0 1 2 3)).Nodup ∧ SymClosed (mapFind (scenarioB 0 1 2 3)) ∧
    (∃ clusters, clusterMolecules (scenarioB 0 1 2 3) = .ok ([], clusters) ∧
      ∀ x ∈ mapKeys (scenarioB 0 1 2 3), ∀ y ∈ mapKeys (scenarioB 0 1 2 3),
        ((∃ c ∈ clusters, x ∈ c ∧ y ∈ c) ↔
          Relation.ReflTransGen (Bonded (mapFind (scenarioB 0 1 2 3))) x y)) ∧
    clusterMolecules (scenarioB 0 1 2 3) = .ok ([], [[0, 1, 2], [3]]) := by
  have hk : (mapKeys (scenarioB 0 1 2 3)).Nodup := by decide
  have hs : SymClosed (mapFind (scenarioB 0 1 2 3)) := by
    intro a b s hs hb
    simp only [scenarioB, mapFind] at hs ⊢
    split_ifs at hs with h0 h1 h2 h3
    all_goals first
      | (cases hs; subst_vars; simp at hb; rcases hb with rfl | rfl <;> simp)
      | (cases hs; simp at hb)
  exact ⟨hk, hs, clusterMolecules_components.1 _ hk hs,
    clusterMolecules_components.2 0 1 2 3 (by decide) (by decide) (by decide)⟩

/-- C10. For every finite adjacency map, with cycles or not, `clusterMolecules` terminates
without a lookup failure and leaves the caller's map empty; a call of
`clusterSingleMolecule` on a key removes exactly that one entry before it goes through the
bonded atoms, and the loop over the bonded atoms skips every id that is no longer a key. -/
theorem clusterMolecules_drains :
    (∀ bonds : Bonds, ∃ clusters, clusterMolecules bonds = .ok ([], clusters)) ∧
    (∀ (fuel : Nat) (bonds : Bonds) (cluster : IntSet) (atom : Int) (bonded : IntSet),
      mapFind bonds atom = some bonded →
        (mapErase bonds atom).length + 1 = bonds.length ∧
        clusterSingleMolecule (fuel + 1) bonds cluster atom =
          clusterNeighbours (clusterSingleMolecule fuel) (mapErase bonds atom)
            (if atom ∈ cluster then cluster else setInsert atom cluster) bonded) ∧
    (∀ (recurse : Bonds → IntSet → Int → Except ClusterError (Bonds × IntSet))
      (bonds : Bonds) (cluster : IntSet) (atom : Int) (rest : List Int),
      mapFind bonds atom = none →
        clusterNeighbours recurse bonds cluster (atom :: rest) =
          clusterNeighbours recurse bonds cluster rest) := by
  refine ⟨fun bonds => clusterMoleculesLoop_ok bonds.length bonds [] (le_refl _), ?_, ?_⟩
  · intro fuel bonds cluster atom bonded h
    refine ⟨mapErase_length bonds atom (by rw [h]; simp), ?_⟩
    rw [clusterSingleMolecule]
    simp only [h]
  · intro recurse bonds cluster atom rest h
    rw [clusterNeighbours]
    simp only [h]

/-- Witness of `clusterMolecules_drains`: a triangle of bonds, and a map whose key `5` is
bonded to the id `9` that is not a key. -/
theorem clusterMolecules_drains_witness :
    (∃ clusters, clusterMolecules [(1, [2, 3]), (2, [1, 3]), (3, [1, 2])]
      = .ok ([], clusters)) ∧
    (mapFind [(5, [9])] 5 = some [9] ∧
      (mapErase [(5, [9])] 5).length + 1 = [(5, [9])].length ∧
      clusterSingleMolecule (1 + 1) [(5, [9])] [] 5 =
        clusterNeighbours (clusterSingleMolecule 1) (mapErase [(5, [9])] 5)
          (if (5 : Int) ∈ ([] : IntSet) then [] else setInsert 5 []) [9]) ∧
    (mapFind [] 9 = none ∧
      clusterNeighbours (clusterSingleMolecule 1) [] [5] (9 :: []) =
        clusterNeighbours (clusterSingleMolecule 1) [] [5] []) :=
  ⟨clusterMolecules_drains.1 _, ⟨rfl, clusterMolecules_drains.2.1 1 _ [] 5 [9] rfl⟩,
    ⟨rfl, clusterMolecules_drains.2.2 (clusterSingleMolecule 1) [] [5] 9 [] rfl⟩⟩

/-! ## Clustering a map with an id that is not a key -/

theorem clusterNeighbours_no_lookupFailure
    (recurse : Bonds → IntSet → Int → Except ClusterError (Bonds × IntSet))
    (hrec : ∀ m cur a, mapFind m a ≠ none → ∀ b, recurse m cur a ≠ .error (.lookupFailure b)) :
    ∀ (ns : List Int) (m : Bonds) (cur : IntSet) (b : Int),
      clusterNeighbours recurse m cur ns ≠ .error (.lookupFailure b) := by
  intro ns
  induction ns with
  | nil =>
    intro m cur b h
    simp [clusterNeighbours] at h
  | cons a rest ih =>
    intro m cur b
    unfold clusterNeighbours
    cases ha : mapFind m a with
    | none => exact ih m cur b
    | some s =>
      simp only
      cases hr : recurse m cur a with
      | error e =>
        intro h
        simp only [Except.error.injEq] at h
        subst h
        exact hrec m cur a (by rw [ha]; simp) b hr
      | ok r =>
        obtain ⟨m', cur'⟩ := r
        exact ih m' cur' b

theorem clusterSingleMolecule_no_lookupFailure :
    ∀ (fuel : Nat) (m : Bonds) (cur : IntSet) (a : Int), mapFind m a ≠ none →
      ∀ b, clusterSingleMolecule fuel m cur a ≠ .error (.lookupFailure b) := by
  intro fuel
  induction fuel with
  | zero =>
    intro m cur a _ b h
    simp [clusterSingleMolecule] at h
  | succ fuel ih =>
    intro m cur a ha b
    unfold clusterSingleMolecule
    cases hs : mapFind m a with
    | none => exact absurd hs ha
    | some s => exact clusterNeighbours_no_lookupFailure _ ih s _ _ b

/-- C11, as amended. For an adjacency map (with distinct keys) and an id `x` that is not a
key, in particular one that occurs in a key's adjacency set, `clusterMolecules` does not
fail: it returns its clusters and leaves the map empty, `x` is in no cluster, the loop over
the bonded atoms skips `x` (lines 20-22), and no call of `clusterSingleMolecule` on a key
ends in a lookup failure, whatever the fuel. -/
theorem clusterMolecules_skips_dangling (bonds : Bonds) (x : Int)
    (hkeys : (mapKeys bonds).Nodup) (hdangling : mapFind bonds x = none) :
    (∃ clusters, clusterMolecules bonds = .ok ([], clusters) ∧ ∀ c ∈ clusters, x ∉ c) ∧
    (∀ (recurse : Bonds → IntSet → Int → Except ClusterError (Bonds × IntSet))
      (cluster : IntSet) (rest : List Int),
      clusterNeighbours recurse bonds cluster (x :: rest) =
        clusterNeighbours recurse bonds cluster rest) ∧
    (∀ (fuel : Nat) (m : Bonds) (cluster : IntSet) (atom failed : Int),
      mapFind m atom ≠ none →
        clusterSingleMolecule fuel m cluster atom ≠ .error (.lookupFailure failed)) := by
  refine ⟨?_, ?_, fun fuel m cluster atom failed h =>
    clusterSingleMolecule_no_lookupFailure fuel m cluster atom h failed⟩
  · obtain ⟨cs, h, hseq⟩ := clusterMolecules_seq bonds hkeys
    exact ⟨cs, h, fun c hc hxc => hseq.live_mem c hc x hxc hdangling⟩
  · intro recurse cluster rest
    rw [clusterNeighbours]
    simp only [hdangling]

/-- Witness of `clusterMolecules_skips_dangling`: key `5` is bonded to `9`, which is no key. -/
theorem clusterMolecules_skips_dangling_witness :
    (mapKeys [(5, [9]), (7, [])]).Nodup ∧ mapFind [(5, [9]), (7, [])] 9 = none ∧
    (∃ clusters, clusterMolecules [(5, [9]), (7, [])] = .ok ([], clusters) ∧
      ∀ c ∈ clusters, (9 : Int) ∉ c) :=
  ⟨by decide, rfl,
    (clusterMolecules_skips_dangling [(5, [9]), (7, [])] 9 (by decide) rfl).1⟩

/-- C11, counterexample. In the map `{5:{9}}` the id `9` occurs in the adjacency set of the
key `5` and is no key; `clusterMolecules` returns the cluster `{5}` and the empty map, with
no lookup failure. -/
theorem clusterMolecules_dangling_no_failure :
    mapFind [(5, [9])] 5 = some [9] ∧ (9 : Int) ∈ ([9] : IntSet) ∧
    mapFind [(5, [9])] 9 = none ∧
    clusterMolecules [(5, [9])] = .ok ([], [[5]]) := by
  refine ⟨rfl, by decide, rfl, rfl⟩

/-! ## The five-argument constructor -/

/-- C12, the code at the failing input. The five-argument constructor called with capacity
`1` and maximum depth `0` stores capacity `10` and maximum depth `8`; after the two
insertions of `twoPoints` the root, at depth `0`, is still a leaf and holds two records. -/
theorem newOctree5_ignores_capacity :
    (∀ (lb ub : Vec3) (depth capacity maxDepth : Int),
      (newOctree5 lb ub depth capacity maxDepth).maxStorage = 10 ∧
      (newOctree5 lb ub depth capacity maxDepth).maxDepth = 8) ∧
    (addPoints 10 (newOctree5 ⟨0, 0, 0⟩ ⟨4, 4, 4⟩ 0 1 0) twoPoints).map
      (fun t => (t.depth, t.children.length, t.data.map Data.index)) = some (0, 0, [0, 1]) := by
  refine ⟨fun lb ub depth capacity maxDepth => ⟨rfl, rfl⟩, by decide!⟩

theorem addPoints_leaf (fuel : Nat) (lb ub : Vec3) (d s m : Int) :
    ∀ (es ds : List Data), (∀ e ∈ es, acceptsBox lb ub e) →
      ¬ ((ds ++ es).length : Int) > toSizeT s →
      addPoints (fuel + 1) (.mk lb ub d s m [] ds) es = some (.mk lb ub d s m [] (ds ++ es)) := by
  intro es
  induction es with
  | nil =>
    intro ds _ _
    simp [addPoints]
  | cons e es ih =>
    intro ds hacc hlen
    have h₁ := addPoint_leaf fuel lb ub d s m ds e (hacc e (List.mem_cons_self _ _)) (by
      intro h
      apply hlen
      simp only [List.length_append, List.length_cons, List.length_nil, Nat.cast_add,
        Nat.cast_one] at h ⊢
      omega)
    have h₂ := ih (ds ++ [e]) (fun x hx => hacc x (List.mem_cons_of_mem _ hx)) (by
      simpa using hlen)
    unfold addPoints
    simp only [h₁, h₂, List.append_assoc, List.singleton_append]

/-- C13. Scenario D: a root constructed with depth `0`, capacity `1` and maximum depth `0`,
into which five entities that all overlap its box are inserted with `addPoint`, has no
children afterwards and holds the five entities, in insertion order, in its own entity
collection. -/
theorem scenarioD_single_leaf (lb ub : Vec3) (es : List Data) (fuel : Nat) (hfuel : 1 ≤ fuel)
    (hfive : es.length = 5)
    (hoverlap : ∀ e ∈ es, accepts (newOctree5 lb ub 0 1 0) e = true) :
    ∃ t, addPoints fuel (newOctree5 lb ub 0 1 0) es = some t ∧
      t.children = [] ∧ t.data = es := by
  obtain ⟨k, rfl⟩ : ∃ k, fuel = k + 1 := ⟨fuel - 1, by omega⟩
  have hcap : toSizeT 10 = 10 := by decide
  refine ⟨.mk lb ub 0 10 8 [] es, ?_, rfl, rfl⟩
  have h := addPoints_leaf k lb ub 0 10 8 es []
    (fun e he => (accepts_iff lb ub 0 10 8 [] [] e).1 (hoverlap e he))
    (by rw [hcap]; simp [hfive])
  simpa [newOctree5] using h

/-- Witness of `scenarioD_single_leaf`: five points of the unit cube. -/
theorem scenarioD_single_leaf_witness :
    1 ≤ 10 ∧ fivePoints.length = 5 ∧
    (∀ e ∈ fivePoints, accepts (newOctree5 ⟨0, 0, 0⟩ ⟨1, 1, 1⟩ 0 1 0) e = true) ∧
    ∃ t, addPoints 10 (newOctree5 ⟨0, 0, 0⟩ ⟨1, 1, 1⟩ 0 1 0) fivePoints = some t ∧
      t.children = [] ∧ t.data = fivePoints :=
  ⟨by decide, by decide, by decide!,
    scenarioD_single_leaf ⟨0, 0, 0⟩ ⟨1, 1, 1⟩ fivePoints 10 (by decide) (by decide)
      (by decide!)⟩

/-! ## Properties of every node of a tree -/

theorem allNodes_iff (Q : ConnectivityOctree → Prop) (t : ConnectivityOctree) :
    AllNodes Q t ↔ Q t ∧ ∀ c ∈ t.children, AllNodes Q c := by
  constructor
  · intro h
    refine ⟨h [] t rfl, fun c hc path n hn => ?_⟩
    obtain ⟨i, hi⟩ := List.mem_iff_getElem?.1 hc
    refine h (i :: path) n ?_
    simp only [nodeAt, hi, hn]
  · rintro ⟨hq, hc⟩ path n hn
    cases path with
    | nil =>
      simp only [nodeAt, Option.some.injEq] at hn
      subst hn
      exact hq
    | cons i path =>
      simp only [nodeAt] at hn
      cases hi : t.children[i]? with
      | none => simp [hi] at hn
      | some c =>
        simp only [hi] at hn
        exact hc c (List.mem_iff_getElem?.2 ⟨i, hi⟩) path n hn

theorem allNodes_leaf (Q : ConnectivityOctree → Prop) (lb ub : Vec3) (d s m : Int)
    (ds : List Data) : AllNodes Q (.mk lb ub d s m [] ds) ↔ Q (.mk lb ub d s m [] ds) := by
  rw [allNodes_iff]
  simp [ConnectivityOctree.children]

theorem redistributed_length {P : ConnectivityOctree → Data → Bool → ConnectivityOctree → Prop}
    {L : List Data} {cs₀ cs₁ : List ConnectivityOctree} (h : Redistributed P L cs₀ cs₁) :
    cs₁.length = cs₀.length := by
  induction h with
  | nil cs => rfl
  | cons hstep _ ih => rw [ih, List.Forall₂.length_eq hstep]

/-- A property of single nodes that the four ways in which `addPoint` ends preserve holds
for every node after the call when it holds for every node before. -/
theorem addPoint_allNodes (Q : ConnectivityOctree → Prop)
    (hfwd : ∀ lb ub d s m cs cs' ds, cs ≠ [] → cs'.length = cs.length →
      Q (.mk lb ub d s m cs ds) → Q (.mk lb ub d s m cs' ds))
    (hstore : ∀ lb ub d s m ds e, Q (.mk lb ub d s m [] ds) →
      Q (.mk lb ub d s m [] (ds ++ [e])))
    (hsplit : ∀ lb ub d s m ds cs, ¬ d > m → cs.length = 8 → Q (.mk lb ub d s m [] ds) →
      Q (.mk lb ub d s m cs []))
    (hfresh : ∀ lb ub d s m ds, ¬ d > m → Q (.mk lb ub d s m [] ds) →
      ∀ c ∈ freshChildren lb ub d s m, Q c)
    (fuel : Nat) (t : ConnectivityOctree) (i : Int) (p : Vec3) (r : Double) (b : Bool)
    (t' : ConnectivityOctree) (h : addPoint fuel t i p r = some (b, t')) :
    AllNodes Q t → AllNodes Q t' := by
  refine addPoint_induct (fun t _ _ t' => AllNodes Q t → AllNodes Q t') ?_ ?_ ?_ ?_
    fuel t i p r b t' h
  · intro t e _ ht
    exact ht
  · intro lb ub d s m cs ds e cs' _ hcs hch ht
    rw [allNodes_iff] at ht ⊢
    refine ⟨hfwd lb ub d s m cs cs' ds hcs (List.Forall₂.length_eq hch).symm ht.1, ?_⟩
    intro c' hc'
    obtain ⟨c, hc, _, hP⟩ := forall₂_right hch c' hc'
    exact hP (ht.2 c hc)
  · intro lb ub d s m ds e _ _ ht
    rw [allNodes_leaf] at ht ⊢
    exact hstore lb ub d s m ds e ht
  · intro lb ub d s m ds e cs _ _ hdeep hred ht
    rw [allNodes_leaf] at ht
    have hlen : cs.length = 8 := by rw [redistributed_length hred, fresh_length]
    have hall : ∀ {L : List Data} {cs₀ cs₁ : List ConnectivityOctree},
        Redistributed (fun t _ _ t' => AllNodes Q t → AllNodes Q t') L cs₀ cs₁ →
        (∀ c ∈ cs₀, AllNodes Q c) → ∀ c ∈ cs₁, AllNodes Q c := by
      intro L cs₀ cs₁ hr
      induction hr with
      | nil cs => exact fun h => h
      | cons hstep _ ih =>
        intro h0
        refine ih (fun c₁ hc₁ => ?_)
        obtain ⟨c, hc, _, hP⟩ := forall₂_right hstep c₁ hc₁
        exact hP (h0 c hc)
    rw [allNodes_iff]
    refine ⟨hsplit lb ub d s m ds cs hdeep hlen ht, hall hred (fun c hc => ?_)⟩
    obtain ⟨lb', ub', rfl⟩ := fresh_shape lb ub d s m c hc
    rw [allNodes_leaf]
    have := hfresh lb ub d s m ds hdeep ht _ hc
    exact this

theorem addPoints_allNodes (Q : ConnectivityOctree → Prop)
    (hstep : ∀ fuel t i p r b t', addPoint fuel t i p r = some (b, t') →
      AllNodes Q t → AllNodes Q t') (fuel : Nat) :
    ∀ (es : List Data) (t t' : ConnectivityOctree), addPoints fuel t es = some t' →
      AllNodes Q t → AllNodes Q t' := by
  intro es
  induction es with
  | nil =>
    intro t t' h ht
    simp only [addPoints, Option.some.injEq] at h
    subst h
    exact ht
  | cons e es ih =>
    intro t t' h ht
    unfold addPoints at h
    cases h₁ : addPoint fuel t e.index e.point e.radius with
    | none => simp [h₁] at h
    | some r =>
      obtain ⟨b, t₁⟩ := r
      simp only [h₁] at h
      exact ih t₁ t' h (hstep fuel t _ _ _ b t₁ h₁ ht)

theorem addPoint_nodeShape (fuel : Nat) (t : ConnectivityOctree) (i : Int) (p : Vec3) (r : Double)
    (b : Bool) (t' : ConnectivityOctree) (h : addPoint fuel t i p r = some (b, t')) :
    AllNodes NodeShape t → AllNodes NodeShape t' := by
  refine addPoint_allNodes NodeShape ?_ ?_ ?_ ?_ fuel t i p r b t' h
  · intro lb ub d s m cs cs' ds hcs hlen hq
    have hcs' : cs' ≠ [] := by
      intro h0
      rw [h0] at hlen
      exact hcs (List.length_eq_zero.1 hlen.symm)
    simp only [NodeShape, ConnectivityOctree.children, ConnectivityOctree.data] at hq ⊢
    rcases hq.1 with h0 | h8
    · exact absurd h0 hcs
    · exact ⟨Or.inr (by rw [hlen, h8]), fun _ => hq.2 hcs⟩
  · intro lb ub d s m ds e _
    simp [NodeShape, ConnectivityOctree.children]
  · intro lb ub d s m ds cs _ hlen _
    simp [NodeShape, ConnectivityOctree.children, ConnectivityOctree.data, hlen]
  · intro lb ub d s m ds _ _ c hc
    obtain ⟨lb', ub', rfl⟩ := fresh_shape lb ub d s m c hc
    simp [NodeShape, ConnectivityOctree.children]

theorem addPoint_nodeLimits (fuel : Nat) (t : ConnectivityOctree) (i : Int) (p : Vec3) (r : Double)
    (b : Bool) (t' : ConnectivityOctree) (h : addPoint fuel t i p r = some (b, t')) :
    AllNodes NodeLimits t → AllNodes NodeLimits t' := by
  refine addPoint_allNodes NodeLimits ?_ ?_ ?_ ?_ fuel t i p r b t' h
  · intro lb ub d s m cs cs' ds _ _ hq
    exact hq
  · intro lb ub d s m ds e hq
    exact hq
  · intro lb ub d s m ds cs _ _ hq
    exact hq
  · intro lb ub d s m ds hdeep hq c hc
    obtain ⟨lb', ub', rfl⟩ := fresh_shape lb ub d s m c hc
    simp only [NodeLimits, ConnectivityOctree.maxStorage, ConnectivityOctree.maxDepth,
      ConnectivityOctree.depth] at hq ⊢
    obtain ⟨_, hm, h0, _⟩ := hq
    subst hm
    refine ⟨trivial, trivial, ?_, ?_⟩ <;> omega

theorem forall₂_getElem? {α β : Type} {R : α → β → Prop} {l : List α} {l' : List β}
    (h : List.Forall₂ R l l') : ∀ (i : Nat) (a : α), l[i]? = some a →
      ∃ b, l'[i]? = some b ∧ R a b := by
  induction h with
  | nil =>
    intro i a ha
    simp at ha
  | cons hab _ ih =>
    intro i a ha
    cases i with
    | zero =>
      simp only [List.getElem?_cons_zero, Option.some.injEq] at ha
      subst ha
      exact ⟨_, by simp, hab⟩
    | succ i =>
      simp only [List.getElem?_cons_succ] at ha ⊢
      exact ih i a ha

theorem addPoint_staysInternal (fuel : Nat) (t : ConnectivityOctree) (i : Int) (p : Vec3)
    (r : Double) (b : Bool) (t' : ConnectivityOctree) (h : addPoint fuel t i p r = some (b, t')) :
    StaysInternal t ⟨i, p, r⟩ b t' := by
  have hleaf : ∀ (lb ub : Vec3) (d s m : Int) (ds : List Data) (e : Data) (b : Bool)
      (t' : ConnectivityOctree), StaysInternal (.mk lb ub d s m [] ds) e b t' := by
    intro lb ub d s m ds e b t' path n hn hc
    cases path with
    | nil =>
      simp only [nodeAt, Option.some.injEq] at hn
      subst hn
      exact absurd rfl hc
    | cons j path =>
      simp [nodeAt, ConnectivityOctree.children] at hn
  refine addPoint_induct StaysInternal ?_ ?_ ?_ ?_ fuel t i p r b t' h
  · intro t e _ path n hn hc
    exact ⟨n, hn, hc⟩
  · intro lb ub d s m cs ds e cs' _ hcs hch path n hn hc
    cases path with
    | nil =>
      simp only [nodeAt, Option.some.injEq] at hn
      subst hn
      exact ⟨_, rfl, forall₂_ne_nil hch hcs⟩
    | cons j path =>
      simp only [nodeAt, ConnectivityOctree.children] at hn ⊢
      cases hj : cs[j]? with
      | none => simp [hj] at hn
      | some c =>
        simp only [hj] at hn
        obtain ⟨c', hj', _, hP⟩ := forall₂_getElem? hch j c hj
        simp only [hj']
        exact hP path n hn hc
  · intro lb ub d s m ds e _ _
    exact hleaf lb ub d s m ds e true _
  · intro lb ub d s m ds e cs _ _ _ _
    exact hleaf lb ub d s m ds e true _

theorem addPoints_staysInternal (fuel : Nat) :
    ∀ (es : List Data) (t t' : ConnectivityOctree), addPoints fuel t es = some t' →
      ∀ path n, nodeAt t path = some n → n.children ≠ [] →
        ∃ n', nodeAt t' path = some n' ∧ n'.children ≠ [] := by
  intro es
  induction es with
  | nil =>
    intro t t' h path n hn hc
    simp only [addPoints, Option.some.injEq] at h
    subst h
    exact ⟨n, hn, hc⟩
  | cons e es ih =>
    intro t t' h path n hn hc
    unfold addPoints at h
    cases h₁ : addPoint fuel t e.index e.point e.radius with
    | none => simp [h₁] at h
    | some r =>
      obtain ⟨b, t₁⟩ := r
      simp only [h₁] at h
      obtain ⟨n₁, hn₁, hc₁⟩ := addPoint_staysInternal fuel t _ _ _ b t₁ h₁ path n hn hc
      exact ih t₁ t' h path n₁ hn₁ hc₁

theorem allNodes_newOctree5 (Q : ConnectivityOctree → Prop) (lb ub : Vec3) (depth s m : Int)
    (h : Q (.mk lb ub depth 10 8 [] [])) : AllNodes Q (newOctree5 lb ub depth s m) := by
  unfold newOctree5
  rw [allNodes_leaf]
  exact h

/-- C14. Node shape invariant: in every tree reached from a freshly constructed root by
`addPoint` calls (first the entities `before`, then the entities `after`), every node has
no children or exactly eight, every node that has children holds no entities, and every
node that had children after `before` still has children after `after`. -/
theorem node_shape_invariant (lb ub : Vec3) (depth maxStorage maxDepth : Int)
    (before after : List Data) (fuel : Nat) (hdepth : 0 ≤ depth) (hfuel : 10 ≤ fuel) :
    ∃ t₁ t, addPoints fuel (newOctree5 lb ub depth maxStorage maxDepth) before = some t₁ ∧
      addPoints fuel t₁ after = some t ∧
      (∀ path n, nodeAt t path = some n →
        (n.children = [] ∨ n.children.length = 8) ∧ (n.children ≠ [] → n.data = [])) ∧
      (∀ path n₁, nodeAt t₁ path = some n₁ → n₁.children ≠ [] →
        ∃ n, nodeAt t path = some n ∧ n.children ≠ []) := by
  have hroot := callDepth_newOctree5 lb ub depth maxStorage maxDepth hdepth
  obtain ⟨t₁, h₁, hk₁⟩ := addPoints_total fuel before
    (newOctree5 lb ub depth maxStorage maxDepth) (le_trans hroot hfuel)
  obtain ⟨t, h₂, _⟩ := addPoints_total fuel after t₁ (le_trans (le_trans hk₁ hroot) hfuel)
  refine ⟨t₁, t, h₁, h₂, ?_, addPoints_staysInternal fuel after t₁ t h₂⟩
  have h0 : AllNodes NodeShape (newOctree5 lb ub depth maxStorage maxDepth) :=
    allNodes_newOctree5 _ lb ub depth maxStorage maxDepth
      (by simp [NodeShape, ConnectivityOctree.children])
  exact addPoints_allNodes NodeShape addPoint_nodeShape fuel after t₁ t h₂
    (addPoints_allNodes NodeShape addPoint_nodeShape fuel before _ t₁ h₁ h0)

/-- Witness of `node_shape_invariant`: the eleven points of `farApart`, then `tenPoints`. -/
theorem node_shape_invariant_witness :
    (0 : Int) ≤ 0 ∧ 10 ≤ 10 ∧
    ∃ t₁ t, addPoints 10 (newOctree5 ⟨0, 0, 0⟩ ⟨16, 16, 16⟩ 0 10 8) farApart = some t₁ ∧
      addPoints 10 t₁ tenPoints = some t ∧
      (∀ path n, nodeAt t path = some n →
        (n.children = [] ∨ n.children.length = 8) ∧ (n.children ≠ [] → n.data = [])) ∧
      (∀ path n₁, nodeAt t₁ path = some n₁ → n₁.children ≠ [] →
        ∃ n, nodeAt t path = some n ∧ n.children ≠ []) :=
  ⟨le_refl 0, le_refl 10,
    node_shape_invariant ⟨0, 0, 0⟩ ⟨16, 16, 16⟩ 0 10 8 farApart tenPoints 10 (le_refl 0)
      (le_refl 10)⟩

theorem addPoint_false_unchanged (fuel : Nat) (t : ConnectivityOctree) (i : Int) (p : Vec3)
    (r : Double) (b : Bool) (t' : ConnectivityOctree) (h : addPoint fuel t i p r = some (b, t')) :
    b = false → t' = t := by
  refine addPoint_induct (fun t _ b t' => b = false → t' = t) ?_ ?_ ?_ ?_ fuel t i p r b t' h
  · intro t e _ _
    rfl
  · intro lb ub d s m cs ds e cs' _ _ _ hb
    simp at hb
  · intro lb ub d s m ds e _ _ hb
    simp at hb
  · intro lb ub d s m ds e cs _ _ _ _ hb
    simp at hb

theorem accepts_eq_false_iff (t : ConnectivityOctree) (e : Data) :
    accepts t e = false ↔
      ∃ i, i < 3 ∧ (t.upperBound.coord i < e.point.coord i - e.radius ∨
        t.lowerBound.coord i > e.point.coord i + e.radius) := by
  obtain ⟨lb, ub, d, s, m, cs, ds⟩ := t
  rw [← Bool.not_eq_true, accepts_iff]
  simp only [acceptsBox, ConnectivityOctree.lowerBound, ConnectivityOctree.upperBound]
  constructor
  · intro h
    by_contra hno
    apply h
    have h0 := fun hc => hno ⟨0, by decide, hc⟩
    have h1 := fun hc => hno ⟨1, by decide, hc⟩
    have h2 := fun hc => hno ⟨2, by decide, hc⟩
    simp only [Vec3.coord] at h0 h1 h2
    exact ⟨not_or.1 h0, not_or.1 h1, not_or.1 h2⟩
  · rintro ⟨i, hi, hout⟩ ⟨hx, hy, hz⟩
    have : i = 0 ∨ i = 1 ∨ i = 2 := by omega
    rcases this with rfl | rfl | rfl
    · simp only [Vec3.coord] at hout
      rcases hout with h | h
      · exact hx.1 h
      · exact hx.2 h
    · simp only [Vec3.coord] at hout
      rcases hout with h | h
      · exact hy.1 h
      · exact hy.2 h
    · simp only [Vec3.coord] at hout
      rcases hout with h | h
      · exact hz.1 h
      · exact hz.2 h

/-- C15, as amended. `addPoint` (with fuel at least the bound `callDepth` on the depth of
its call stack) returns, and it returns `false` exactly when, on at least one axis, the
upper bound of the node is below `position - radius` or the lower bound of the node is
above `position + radius`, the difference and the sum being those computed in `double`;
otherwise it returns `true`; when it returns `false` the node with its whole subtree is
unchanged. -/
theorem addPoint_false_iff_outside (t : ConnectivityOctree) (index : Int) (point : Vec3)
    (radius : Double) (fuel : Nat) (hfuel : callDepth t ≤ fuel) :
    ∃ b t', addPoint fuel t index point radius = some (b, t') ∧
      (b = false ↔
        ∃ i, i < 3 ∧ (t.upperBound.coord i < point.coord i - radius ∨
          t.lowerBound.coord i > point.coord i + radius)) ∧
      (b = true ↔
        ∀ i, i < 3 → ¬ t.upperBound.coord i < point.coord i - radius ∧
          ¬ t.lowerBound.coord i > point.coord i + radius) ∧
      (b = false → t' = t) := by
  obtain ⟨b, t', h, _⟩ := addPoint_total fuel t index point radius hfuel
  have hb := (addPoint_retains fuel t index point radius b t' h).1
  have hiff := accepts_eq_false_iff t ⟨index, point, radius⟩
  simp only at hiff
  refine ⟨b, t', h, by rw [hb]; exact hiff, ?_,
    addPoint_false_unchanged fuel t index point radius b t' h⟩
  rw [← Bool.not_eq_false, hb, hiff]
  constructor
  · intro hno i hi
    exact not_or.1 (fun hc => hno ⟨i, hi, hc⟩)
  · rintro hall ⟨i, hi, hc⟩
    exact not_or.2 (hall i hi) hc

/-- Witness of `addPoint_false_iff_outside`: a point outside the root box of scenario A. -/
theorem addPoint_false_iff_outside_witness :
    callDepth (newOctree ⟨-1, -1, -1⟩ ⟨6, 6, 6⟩) ≤ 10 ∧
    ∃ b t', addPoint 10 (newOctree ⟨-1, -1, -1⟩ ⟨6, 6, 6⟩) 7 ⟨8, 0, 0⟩ 0.5 = some (b, t') ∧
      (b = false ↔
        ∃ i, i < 3 ∧ ((newOctree ⟨-1, -1, -1⟩ ⟨6, 6, 6⟩).upperBound.coord i
            < (⟨8, 0, 0⟩ : Vec3).coord i - 0.5 ∨
          (newOctree ⟨-1, -1, -1⟩ ⟨6, 6, 6⟩).lowerBound.coord i
            > (⟨8, 0, 0⟩ : Vec3).coord i + 0.5)) ∧
      (b = true ↔
        ∀ i, i < 3 → ¬ (newOctree ⟨-1, -1, -1⟩ ⟨6, 6, 6⟩).upperBound.coord i
            < (⟨8, 0, 0⟩ : Vec3).coord i - 0.5 ∧
          ¬ (newOctree ⟨-1, -1, -1⟩ ⟨6, 6, 6⟩).lowerBound.coord i
            > (⟨8, 0, 0⟩ : Vec3).coord i + 0.5) ∧
      (b = false → t' = newOctree ⟨-1, -1, -1⟩ ⟨6, 6, 6⟩) :=
  ⟨by decide,
    addPoint_false_iff_outside (newOctree ⟨-1, -1, -1⟩ ⟨6, 6, 6⟩) 7 ⟨8, 0, 0⟩ 0.5 10
      (by decide)⟩

/-- C15, counterexample. The root box is the unit cube and the entity has the centre
`(1 + 2⁻⁵², 0.5, 0.5)` and the radius `2⁻⁵³`: on the first axis the upper bound `1` of the
node is strictly below the exact lower end `1 + 2⁻⁵³` of the entity's bounding box, and
`addPoint` returns `true` (the difference `position - radius` rounds to `1`) and stores the
entity. -/
theorem addPoint_accepts_rounded_box :
    (Double.finite (1 + 1 / 2 ^ 52)).IsDouble ∧ (Double.finite (1 / 2 ^ 53)).IsDouble ∧
    (0 : Double) ≤ .finite (1 / 2 ^ 53) ∧
    (newOctree ⟨0, 0, 0⟩ ⟨1, 1, 1⟩).upperBound.x.toRat
      < (Double.finite (1 + 1 / 2 ^ 52)).toRat - (Double.finite (1 / 2 ^ 53)).toRat ∧
    (addPoint 10 (newOctree ⟨0, 0, 0⟩ ⟨1, 1, 1⟩) 0 ⟨.finite (1 + 1 / 2 ^ 52), 0.5, 0.5⟩
        (.finite (1 / 2 ^ 53))).map (fun r => (r.1, r.2.children.length, r.2.data))
      = some (true, 0, [⟨0, ⟨.finite (1 + 1 / 2 ^ 52), 0.5, 0.5⟩, .finite (1 / 2 ^ 53)⟩]) ∧
    (Double.finite (1 + 1 / 2 ^ 52) - .finite (1 / 2 ^ 53) : Double) = 1 := by
  decide!

/-- C18. The depth limit guarantees termination: for every node and every entity `addPoint`
returns once the fuel reaches the bound `callDepth` on the depth of its call stack, so every
sequence of insertions into a fresh root returns with fuel `10`; `split` does nothing on a
node whose depth exceeds its maximum depth; and no node of a tree rooted at depth `0` has a
depth greater than its maximum depth plus one. -/
theorem addPoint_terminates :
    (∀ (t : ConnectivityOctree) (index : Int) (point : Vec3) (radius : Double) (fuel : Nat),
      callDepth t ≤ fuel → ∃ b t', addPoint fuel t index point radius = some (b, t')) ∧
    (∀ (add : ConnectivityOctree → Int → Vec3 → Double → Option (Bool × ConnectivityOctree))
      (t : ConnectivityOctree), t.depth > t.maxDepth → split add t = some t) ∧
    (∀ (lb ub : Vec3) (maxStorage maxDepth : Int) (es : List Data) (fuel : Nat), 10 ≤ fuel →
      ∃ t, addPoints fuel (newOctree5 lb ub 0 maxStorage maxDepth) es = some t ∧
        ∀ path n, nodeAt t path = some n → n.depth ≤ n.maxDepth + 1) := by
  refine ⟨fun t index point radius fuel hfuel => ?_, fun add t hdeep => ?_,
    fun lb ub maxStorage maxDepth es fuel hfuel => ?_⟩
  · obtain ⟨b, t', h, _⟩ := addPoint_total fuel t index point radius hfuel
    exact ⟨b, t', h⟩
  · unfold split
    simp only [hdeep, if_true]
  · obtain ⟨t, h, _⟩ := addPoints_total fuel es (newOctree5 lb ub 0 maxStorage maxDepth)
      (le_trans (callDepth_newOctree5 lb ub 0 maxStorage maxDepth (le_refl 0)) hfuel)
    have h0 : AllNodes NodeLimits (newOctree5 lb ub 0 maxStorage maxDepth) :=
      allNodes_newOctree5 _ lb ub 0 maxStorage maxDepth
        (by simp [NodeLimits, ConnectivityOctree.maxStorage, ConnectivityOctree.maxDepth,
          ConnectivityOctree.depth])
    have hall := addPoints_allNodes NodeLimits addPoint_nodeLimits fuel es _ t h h0
    exact ⟨t, h, fun path n hn => (hall path n hn).2.2.2⟩

/-- Witness of `addPoint_terminates`: the eleven coincident points of `coincident` in the
box `[0,3]³` end in one leaf at depth `9`, which holds all eleven, more than the capacity. -/
theorem addPoint_terminates_witness :
    (10 ≤ 10 ∧
      ∃ t, addPoints 10 (newOctree5 ⟨0, 0, 0⟩ ⟨3, 3, 3⟩ 0 10 8) coincident = some t ∧
        ∀ path n, nodeAt t path = some n → n.depth ≤ n.maxDepth + 1) ∧
    (addPoints 10 (newOctree5 ⟨0, 0, 0⟩ ⟨3, 3, 3⟩ 0 10 8) coincident).map
      (fun t => ((leafNodes t).filter fun n => n.data ≠ []).map
        fun n => (n.depth, n.maxStorage, n.data.length)) = some [(9, 10, 11)] :=
  ⟨⟨le_refl 10, addPoint_terminates.2.2 ⟨0, 0, 0⟩ ⟨3, 3, 3⟩ 10 8 coincident 10 (le_refl 10)⟩,
    by decide!⟩

namespace Double

theorem Bounded.isDouble {x : Double} (h : Bounded x) : IsDouble x := by
  cases x <;> simp_all [Bounded, IsDouble]

theorem Bounded.ne_nan {x : Double} (h : Bounded x) : x ≠ nan := by
  cases x <;> simp_all [Bounded]

theorem finite_le_finite (a b : ℚ) : finite a ≤ finite b ↔ a ≤ b := by
  simp [le_iff_ble, ble]

theorem finite_lt_finite (a b : ℚ) : finite a < finite b ↔ a < b := by
  simp [lt_iff_blt, blt]

theorem finite_of_between {x : Double} {a b : ℚ} (h1 : finite a ≤ x) (h2 : x ≤ finite b) :
    ∃ s, x = finite s ∧ a ≤ s ∧ s ≤ b := by
  cases x <;> simp_all [le_iff_ble, ble]

/-- The centre `0.5 * (l + u)` computed for an interval with bounded ends lies in the
interval and is bounded. -/
theorem midpoint_between {l u : Double} (hl : Bounded l) (hu : Bounded u) (h : l ≤ u) :
    l ≤ 0.5 * (l + u) ∧ 0.5 * (l + u) ≤ u ∧ Bounded (0.5 * (l + u)) := by
  cases l <;> try exact False.elim hl
  cases u <;> try exact False.elim hu
  rename_i a b
  obtain ⟨ha, ha1, ha2⟩ := hl
  obtain ⟨hb, hb1, hb2⟩ := hu
  rw [finite_le_finite] at h
  have h2a := round_double ha ha1 ha2
  have h2b := round_double hb hb1 hb2
  have hs1 : finite (2 * a) ≤ round (a + b) := by
    rw [← h2a]
    exact round_mono (by linarith)
  have hs2 : round (a + b) ≤ finite (2 * b) := by
    rw [← h2b]
    exact round_mono (by linarith)
  obtain ⟨s, hs, hsa, hsb⟩ := finite_of_between hs1 hs2
  have hsum : finite a + finite b = finite s := hs
  rw [hsum, half_eq]
  have hm : finite (1 / 2) * finite s = round (1 / 2 * s) := rfl
  rw [hm]
  have hm1 : finite a ≤ round (1 / 2 * s) := by
    rw [← ha]
    exact round_mono (by linarith)
  have hm2 : round (1 / 2 * s) ≤ finite b := by
    rw [← hb]
    exact round_mono (by linarith)
  obtain ⟨m, hmm, hma, hmb⟩ := finite_of_between hm1 hm2
  refine ⟨hm1, hm2, ?_⟩
  have hd := isDouble_round (1 / 2 * s)
  rw [hmm] at hd ⊢
  exact ⟨hd, by linarith, by linarith⟩

/-- Subtracting zero from a binary64 value leaves it as it is. -/
theorem sub_zero_eq {x : Double} (h : IsDouble x) : x - 0 = x := by
  rw [zero_eq, sub_def]
  cases x <;> try rfl
  rename_i q
  show round (q + -0) = finite q
  rw [neg_zero, add_zero]
  exact h

/-- Adding zero to a binary64 value leaves it as it is. -/
theorem add_zero_eq {x : Double} (h : IsDouble x) : x + 0 = x := by
  rw [zero_eq, add_def]
  cases x <;> try rfl
  rename_i q
  show round (q + 0) = finite q
  rw [add_zero]
  exact h

theorem dlt_of_not_le {a b : Double} (ha : a ≠ nan) (hb : b ≠ nan) (h : ¬ a ≤ b) : b < a := by
  cases a <;> cases b <;> simp_all [lt_iff_blt, le_iff_ble, blt, ble]

theorem dle_antisymm {a b : Double} (h : a ≤ b) (h' : b ≤ a) : a = b := by
  cases a <;> cases b <;> simp_all [le_iff_ble, ble]
  exact le_antisymm h h'

end Double

namespace Double

theorem IsFinite.toIsDouble {x : Double} (h : IsFinite x) : IsDouble x := by
  cases x <;> simp_all [IsFinite, IsDouble]

theorem IsFinite.not_nan {x : Double} (h : IsFinite x) : x ≠ nan := by
  cases x <;> simp_all [IsFinite]

theorem Bounded.isFinite {x : Double} (h : Bounded x) : IsFinite x := by
  cases x <;> simp_all [Bounded, IsFinite]

theorem round_huge : round ((2 : ℚ) ^ (1024 : ℤ)) = posInf := by decide!

theorem round_neg_huge : round (-(2 : ℚ) ^ (1024 : ℤ)) = negInf := by decide!

/-- A finite binary64 value has a magnitude below `2 ^ 1024`. -/
theorem lt_huge_of_round {q : ℚ} (h : round q = finite q) :
    -(2 : ℚ) ^ (1024 : ℤ) < q ∧ q < (2 : ℚ) ^ (1024 : ℤ) := by
  constructor
  · by_contra hc
    have := round_mono (not_lt.1 hc)
    rw [round_neg_huge, h] at this
    simp [le_iff_ble, ble] at this
  · by_contra hc
    have := round_mono (not_lt.1 hc)
    rw [round_huge, h] at this
    simp [le_iff_ble, ble] at this

/-- The centre `0.5 * (l + u)` computed for an interval with finite ends whose sum does not
overflow lies in the interval. -/
theorem midpoint_mem {l u : Double} (hl : IsFinite l) (hu : IsFinite u)
    (hs : IsFinite (l + u)) (h : l ≤ u) :
    l ≤ 0.5 * (l + u) ∧ 0.5 * (l + u) ≤ u ∧ IsFinite (0.5 * (l + u)) := by
  cases l <;> try exact False.elim hl
  cases u <;> try exact False.elim hu
  rename_i a b
  have ha : round a = finite a := hl
  have hb : round b = finite b := hu
  rw [finite_le_finite] at h
  have hsum : finite a + finite b = round (a + b) := rfl
  rw [hsum] at hs ⊢
  cases hr : round (a + b) <;> rw [hr] at hs <;> try exact False.elim hs
  rename_i s
  have hss : round s = finite s := hs
  obtain ⟨hs1, hs2⟩ := lt_huge_of_round hss
  have hsa : 2 * a ≤ s := by
    by_cases h1 : -(2 : ℚ) ^ (1023 : ℤ) < a
    · by_cases h2 : a < (2 : ℚ) ^ (1023 : ℤ)
      · have := round_mono (show 2 * a ≤ a + b by linarith)
        rw [round_double ha h1 h2, hr, finite_le_finite] at this
        exact this
      · exfalso
        have h3 : (2 : ℚ) ^ (1024 : ℤ) ≤ a + b := by
          have e : (2 : ℚ) ^ (1024 : ℤ) = 2 * (2 : ℚ) ^ (1023 : ℤ) := by norm_num
          rw [e]
          linarith
        have := round_mono h3
        rw [round_huge, hr] at this
        simp [le_iff_ble, ble] at this
    · have e : (2 : ℚ) ^ (1024 : ℤ) = 2 * (2 : ℚ) ^ (1023 : ℤ) := by norm_num
      rw [e] at hs1
      linarith
  have hsb : s ≤ 2 * b := by
    by_cases h2 : b < (2 : ℚ) ^ (1023 : ℤ)
    · by_cases h1 : -(2 : ℚ) ^ (1023 : ℤ) < b
      · have := round_mono (show a + b ≤ 2 * b by linarith)
        rw [round_double hb h1 h2, hr, finite_le_finite] at this
        exact this
      · exfalso
        have h3 : a + b ≤ -(2 : ℚ) ^ (1024 : ℤ) := by
          have e : (2 : ℚ) ^ (1024 : ℤ) = 2 * (2 : ℚ) ^ (1023 : ℤ) := by norm_num
          rw [e]
          linarith
        have := round_mono h3
        rw [round_neg_huge, hr] at this
        simp [le_iff_ble, ble] at this
    · have e : (2 : ℚ) ^ (1024 : ℤ) = 2 * (2 : ℚ) ^ (1023 : ℤ) := by norm_num
      rw [e] at hs2
      linarith
  rw [half_eq]
  have hm : finite (1 / 2) * finite s = round (1 / 2 * s) := rfl
  rw [hm]
  have hm1 : finite a ≤ round (1 / 2 * s) := by
    rw [← ha]
    exact round_mono (by linarith)
  have hm2 : round (1 / 2 * s) ≤ finite b := by
    rw [← hb]
    exact round_mono (by linarith)
  obtain ⟨m, hmm, _, _⟩ := finite_of_between hm1 hm2
  refine ⟨hm1, hm2, ?_⟩
  have hd := isDouble_round (1 / 2 * s)
  rw [hmm] at hd ⊢
  exact hd

/-- The sum of two bounded values does not overflow. -/
theorem Bounded.add_isFinite {l u : Double} (hl : Bounded l) (hu : Bounded u) :
    IsFinite (l + u) := by
  cases l <;> try exact False.elim hl
  cases u <;> try exact False.elim hu
  rename_i a b
  obtain ⟨ha, ha1, ha2⟩ := hl
  obtain ⟨hb, hb1, hb2⟩ := hu
  have hsum : finite a + finite b = round (a + b) := rfl
  rw [hsum]
  rcases le_total a b with h | h
  · have h1 := round_mono (show 2 * a ≤ a + b by linarith)
    have h2 := round_mono (show a + b ≤ 2 * b by linarith)
    rw [round_double ha ha1 ha2] at h1
    rw [round_double hb hb1 hb2] at h2
    obtain ⟨s, hs, _, _⟩ := finite_of_between h1 h2
    have hd := isDouble_round (a + b)
    rw [hs] at hd ⊢
    exact hd
  · have h1 := round_mono (show 2 * b ≤ a + b by linarith)
    have h2 := round_mono (show a + b ≤ 2 * a by linarith)
    rw [round_double hb hb1 hb2] at h1
    rw [round_double ha ha1 ha2] at h2
    obtain ⟨s, hs, _, _⟩ := finite_of_between h1 h2
    have hd := isDouble_round (a + b)
    rw [hs] at hd ⊢
    exact hd

end Double

/-! ## The octants of `split` -/

theorem addPoint_keepsHeader (fuel : Nat) (t : ConnectivityOctree) (i : Int) (p : Vec3)
    (r : Double) (b : Bool) (t' : ConnectivityOctree) (h : addPoint fuel t i p r = some (b, t')) :
    KeepsHeader t ⟨i, p, r⟩ b t' := by
  refine addPoint_induct KeepsHeader ?_ ?_ ?_ ?_ fuel t i p r b t' h
  · intro t e _
    rfl
  · intro lb ub d s m cs ds e cs' _ _ _
    rfl
  · intro lb ub d s m ds e _ _
    rfl
  · intro lb ub d s m ds e cs _ _ _ _
    rfl

theorem redistributed_keepsHeader {L : List Data} {cs₀ cs₁ : List ConnectivityOctree}
    (h : Redistributed KeepsHeader L cs₀ cs₁) : cs₁.map header = cs₀.map header := by
  induction h with
  | nil cs => rfl
  | @cons d ds cs cs₁ cs₂ hstep _ ih =>
    rw [ih]
    have : ∀ {l l' : List ConnectivityOctree},
        List.Forall₂ (fun c c' => ∃ b, KeepsHeader c d b c') l l' →
        l'.map header = l.map header := by
      intro l l' hf
      induction hf with
      | nil => rfl
      | cons hab _ ih' =>
        obtain ⟨_, hk⟩ := hab
        unfold KeepsHeader at hk
        simp only [List.map_cons, ih', hk]
    exact this hstep

theorem sectorTest_eq_testBit : ∀ sector, sector < 8 → ∀ i, i < 3 →
    sectorTest sector i = sector.testBit i := by
  decide

theorem updateBoundingBox_header (lb ub : Vec3) (d s m : Int) (k : Nat) :
    header (updateBoundingBox (newOctree5 lb ub d s m) k) =
      (⟨if sectorTest k 0 then 0.5 * (lb.x + ub.x) else lb.x,
        if sectorTest k 1 then 0.5 * (lb.y + ub.y) else lb.y,
        if sectorTest k 2 then 0.5 * (lb.z + ub.z) else lb.z⟩,
       ⟨if sectorTest k 0 then ub.x else 0.5 * (lb.x + ub.x),
        if sectorTest k 1 then ub.y else 0.5 * (lb.y + ub.y),
        if sectorTest k 2 then ub.z else 0.5 * (lb.z + ub.z)⟩, d) := by
  simp only [header, updateBoundingBox, List.foldl_cons, List.foldl_nil, updateAxis,
    newOctree5, Vec3.set, Vec3.coord, Vec3.smul, Vec3.add, ConnectivityOctree.lowerBound,
    ConnectivityOctree.upperBound, ConnectivityOctree.depth, sectorTest]

theorem fresh_sector (bx cy bz : Bool) :
    ∃ k, k < 8 ∧ sectorTest k 0 = bx ∧ sectorTest k 1 = cy ∧ sectorTest k 2 = bz := by
  refine ⟨bx.toNat + 2 * cy.toNat + 4 * bz.toNat, ?_⟩
  cases bx <;> cases cy <;> cases bz <;> decide

/-- A value of an interval lies in one of the two halves around a centre that is a
number. -/
theorem half_cases {l u c p : Double} (hc : c ≠ Double.nan) (h1 : l ≤ p) (h2 : p ≤ u) :
    ∃ b : Bool, (if b then c else l) ≤ p ∧ p ≤ (if b then u else c) := by
  by_cases h : c ≤ p
  · exact ⟨true, h, h2⟩
  · exact ⟨false, h1, Double.dle_of_lt (Double.dlt_of_not_le hc (Double.ne_nan_of_le h1).2 h)⟩

/-- A value of one of the two halves around a centre of the interval lies in the
interval. -/
theorem half_sub {l u c p : Double} (hl : l ≤ c) (hu : c ≤ u) (b : Bool)
    (h1 : (if b then c else l) ≤ p) (h2 : p ≤ (if b then u else c)) : l ≤ p ∧ p ≤ u := by
  cases b
  · exact ⟨h1, Double.dle_trans h2 hu⟩
  · exact ⟨Double.dle_trans hl h1, h2⟩

theorem inside_fresh_iff (lb ub : Vec3) (d s m : Int) (ho : Ordered lb ub)
    (hn : NoOverflow lb ub) (p : Vec3) :
    Inside lb ub p ↔ ∃ c ∈ freshChildren lb ub d s m, Inside c.lowerBound c.upperBound p := by
  obtain ⟨⟨lx, ly, lz⟩, ⟨ux, uy, uz⟩, sx, sy, sz⟩ := hn
  obtain ⟨ox, oy, oz⟩ := ho
  obtain ⟨mx1, mx2, mx3⟩ := Double.midpoint_mem lx ux sx ox
  obtain ⟨my1, my2, my3⟩ := Double.midpoint_mem ly uy sy oy
  obtain ⟨mz1, mz2, mz3⟩ := Double.midpoint_mem lz uz sz oz
  constructor
  · rintro ⟨⟨h1, h2⟩, ⟨h3, h4⟩, ⟨h5, h6⟩⟩
    obtain ⟨bx, hbx⟩ := half_cases mx3.not_nan h1 h2
    obtain ⟨cy, hcy⟩ := half_cases my3.not_nan h3 h4
    obtain ⟨bz, hbz⟩ := half_cases mz3.not_nan h5 h6
    obtain ⟨k, hk, k0, k1, k2⟩ := fresh_sector bx cy bz
    refine ⟨_, List.mem_map.2 ⟨k, List.mem_range.2 hk, rfl⟩, ?_⟩
    have hh := updateBoundingBox_header lb ub (d + 1) s m k
    simp only [header, Prod.mk.injEq] at hh
    rw [hh.1, hh.2.1, k0, k1, k2]
    exact ⟨hbx, hcy, hbz⟩
  · rintro ⟨c, hc, h⟩
    obtain ⟨k, _, rfl⟩ := List.mem_map.1 hc
    have hh := updateBoundingBox_header lb ub (d + 1) s m k
    simp only [header, Prod.mk.injEq] at hh
    rw [hh.1, hh.2.1] at h
    obtain ⟨⟨h1, h2⟩, ⟨h3, h4⟩, ⟨h5, h6⟩⟩ := h
    exact ⟨half_sub mx1 mx2 _ h1 h2, half_sub my1 my2 _ h3 h4, half_sub mz1 mz2 _ h5 h6⟩

/-- C19, as amended. Octant geometry of `split`: when a leaf with box `[lower, upper]` that
is not beyond its maximum depth splits (with enough fuel `split` returns), it gets eight
children; child number `sector` has the depth of the parent plus one and, on axis `i`, the
box `[c_i, upper_i]` when bit `i` of `sector` is set and `[lower_i, c_i]` otherwise, where
`c = 0.5 * (lower + upper)` is the centre computed in `double`; when `lower <= upper` on
each axis, the corners are finite and no sum `lower_i + upper_i` overflows, a point lies in
the box of the parent iff it lies in the box of one of the children, so the boxes of the
children lie inside the box of the parent and their union is that box. -/
theorem split_octants (lb ub : Vec3) (d s m : Int) (ds : List Data) (fuel : Nat)
    (hsplits : ¬ d > m) (hfuel : callDepth (.mk lb ub d s m [] ds) ≤ fuel + 1) :
    ∃ cs, split (addPoint fuel) (.mk lb ub d s m [] ds) = some (.mk lb ub d s m cs []) ∧
      cs.length = 8 ∧
      (∀ sector, sector < 8 → ∃ c, cs[sector]? = some c ∧ c.depth = d + 1 ∧
        ∀ i, i < 3 →
          c.lowerBound.coord i =
            (if sector.testBit i then 0.5 * (lb.coord i + ub.coord i) else lb.coord i) ∧
          c.upperBound.coord i =
            (if sector.testBit i then ub.coord i else 0.5 * (lb.coord i + ub.coord i))) ∧
      (Ordered lb ub → NoOverflow lb ub →
        ∀ p, Inside lb ub p ↔ ∃ c ∈ cs, Inside c.lowerBound c.upperBound p) := by
  rw [callDepth_leaf] at hfuel
  simp only [hsplits, if_false] at hfuel
  obtain ⟨cs, hcs, hlen, _⟩ :=
    redistribute_total (addPoint fuel) (1 + (8 - d).toNat)
      (fun c i p r hc => by
        obtain ⟨b, c', h₁, h₂⟩ := addPoint_total fuel c i p r (by omega)
        exact ⟨b, c', h₁, le_trans h₂ hc⟩)
      ds (freshChildren lb ub d s m) (callDepth_fresh lb ub d s m)
  have hhead := redistributed_keepsHeader
    (redistribute_spec (addPoint fuel) KeepsHeader
      (fun c i p r b c' hb => addPoint_keepsHeader fuel c i p r b c' hb) _ _ _ hcs)
  rw [fresh_length] at hlen
  have hget : ∀ sector, sector < 8 → ∃ c, cs[sector]? = some c ∧
      header c = header (updateBoundingBox (newOctree5 lb ub (d + 1) s m) sector) := by
    intro sector hsec
    have h1 : (cs.map header)[sector]? = ((freshChildren lb ub d s m).map header)[sector]? := by
      rw [hhead]
    have hlt : sector < cs.length := by omega
    refine ⟨cs[sector], List.getElem?_eq_getElem hlt, ?_⟩
    simp only [List.getElem?_map, List.getElem?_eq_getElem hlt, Option.map_some',
      freshChildren, List.getElem?_range hsec] at h1
    exact Option.some.inj h1
  refine ⟨cs, ?_, hlen, fun sector hsec => ?_, fun ho hn p => ?_⟩
  · have hcs' : redistribute (addPoint fuel) ds
        (List.map (fun sector =>
          updateBoundingBox (newOctree5 lb ub (d + 1) s m) sector) (List.range 8))
        = some cs := hcs
    unfold split
    simp only [ConnectivityOctree.depth, ConnectivityOctree.maxDepth, hsplits, if_false,
      ConnectivityOctree.data, ConnectivityOctree.lowerBound, ConnectivityOctree.upperBound,
      ConnectivityOctree.maxStorage, hcs']
  · obtain ⟨c, hc, hh⟩ := hget sector hsec
    rw [updateBoundingBox_header] at hh
    simp only [header, Prod.mk.injEq] at hh
    obtain ⟨hlo, hhi, hd⟩ := hh
    refine ⟨c, hc, hd, fun i hi => ?_⟩
    rw [hlo, hhi]
    have : i = 0 ∨ i = 1 ∨ i = 2 := by omega
    rcases this with rfl | rfl | rfl
    · rw [← sectorTest_eq_testBit sector hsec 0 (by decide)]
      simp only [Vec3.coord, and_self]
    · rw [← sectorTest_eq_testBit sector hsec 1 (by decide)]
      simp only [Vec3.coord, and_self]
    · rw [← sectorTest_eq_testBit sector hsec 2 (by decide)]
      simp only [Vec3.coord, and_self]
  · rw [inside_fresh_iff lb ub d s m ho hn p]
    have hbox : ∀ {l l' : List ConnectivityOctree}, l'.map header = l.map header →
        ((∃ c ∈ l, Inside c.lowerBound c.upperBound p) ↔
          ∃ c ∈ l', Inside c.lowerBound c.upperBound p) := by
      intro l l' hmap
      have key : ∀ l : List ConnectivityOctree,
          (∃ c ∈ l, Inside c.lowerBound c.upperBound p) ↔
            ∃ h ∈ l.map header, Inside h.1 h.2.1 p := by
        intro l
        simp [header]
      rw [key l, key l', hmap]
    exact hbox hhead

/-- Witness of `split_octants`: a leaf at depth `0` with the box `[0,16]³` holding
`farApart`; the box has `lower <= upper` and its sums do not overflow. -/
theorem split_octants_witness :
    ¬ (0 : Int) > 8 ∧ callDepth (.mk ⟨0, 0, 0⟩ ⟨16, 16, 16⟩ 0 10 8 [] farApart) ≤ 9 + 1 ∧
    Ordered ⟨0, 0, 0⟩ ⟨16, 16, 16⟩ ∧ NoOverflow ⟨0, 0, 0⟩ ⟨16, 16, 16⟩ ∧
    ∃ cs, split (addPoint 9) (.mk ⟨0, 0, 0⟩ ⟨16, 16, 16⟩ 0 10 8 [] farApart)
        = some (.mk ⟨0, 0, 0⟩ ⟨16, 16, 16⟩ 0 10 8 cs []) ∧
      cs.length = 8 ∧
      (∀ sector, sector < 8 → ∃ c, cs[sector]? = some c ∧ c.depth = 0 + 1 ∧
        ∀ i, i < 3 →
          c.lowerBound.coord i =
            (if sector.testBit i
              then 0.5 * ((⟨0, 0, 0⟩ : Vec3).coord i + (⟨16, 16, 16⟩ : Vec3).coord i)
              else (⟨0, 0, 0⟩ : Vec3).coord i) ∧
          c.upperBound.coord i =
            (if sector.testBit i then (⟨16, 16, 16⟩ : Vec3).coord i
              else 0.5 * ((⟨0, 0, 0⟩ : Vec3).coord i + (⟨16, 16, 16⟩ : Vec3).coord i))) ∧
      (Ordered ⟨0, 0, 0⟩ ⟨16, 16, 16⟩ → NoOverflow ⟨0, 0, 0⟩ ⟨16, 16, 16⟩ →
        ∀ p, Inside ⟨0, 0, 0⟩ ⟨16, 16, 16⟩ p ↔
          ∃ c ∈ cs, Inside c.lowerBound c.upperBound p) :=
  ⟨by decide, by decide, by decide!, by decide!,
    split_octants ⟨0, 0, 0⟩ ⟨16, 16, 16⟩ 0 10 8 farApart 9 (by decide) (by decide)⟩

/-- Counterexamples to C19 as stated, for empty leaves at depth `0`. (1) Box
`[1, 1 + 3 * 2⁻⁵²] × [0,1]²`: the centre computed on the first axis is `1 + 2⁻⁵¹`, above the
exact midpoint `1 + 3 * 2⁻⁵³`, so the children are not cut at `(lower + upper) / 2`.
(2) Box `[2¹⁰²³, 1.5 * 2¹⁰²³] × [0,1]²`, with `lower <= upper` and finite corners: the sum
of the corners overflows, the centre is `+inf`, and the point `(1.75 * 2¹⁰²³, 0, 0)` lies
in the box of child `0` but not in the box of the parent. (3) Box
`[1, 1 - 2⁻⁵³] × [0,1]²`, inverted on the first axis, without overflow: the centre
computed is `1`, and the point `(1, 0, 0)` lies in the box of child `0` but not in the box
of the parent. -/
theorem split_children_leave_parent :
    ((split (addPoint 9)
          (.mk ⟨1, 0, 0⟩ ⟨.finite (1 + 3 / 2 ^ 52), 1, 1⟩ 0 10 8 [] [])).map
        (fun t => t.children.map (fun c => (c.lowerBound.x, c.upperBound.x)))
      = some [(1, .finite (1 + 1 / 2 ^ 51)), (.finite (1 + 1 / 2 ^ 51), .finite (1 + 3 / 2 ^ 52)),
          (1, .finite (1 + 1 / 2 ^ 51)), (.finite (1 + 1 / 2 ^ 51), .finite (1 + 3 / 2 ^ 52)),
          (1, .finite (1 + 1 / 2 ^ 51)), (.finite (1 + 1 / 2 ^ 51), .finite (1 + 3 / 2 ^ 52)),
          (1, .finite (1 + 1 / 2 ^ 51)), (.finite (1 + 1 / 2 ^ 51), .finite (1 + 3 / 2 ^ 52))] ∧
      (Double.finite (1 + 3 / 2 ^ 52)).IsFinite ∧
      ((1 : Double).toRat + (Double.finite (1 + 3 / 2 ^ 52)).toRat) / 2 < 1 + 1 / 2 ^ 51) ∧
    (Ordered ⟨.finite (2 ^ 1023), 0, 0⟩ ⟨.finite (3 * 2 ^ 1022), 1, 1⟩ ∧
      Vec3.IsFinite ⟨.finite (2 ^ 1023), 0, 0⟩ ∧ Vec3.IsFinite ⟨.finite (3 * 2 ^ 1022), 1, 1⟩ ∧
      (split (addPoint 9)
          (.mk ⟨.finite (2 ^ 1023), 0, 0⟩ ⟨.finite (3 * 2 ^ 1022), 1, 1⟩ 0 10 8 [] [])).map
        (fun t => t.children.map (fun c => (c.lowerBound.x, c.upperBound.x,
          decide (Inside c.lowerBound c.upperBound ⟨.finite (7 * 2 ^ 1021), 0, 0⟩))))
      = some [(.finite (2 ^ 1023), .posInf, true), (.posInf, .finite (3 * 2 ^ 1022), false),
          (.finite (2 ^ 1023), .posInf, false), (.posInf, .finite (3 * 2 ^ 1022), false),
          (.finite (2 ^ 1023), .posInf, false), (.posInf, .finite (3 * 2 ^ 1022), false),
          (.finite (2 ^ 1023), .posInf, false), (.posInf, .finite (3 * 2 ^ 1022), false)] ∧
      ¬ Inside ⟨.finite (2 ^ 1023), 0, 0⟩ ⟨.finite (3 * 2 ^ 1022), 1, 1⟩
          ⟨.finite (7 * 2 ^ 1021), 0, 0⟩) ∧
    (NoOverflow ⟨1, 0, 0⟩ ⟨.finite (1 - 1 / 2 ^ 53), 1, 1⟩ ∧
      (split (addPoint 9)
          (.mk ⟨1, 0, 0⟩ ⟨.finite (1 - 1 / 2 ^ 53), 1, 1⟩ 0 10 8 [] [])).map
        (fun t => t.children.map (fun c => (c.lowerBound.x, c.upperBound.x,
          decide (Inside c.lowerBound c.upperBound ⟨1, 0, 0⟩))))
      = some [(1, 1, true), (1, .finite (1 - 1 / 2 ^ 53), false),
          (1, 1, false), (1, .finite (1 - 1 / 2 ^ 53), false),
          (1, 1, false), (1, .finite (1 - 1 / 2 ^ 53), false),
          (1, 1, false), (1, .finite (1 - 1 / 2 ^ 53), false)] ∧
      ¬ Inside ⟨1, 0, 0⟩ ⟨.finite (1 - 1 / 2 ^ 53), 1, 1⟩ ⟨1, 0, 0⟩) := by
  decide!

/-! ## The order in which the clusters are emitted -/

theorem clusterMoleculesSeeded_clusters :
    ∀ (fuel : Nat) (m : Bonds) (out : List (Int × List Int × IntSet)),
      (clusterMoleculesSeeded fuel m out).map (fun r => (r.1, r.2.map fun a => a.2.2))
        = clusterMoleculesLoop fuel m (out.map fun a => a.2.2) := by
  intro fuel
  induction fuel with
  | zero =>
    intro m out
    cases m with
    | nil => simp [clusterMoleculesSeeded, clusterMoleculesLoop, Except.map]
    | cons e rest => simp [clusterMoleculesSeeded, clusterMoleculesLoop, Except.map]
  | succ fuel ih =>
    intro m out
    cases m with
    | nil => simp [clusterMoleculesSeeded, clusterMoleculesLoop, Except.map]
    | cons e rest =>
      obtain ⟨k, v⟩ := e
      unfold clusterMoleculesSeeded clusterMoleculesLoop
      cases h : clusterSingleMolecule ((k, v) :: rest).length ((k, v) :: rest) [] k with
      | error err => simp [Except.map]
      | ok r =>
        obtain ⟨m', c⟩ := r
        simp only
        rw [ih m' _]
        simp

theorem clusterMoleculesSeeded_spec :
    ∀ (fuel : Nat) (m : Bonds) (out : List (Int × List Int × IntSet)), m.length ≤ fuel →
      (mapKeys m).Sorted (· < ·) →
      ∃ tr, clusterMoleculesSeeded fuel m out = .ok ([], out ++ tr) ∧
        SeedsAscend (mapKeys m) tr := by
  intro fuel
  induction fuel with
  | zero =>
    intro m out hm _
    have : m = [] := List.length_eq_zero.1 (Nat.le_zero.1 hm)
    subst this
    exact ⟨[], by simp [clusterMoleculesSeeded], by simp [SeedsAscend]⟩
  | succ fuel ih =>
    intro m out hm hsorted
    cases m with
    | nil => exact ⟨[], by simp [clusterMoleculesSeeded], by simp [SeedsAscend]⟩
    | cons e rest =>
      obtain ⟨k, v⟩ := e
      have hnd : (mapKeys ((k, v) :: rest)).Nodup := hsorted.nodup
      have hk : mapFind ((k, v) :: rest) k ≠ none := by simp [mapFind]
      have hhead : ∀ x ∈ mapKeys rest, k < x :=
        (List.sorted_cons.1 (by simpa [mapKeys] using hsorted)).1
      obtain ⟨m', c, h, hl⟩ :=
        clusterSingleMolecule_ok ((k, v) :: rest).length ((k, v) :: rest) [] k (le_refl _) hk
      obtain ⟨hsub, hre, hcur⟩ := clusterSingleMolecule_spec _ _ _ _ _ _ hnd h
      have hsorted' : (mapKeys m').Sorted (· < ·) := hsorted.sublist (hsub.map Prod.fst)
      have hkeys' : ∀ x ∈ mapKeys m', k < x := by
        intro x hx
        have hx' : x ∈ mapKeys ((k, v) :: rest) := (hsub.map Prod.fst).subset hx
        have hxk : x ≠ k := by
          rintro rfl
          have := (hre x).1 (Reach.self hk)
          exact (mapFind_eq_none_iff m' x).1 this hx
        simp only [mapKeys, List.map_cons, List.mem_cons] at hx'
        rcases hx' with h0 | h0
        · exact absurd h0 hxk
        · exact hhead x h0
      obtain ⟨tr, htr, hasc, hpair⟩ := ih m'
        (out ++ [(k, mapKeys ((k, v) :: rest), c)]) (by simp at hl hm; omega) hsorted'
      refine ⟨(k, mapKeys ((k, v) :: rest), c) :: tr, ?_, ?_, ?_⟩
      · unfold clusterMoleculesSeeded
        simp only [h, htr, List.append_assoc, List.singleton_append]
      · intro a ha
        rcases List.mem_cons.1 ha with rfl | ha
        · refine ⟨by simp [mapKeys], ?_, fun x hx => hx, ?_, ?_⟩
          · intro x hx
            simp only [mapKeys, List.map_cons, List.mem_cons] at hx
            rcases hx with h0 | h0
            · exact le_of_eq h0.symm
            · exact le_of_lt (hhead x h0)
          · exact (hcur k).2 (Or.inr (Reach.self hk))
          · intro x hx
            rcases (hcur x).1 hx with h0 | h0
            · simp at h0
            · exact (mapFind_isSome_iff _ x).1
                (Option.isSome_iff_ne_none.2 h0.live_end)
        · obtain ⟨h1, h2, h3, h4, h5⟩ := hasc a ha
          exact ⟨h1, h2, fun x hx => (hsub.map Prod.fst).subset (h3 x hx), h4, h5⟩
      · refine List.Pairwise.cons ?_ hpair
        intro b hb
        obtain ⟨h1, _, h3, _, _⟩ := hasc b hb
        exact ⟨hkeys' _ (h3 _ h1), fun x hx => hkeys' x (h3 x hx)⟩

/-- C20. Cluster emission order: for every adjacency map (with ascending keys, as in every
`std::map`), the seed of each cluster returned by `clusterMolecules` is the smallest key
still in the map, so the seeds are strictly increasing along the output; each seed is the
smallest id of its cluster (for every map, symmetric or not), so the clusters are emitted
in ascending order of their smallest id. -/
theorem clusterMolecules_seed_order (bonds : Bonds) (hkeys : (mapKeys bonds).Sorted (· < ·)) :
    ∃ tr, clusterMoleculesSeeded bonds.length bonds [] = .ok ([], tr) ∧
      clusterMolecules bonds = .ok ([], tr.map fun a => a.2.2) ∧
      (∀ a ∈ tr, a.1 ∈ a.2.1 ∧ ∀ x ∈ a.2.1, a.1 ≤ x) ∧
      (tr.map fun a => a.1).Sorted (· < ·) ∧
      (∀ a ∈ tr, a.1 ∈ a.2.2 ∧ ∀ x ∈ a.2.2, a.1 ≤ x) ∧
      tr.Pairwise (fun a b => ∀ x ∈ b.2.2, a.1 < x) := by
  obtain ⟨tr, htr, hasc, hpair⟩ :=
    clusterMoleculesSeeded_spec bonds.length bonds [] (le_refl _) hkeys
  simp only [List.nil_append] at htr
  refine ⟨tr, htr, ?_, fun a ha => ⟨(hasc a ha).1, (hasc a ha).2.1⟩, ?_, fun a ha => ?_, ?_⟩
  · have h := clusterMoleculesSeeded_clusters bonds.length bonds []
    rw [htr] at h
    simpa [clusterMolecules, Except.map] using h.symm
  · exact List.pairwise_map.2 (hpair.imp fun h => h.1)
  · obtain ⟨_, h2, _, h4, h5⟩ := hasc a ha
    exact ⟨h4, fun x hx => h2 x (h5 x hx)⟩
  · refine List.Pairwise.imp_of_mem ?_ hpair
    intro a b _ hb hab x hx
    exact hab.2 x ((hasc b hb).2.2.2.2 x hx)

/-- Witness of `clusterMolecules_seed_order`: a map whose first key is bonded to its last. -/
theorem clusterMolecules_seed_order_witness :
    (mapKeys [(1, [4]), (2, [3]), (3, [2]), (4, [1])]).Sorted (· < ·) ∧
    (∃ tr, clusterMoleculesSeeded 4 [(1, [4]), (2, [3]), (3, [2]), (4, [1])] []
        = .ok ([], tr) ∧
      clusterMolecules [(1, [4]), (2, [3]), (3, [2]), (4, [1])]
        = .ok ([], tr.map fun a => a.2.2) ∧
      (∀ a ∈ tr, a.1 ∈ a.2.1 ∧ ∀ x ∈ a.2.1, a.1 ≤ x) ∧
      (tr.map fun a => a.1).Sorted (· < ·) ∧
      (∀ a ∈ tr, a.1 ∈ a.2.2 ∧ ∀ x ∈ a.2.2, a.1 ≤ x) ∧
      tr.Pairwise (fun a b => ∀ x ∈ b.2.2, a.1 < x)) ∧
    clusterMoleculesSeeded 4 [(1, [4]), (2, [3]), (3, [2]), (4, [1])] []
      = .ok ([], [(1, [1, 2, 3, 4], [1, 4]), (2, [2, 3], [2, 3])]) :=
  ⟨by decide, clusterMolecules_seed_order [(1, [4]), (2, [3]), (3, [2]), (4, [1])] (by decide),
    rfl⟩

/-! ## Replication of the records over the leaves -/

theorem leafPathsFromList_eq (above : List (Vec3 × Vec3)) (cs : List ConnectivityOctree) :
    leafPathsFromList above cs = cs.flatMap (leafPathsFrom above) := by
  induction cs with
  | nil => simp [leafPathsFromList]
  | cons c cs ih => simp [leafPathsFromList, ih]

theorem leafPathsFrom_leaf (above : List (Vec3 × Vec3)) (lb ub : Vec3) (d s m : Int)
    (ds : List Data) :
    leafPathsFrom above (.mk lb ub d s m [] ds)
      = [((lb, ub) :: above, .mk lb ub d s m [] ds)] := by
  simp [leafPathsFrom]

theorem leafPathsFrom_node (above : List (Vec3 × Vec3)) (lb ub : Vec3) (d s m : Int)
    (cs : List ConnectivityOctree) (ds : List Data) (h : cs ≠ []) :
    leafPathsFrom above (.mk lb ub d s m cs ds)
      = cs.flatMap (leafPathsFrom ((lb, ub) :: above)) := by
  cases cs with
  | nil => exact absurd rfl h
  | cons c cs => rw [leafPathsFrom, leafPathsFromList_eq]

mutual
theorem leafPathsFrom_snd :
    ∀ (t : ConnectivityOctree) (above : List (Vec3 × Vec3)),
      (leafPathsFrom above t).map Prod.snd = leafNodes t
  | .mk lb ub d s m [] ds, above => by
    rw [leafPathsFrom_leaf, leafNodes_leaf]
    rfl
  | .mk lb ub d s m (c :: cs) ds, above => by
    rw [leafPathsFrom, leafNodes]
    exact leafPathsFromList_snd (c :: cs) _
theorem leafPathsFromList_snd :
    ∀ (cs : List ConnectivityOctree) (above : List (Vec3 × Vec3)),
      (leafPathsFromList above cs).map Prod.snd = leafNodesList cs
  | [], _ => by simp [leafPathsFromList, leafNodesList]
  | c :: cs, above => by
    rw [leafPathsFromList, leafNodesList, List.map_append, leafPathsFrom_snd c above,
      leafPathsFromList_snd cs above]
end

mutual
theorem path_boxes :
    ∀ (t : ConnectivityOctree) (above : List (Vec3 × Vec3)), ∀ p ∈ leafPathsFrom above t,
      (p.2.lowerBound, p.2.upperBound) ∈ p.1 ∧ (t.lowerBound, t.upperBound) ∈ p.1 ∧
        ∀ b ∈ above, b ∈ p.1
  | .mk lb ub d s m [] ds, above, p, hp => by
    rw [leafPathsFrom_leaf] at hp
    rw [List.mem_singleton.1 hp]
    exact ⟨List.mem_cons_self _ _, List.mem_cons_self _ _,
      fun b hb => List.mem_cons_of_mem _ hb⟩
  | .mk lb ub d s m (c :: cs) ds, above, p, hp => by
    rw [leafPathsFrom_node above lb ub d s m (c :: cs) ds (by simp)] at hp
    obtain ⟨c', hc', hp'⟩ := List.mem_flatMap.1 hp
    have h := path_boxes_list (c :: cs) ((lb, ub) :: above) c' hc' p hp'
    exact ⟨h.1, h.2.2 _ (List.mem_cons_self _ _),
      fun b hb => h.2.2 b (List.mem_cons_of_mem _ hb)⟩
theorem path_boxes_list :
    ∀ (cs : List ConnectivityOctree) (above : List (Vec3 × Vec3)), ∀ c ∈ cs,
      ∀ p ∈ leafPathsFrom above c,
        (p.2.lowerBound, p.2.upperBound) ∈ p.1 ∧ (c.lowerBound, c.upperBound) ∈ p.1 ∧
          ∀ b ∈ above, b ∈ p.1
  | [], _, c, hc, _, _ => by simp at hc
  | c₀ :: cs, above, c, hc, p, hp => by
    rcases List.mem_cons.1 hc with rfl | hc'
    · exact path_boxes c above p hp
    · exact path_boxes_list cs above c hc' p hp
end

theorem acceptedBy_cons (b : Vec3 × Vec3) (bs : List (Vec3 × Vec3)) (e : Data) :
    AcceptedBy (b :: bs) e ↔ acceptsBox b.1 b.2 e ∧ AcceptedBy bs e := by
  simp [AcceptedBy]

theorem heldIn_leaf (above : List (Vec3 × Vec3)) (lb ub : Vec3) (d s m : Int)
    (ds : List Data) :
    HeldIn above (.mk lb ub d s m [] ds) ↔ ∀ x ∈ ds, AcceptedBy ((lb, ub) :: above) x := by
  simp [HeldIn, leafPathsFrom_leaf, ConnectivityOctree.data]

theorem heldIn_node (above : List (Vec3 × Vec3)) (lb ub : Vec3) (d s m : Int)
    (cs : List ConnectivityOctree) (ds : List Data) (h : cs ≠ []) :
    HeldIn above (.mk lb ub d s m cs ds) ↔ ∀ c ∈ cs, HeldIn ((lb, ub) :: above) c := by
  unfold HeldIn
  rw [leafPathsFrom_node above lb ub d s m cs ds h]
  simp only [List.mem_flatMap]
  constructor
  · intro hn c hc p hp
    exact hn p ⟨c, hc, hp⟩
  · rintro hn p ⟨c, hc, hp⟩
    exact hn c hc p hp

theorem repIn_leaf (above : List (Vec3 × Vec3)) (lb ub : Vec3) (d s m : Int)
    (ds : List Data) (x : Data) :
    RepIn above (.mk lb ub d s m [] ds) x ↔ (x ∈ ds ↔ AcceptedBy ((lb, ub) :: above) x) := by
  simp [RepIn, leafPathsFrom_leaf, ConnectivityOctree.data]

theorem repIn_node (above : List (Vec3 × Vec3)) (lb ub : Vec3) (d s m : Int)
    (cs : List ConnectivityOctree) (ds : List Data) (h : cs ≠ []) (x : Data) :
    RepIn above (.mk lb ub d s m cs ds) x ↔ ∀ c ∈ cs, RepIn ((lb, ub) :: above) c x := by
  unfold RepIn
  rw [leafPathsFrom_node above lb ub d s m cs ds h]
  simp only [List.mem_flatMap]
  constructor
  · intro hn c hc p hp
    exact hn p ⟨c, hc, hp⟩
  · rintro hn p ⟨c, hc, hp⟩
    exact hn c hc p hp

theorem forall₂_sameBox_trans {l₁ l₂ l₃ : List ConnectivityOctree}
    (h : List.Forall₂ SameBox l₁ l₂) (h' : List.Forall₂ SameBox l₂ l₃) :
    List.Forall₂ SameBox l₁ l₃ := by
  induction h generalizing l₃ with
  | nil =>
    cases h'
    exact List.Forall₂.nil
  | cons hab _ ih =>
    cases h' with
    | cons hbc hrest =>
      exact List.Forall₂.cons ⟨hbc.1.trans hab.1, hbc.2.trans hab.2⟩ (ih hrest)

theorem forall₂_sameBox_refl (l : List ConnectivityOctree) : List.Forall₂ SameBox l l := by
  induction l with
  | nil => exact List.Forall₂.nil
  | cons c l ih => exact List.Forall₂.cons ⟨rfl, rfl⟩ ih

theorem eachChild_pathReplicates {d : Data} {cs cs₁ : List ConnectivityOctree}
    (h : EachChild PathReplicates d cs cs₁) :
    List.Forall₂ SameBox cs cs₁ ∧
    ∀ above, AcceptedBy above d → (∀ c ∈ cs, HeldIn above c) →
      (∀ c ∈ cs₁, HeldIn above c) ∧ (∀ c ∈ cs₁, RepIn above c d) ∧
      ∀ x, (∀ c ∈ cs, RepIn above c x) → ∀ c ∈ cs₁, RepIn above c x := by
  refine ⟨List.Forall₂.imp (fun c c' hcc => by obtain ⟨_, hP⟩ := hcc; exact hP.1) h,
    fun above ha hg => ⟨?_, ?_, ?_⟩⟩
  · intro c₁ hc₁
    obtain ⟨c, hc, b, hP⟩ := forall₂_right h c₁ hc₁
    exact (hP.2 above ha (hg c hc)).1
  · intro c₁ hc₁
    obtain ⟨c, hc, b, hP⟩ := forall₂_right h c₁ hc₁
    exact (hP.2 above ha (hg c hc)).2.1
  · intro x hx c₁ hc₁
    obtain ⟨c, hc, b, hP⟩ := forall₂_right h c₁ hc₁
    exact (hP.2 above ha (hg c hc)).2.2 x (hx c hc)

theorem redistributed_pathReplicates {L : List Data} {cs₀ cs₁ : List ConnectivityOctree}
    (h : Redistributed PathReplicates L cs₀ cs₁) :
    List.Forall₂ SameBox cs₀ cs₁ ∧
    ∀ above, (∀ x ∈ L, AcceptedBy above x) → (∀ c ∈ cs₀, HeldIn above c) →
      (∀ c ∈ cs₁, HeldIn above c) ∧ (∀ x ∈ L, ∀ c ∈ cs₁, RepIn above c x) ∧
      ∀ x, (∀ c ∈ cs₀, RepIn above c x) → ∀ c ∈ cs₁, RepIn above c x := by
  induction h with
  | nil cs => exact ⟨forall₂_sameBox_refl cs, fun above _ hg => ⟨hg, by simp, fun x hx => hx⟩⟩
  | @cons d ds cs cs₁ cs₂ hstep _ ih =>
    obtain ⟨hs₁, hrest₁⟩ := eachChild_pathReplicates hstep
    obtain ⟨hs₂, hrest₂⟩ := ih
    refine ⟨forall₂_sameBox_trans hs₁ hs₂, fun above ha hg => ?_⟩
    obtain ⟨hg₁, hd₁, hx₁⟩ := hrest₁ above (ha d (List.mem_cons_self _ _)) hg
    obtain ⟨hg₂, hd₂, hx₂⟩ :=
      hrest₂ above (fun x hx => ha x (List.mem_cons_of_mem _ hx)) hg₁
    refine ⟨hg₂, fun x hx => ?_, fun x hx => hx₂ x (hx₁ x hx)⟩
    rcases List.mem_cons.1 hx with rfl | hx'
    · exact hx₂ x hd₁
    · exact hd₂ x hx'

theorem addPoint_pathReplicates (fuel : Nat) (t : ConnectivityOctree) (i : Int) (p : Vec3)
    (r : Double) (b : Bool) (t' : ConnectivityOctree) (h : addPoint fuel t i p r = some (b, t')) :
    PathReplicates t ⟨i, p, r⟩ b t' := by
  refine addPoint_induct PathReplicates ?_ ?_ ?_ ?_ fuel t i p r b t' h
  · intro t e hacc
    refine ⟨⟨rfl, rfl⟩, fun above _ hh => ⟨hh, fun q hq => ⟨hh q hq e, fun ha => ?_⟩,
      fun x hx => hx⟩⟩
    have hb := ha _ (path_boxes t above q hq).2.1
    obtain ⟨lb, ub, d, s, m, cs, ds⟩ := t
    rw [(accepts_iff lb ub d s m cs ds e).2 hb] at hacc
    exact absurd hacc (by simp)
  · intro lb ub d s m cs ds e cs' hacc hcs hch
    have hcs' := forall₂_ne_nil hch hcs
    rw [accepts_iff] at hacc
    obtain ⟨hs, hrest⟩ := eachChild_pathReplicates hch
    refine ⟨⟨rfl, rfl⟩, fun above ha hh => ?_⟩
    rw [heldIn_node above lb ub d s m cs ds hcs] at hh
    obtain ⟨hg, hd, hx⟩ := hrest ((lb, ub) :: above) ((acceptedBy_cons _ _ _).2 ⟨hacc, ha⟩) hh
    refine ⟨(heldIn_node above lb ub d s m cs' ds hcs').2 hg,
      (repIn_node above lb ub d s m cs' ds hcs' e).2 hd, fun x hrx => ?_⟩
    exact (repIn_node above lb ub d s m cs' ds hcs' x).2
      (hx x ((repIn_node above lb ub d s m cs ds hcs x).1 hrx))
  · intro lb ub d s m ds e hacc _
    rw [accepts_iff] at hacc
    refine ⟨⟨rfl, rfl⟩, fun above ha hh => ?_⟩
    have hae : AcceptedBy ((lb, ub) :: above) e := (acceptedBy_cons _ _ _).2 ⟨hacc, ha⟩
    rw [heldIn_leaf] at hh
    refine ⟨?_, ?_, ?_⟩
    · rw [heldIn_leaf]
      intro x hx
      rcases List.mem_append.1 hx with hx' | hx'
      · exact hh x hx'
      · rw [List.mem_singleton.1 hx']
        exact hae
    · rw [repIn_leaf]
      exact ⟨fun _ => hae, fun _ => by simp⟩
    · intro x hrx
      rw [repIn_leaf] at hrx ⊢
      constructor
      · intro hx
        rcases List.mem_append.1 hx with hx' | hx'
        · exact hrx.1 hx'
        · rw [List.mem_singleton.1 hx']
          exact hae
      · intro hax
        exact List.mem_append_left _ (hrx.2 hax)
  · intro lb ub d s m ds e cs hacc _ _ hred
    rw [accepts_iff] at hacc
    have hne : cs ≠ [] := by
      intro h0
      have := redistributed_length hred
      rw [fresh_length, h0] at this
      simp at this
    obtain ⟨hs, hrest⟩ := redistributed_pathReplicates hred
    refine ⟨⟨rfl, rfl⟩, fun above ha hh => ?_⟩
    have hae : AcceptedBy ((lb, ub) :: above) e := (acceptedBy_cons _ _ _).2 ⟨hacc, ha⟩
    rw [heldIn_leaf] at hh
    have hall : ∀ x ∈ ds ++ [e], AcceptedBy ((lb, ub) :: above) x := by
      intro x hx
      rcases List.mem_append.1 hx with hx' | hx'
      · exact hh x hx'
      · rw [List.mem_singleton.1 hx']
        exact hae
    have hfresh : ∀ c ∈ freshChildren lb ub d s m, HeldIn ((lb, ub) :: above) c := by
      intro c hc
      obtain ⟨lb', ub', rfl⟩ := fresh_shape lb ub d s m c hc
      rw [heldIn_leaf]
      simp
    obtain ⟨hg, hd, hx⟩ := hrest ((lb, ub) :: above) hall hfresh
    refine ⟨(heldIn_node above lb ub d s m cs [] hne).2 hg,
      (repIn_node above lb ub d s m cs [] hne e).2 (hd e (by simp)), fun x hrx => ?_⟩
    rw [repIn_leaf] at hrx
    rw [repIn_node above lb ub d s m cs [] hne]
    by_cases hxd : x ∈ ds
    · exact hd x (List.mem_append_left _ hxd)
    · refine hx x (fun c hc => ?_)
      obtain ⟨lb', ub', rfl⟩ := fresh_shape lb ub d s m c hc
      rw [repIn_leaf]
      refine ⟨fun hmem => by simp at hmem, fun hax => ?_⟩
      exact absurd (hrx.2 ((acceptedBy_cons _ _ _).1 hax).2) hxd

theorem addPoints_pathReplicates (fuel : Nat) :
    ∀ (es : List Data) (t t' : ConnectivityOctree), addPoints fuel t es = some t' →
      HeldIn [] t →
        HeldIn [] t' ∧ (∀ e ∈ es, RepIn [] t' e) ∧ ∀ x, RepIn [] t x → RepIn [] t' x := by
  intro es
  induction es with
  | nil =>
    intro t t' h
    simp only [addPoints, Option.some.injEq] at h
    subst h
    exact fun hh => ⟨hh, by simp, fun x hx => hx⟩
  | cons e es ih =>
    intro t t' h
    unfold addPoints at h
    cases h₁ : addPoint fuel t e.index e.point e.radius with
    | none => simp [h₁] at h
    | some r =>
      obtain ⟨b, t₁⟩ := r
      simp only [h₁] at h
      obtain ⟨_, hrest₁⟩ := addPoint_pathReplicates fuel t _ _ _ b t₁ h₁
      intro hh
      obtain ⟨hh₁, he₁, hx₁⟩ := hrest₁ [] (by simp [AcceptedBy]) hh
      obtain ⟨hh', he', hx'⟩ := ih t₁ t' h hh₁
      refine ⟨hh', fun x hx => ?_, fun x hx => hx' x (hx₁ x hx)⟩
      rcases List.mem_cons.1 hx with rfl | hx
      · exact hx' _ he₁
      · exact he' x hx

theorem accepts_of_boxIn {lb ub : Vec3} {n : ConnectivityOctree} (h : BoxIn lb ub n)
    (e : Data) (ha : accepts n e = true) : acceptsBox lb ub e := by
  obtain ⟨lb', ub', d', s', m', cs', ds'⟩ := n
  rw [accepts_iff] at ha
  simp only [BoxIn, ConnectivityOctree.lowerBound, ConnectivityOctree.upperBound] at h
  obtain ⟨⟨h1, h2⟩, ⟨h3, h4⟩, ⟨h5, h6⟩⟩ := h
  obtain ⟨⟨a1, a2⟩, ⟨a3, a4⟩, ⟨a5, a6⟩⟩ := ha
  exact ⟨⟨fun hc => a1 (Double.dlt_of_le_of_lt h2 hc), fun hc => a2 (Double.dlt_of_lt_of_le hc h1)⟩,
    ⟨fun hc => a3 (Double.dlt_of_le_of_lt h4 hc), fun hc => a4 (Double.dlt_of_lt_of_le hc h3)⟩,
    ⟨fun hc => a5 (Double.dlt_of_le_of_lt h6 hc), fun hc => a6 (Double.dlt_of_lt_of_le hc h5)⟩⟩

theorem boxIn_self (t : ConnectivityOctree) (hl : t.lowerBound.Bounded)
    (hu : t.upperBound.Bounded) : BoxIn t.lowerBound t.upperBound t :=
  ⟨⟨Double.dle_refl hl.1.ne_nan, Double.dle_refl hu.1.ne_nan⟩,
    ⟨Double.dle_refl hl.2.1.ne_nan, Double.dle_refl hu.2.1.ne_nan⟩,
    ⟨Double.dle_refl hl.2.2.ne_nan, Double.dle_refl hu.2.2.ne_nan⟩⟩

theorem BoxIn.trans_box {lb ub : Vec3} {c n : ConnectivityOctree} (h : BoxIn lb ub c)
    (h' : BoxIn c.lowerBound c.upperBound n) : BoxIn lb ub n := by
  obtain ⟨⟨h1, h2⟩, ⟨h3, h4⟩, ⟨h5, h6⟩⟩ := h
  obtain ⟨⟨a1, a2⟩, ⟨a3, a4⟩, ⟨a5, a6⟩⟩ := h'
  exact ⟨⟨Double.dle_trans h1 a1, Double.dle_trans a2 h2⟩,
    ⟨Double.dle_trans h3 a3, Double.dle_trans a4 h4⟩,
    ⟨Double.dle_trans h5 a5, Double.dle_trans a6 h6⟩⟩

theorem BoxIn.of_sameBox {lb ub : Vec3} {c c' : ConnectivityOctree} (h : BoxIn lb ub c)
    (hs : SameBox c c') : BoxIn lb ub c' := by
  unfold BoxIn
  rw [hs.1, hs.2]
  exact h

/-- Each half of an interval with bounded ends lies in the interval, has bounded ends and is
not inverted. -/
theorem half_nested {l u : Double} (hl : l.Bounded) (hu : u.Bounded) (h : l ≤ u) (b : Bool) :
    (l ≤ (if b then 0.5 * (l + u) else l) ∧ (if b then u else 0.5 * (l + u)) ≤ u) ∧
    (if b then 0.5 * (l + u) else l).Bounded ∧ (if b then u else 0.5 * (l + u)).Bounded ∧
    (if b then 0.5 * (l + u) else l) ≤ (if b then u else 0.5 * (l + u)) := by
  obtain ⟨h1, h2, h3⟩ := Double.midpoint_between hl hu h
  cases b
  · exact ⟨⟨Double.dle_refl hl.ne_nan, h2⟩, hl, h3, h1⟩
  · exact ⟨⟨h1, Double.dle_refl hu.ne_nan⟩, h3, hu, h2⟩

theorem fresh_nested (lb ub : Vec3) (d s m : Int) (hl : lb.Bounded) (hu : ub.Bounded)
    (h : Ordered lb ub) :
    ∀ c ∈ freshChildren lb ub d s m, BoxIn lb ub c ∧
      c.lowerBound.Bounded ∧ c.upperBound.Bounded ∧ Ordered c.lowerBound c.upperBound := by
  intro c hc
  obtain ⟨k, _, rfl⟩ := List.mem_map.1 hc
  have hh := updateBoundingBox_header lb ub (d + 1) s m k
  simp only [header, Prod.mk.injEq] at hh
  obtain ⟨h1, h2, _⟩ := hh
  obtain ⟨hx, hy, hz⟩ := h
  obtain ⟨a1, a2, a3, a4⟩ := half_nested hl.1 hu.1 hx (sectorTest k 0)
  obtain ⟨b1, b2, b3, b4⟩ := half_nested hl.2.1 hu.2.1 hy (sectorTest k 1)
  obtain ⟨c1, c2, c3, c4⟩ := half_nested hl.2.2 hu.2.2 hz (sectorTest k 2)
  unfold BoxIn Ordered Vec3.Bounded
  rw [h1, h2]
  exact ⟨⟨a1, b1, c1⟩, ⟨a2, b2, c2⟩, ⟨a3, b3, c3⟩, ⟨a4, b4, c4⟩⟩

theorem nodeBoxes_leaf (lb ub : Vec3) (d s m : Int) (ds : List Data) :
    AllNodes NodeBoxes (.mk lb ub d s m [] ds) := by
  rw [allNodes_leaf]
  exact ⟨by simp [ConnectivityOctree.children], by simp [ConnectivityOctree.children]⟩

theorem nodeBoxes_of_sameBox {lb ub : Vec3} {d s m : Int} {cs cs' : List ConnectivityOctree}
    {ds' : List Data} (hs : List.Forall₂ SameBox cs cs')
    (hc : Covers lb ub cs)
    (hn : lb.Bounded → ub.Bounded → Ordered lb ub → ∀ c ∈ cs, BoxIn lb ub c ∧
      c.lowerBound.Bounded ∧ c.upperBound.Bounded ∧ Ordered c.lowerBound c.upperBound) :
    NodeBoxes (.mk lb ub d s m cs' ds') := by
  refine ⟨fun _ => covers_of_sameBox hs hc, fun hl hu ho c' hc' => ?_⟩
  obtain ⟨c, hcm, hsb⟩ := forall₂_right hs c' hc'
  obtain ⟨g1, g2, g3, g4⟩ := hn hl hu ho c hcm
  refine ⟨g1.of_sameBox hsb, ?_, ?_, ?_⟩
  · rw [hsb.1]
    exact g2
  · rw [hsb.2]
    exact g3
  · rw [hsb.1, hsb.2]
    exact g4

theorem eachChild_keepsBoxes {d : Data} {cs cs₁ : List ConnectivityOctree}
    (h : EachChild KeepsBoxes d cs cs₁) :
    List.Forall₂ SameBox cs cs₁ ∧
    ((∀ c ∈ cs, AllNodes NodeBoxes c) → ∀ c ∈ cs₁, AllNodes NodeBoxes c) := by
  refine ⟨List.Forall₂.imp (fun c c' hcc => by obtain ⟨_, hP⟩ := hcc; exact hP.1) h,
    fun hg c₁ hc₁ => ?_⟩
  obtain ⟨c, hc, b, hP⟩ := forall₂_right h c₁ hc₁
  exact hP.2 (hg c hc)

theorem redistributed_keepsBoxes {L : List Data} {cs₀ cs₁ : List ConnectivityOctree}
    (h : Redistributed KeepsBoxes L cs₀ cs₁) :
    List.Forall₂ SameBox cs₀ cs₁ ∧
    ((∀ c ∈ cs₀, AllNodes NodeBoxes c) → ∀ c ∈ cs₁, AllNodes NodeBoxes c) := by
  induction h with
  | nil cs => exact ⟨forall₂_sameBox_refl cs, fun hg => hg⟩
  | @cons d ds cs cs₁ cs₂ hstep _ ih =>
    obtain ⟨hs₁, hrest₁⟩ := eachChild_keepsBoxes hstep
    obtain ⟨hs₂, hrest₂⟩ := ih
    exact ⟨forall₂_sameBox_trans hs₁ hs₂, fun hg => hrest₂ (hrest₁ hg)⟩

theorem addPoint_keepsBoxes (fuel : Nat) (t : ConnectivityOctree) (i : Int) (p : Vec3)
    (r : Double) (b : Bool) (t' : ConnectivityOctree) (h : addPoint fuel t i p r = some (b, t')) :
    KeepsBoxes t ⟨i, p, r⟩ b t' := by
  refine addPoint_induct KeepsBoxes ?_ ?_ ?_ ?_ fuel t i p r b t' h
  · intro t e _
    exact ⟨⟨rfl, rfl⟩, fun hn => hn⟩
  · intro lb ub d s m cs ds e cs' _ hcs hch
    obtain ⟨hs, hrest⟩ := eachChild_keepsBoxes hch
    refine ⟨⟨rfl, rfl⟩, fun hn => ?_⟩
    rw [allNodes_iff] at hn ⊢
    exact ⟨nodeBoxes_of_sameBox hs (hn.1.1 hcs) hn.1.2, hrest hn.2⟩
  · intro lb ub d s m ds e _ _
    exact ⟨⟨rfl, rfl⟩, fun _ => nodeBoxes_leaf lb ub d s m _⟩
  · intro lb ub d s m ds e cs _ _ _ hred
    obtain ⟨hs, hrest⟩ := redistributed_keepsBoxes hred
    refine ⟨⟨rfl, rfl⟩, fun _ => ?_⟩
    rw [allNodes_iff]
    refine ⟨nodeBoxes_of_sameBox hs (covers_fresh lb ub d s m)
      (fun hl hu ho => fresh_nested lb ub d s m hl hu ho), hrest (fun c hc => ?_)⟩
    obtain ⟨lb', ub', rfl⟩ := fresh_shape lb ub d s m c hc
    exact nodeBoxes_leaf _ _ _ _ _ _

theorem addPoints_keepsBoxes (fuel : Nat) :
    ∀ (es : List Data) (t t' : ConnectivityOctree), addPoints fuel t es = some t' →
      SameBox t t' ∧ (AllNodes NodeBoxes t → AllNodes NodeBoxes t') := by
  intro es
  induction es with
  | nil =>
    intro t t' h
    simp only [addPoints, Option.some.injEq] at h
    subst h
    exact ⟨⟨rfl, rfl⟩, fun hn => hn⟩
  | cons e es ih =>
    intro t t' h
    unfold addPoints at h
    cases h₁ : addPoint fuel t e.index e.point e.radius with
    | none => simp [h₁] at h
    | some r =>
      obtain ⟨b, t₁⟩ := r
      simp only [h₁] at h
      obtain ⟨hs₁, hrest₁⟩ := addPoint_keepsBoxes fuel t _ _ _ b t₁ h₁
      obtain ⟨hs', hrest'⟩ := ih t₁ t' h
      exact ⟨⟨hs'.1.trans hs₁.1, hs'.2.trans hs₁.2⟩, fun hn => hrest' (hrest₁ hn)⟩

mutual
theorem accepting_path (e : Data) (he : 0 ≤ e.radius) :
    ∀ (t : ConnectivityOctree) (above : List (Vec3 × Vec3)), AllNodes NodeBoxes t →
      AcceptedBy above e → accepts t e = true →
      ∃ p ∈ leafPathsFrom above t, AcceptedBy p.1 e
  | .mk lb ub d s m [] ds, above, _, ha, hacc => by
    rw [leafPathsFrom_leaf]
    exact ⟨_, List.mem_singleton.2 rfl,
      (acceptedBy_cons _ _ _).2 ⟨(accepts_iff lb ub d s m [] ds e).1 hacc, ha⟩⟩
  | .mk lb ub d s m (c :: cs) ds, above, h, ha, hacc => by
    rw [leafPathsFrom_node above lb ub d s m (c :: cs) ds (by simp)]
    rw [allNodes_iff] at h
    have hb := (accepts_iff lb ub d s m (c :: cs) ds e).1 hacc
    obtain ⟨c', hc', ha'⟩ := h.1.1 (by simp [ConnectivityOctree.children]) e he hb
    obtain ⟨p, hp, hpa⟩ := accepting_path_list e he (c :: cs) ((lb, ub) :: above) h.2
      ((acceptedBy_cons _ _ _).2 ⟨hb, ha⟩) c' hc' ha'
    exact ⟨p, List.mem_flatMap.2 ⟨c', hc', hp⟩, hpa⟩
theorem accepting_path_list (e : Data) (he : 0 ≤ e.radius) :
    ∀ (cs : List ConnectivityOctree) (above : List (Vec3 × Vec3)),
      (∀ c ∈ cs, AllNodes NodeBoxes c) → AcceptedBy above e →
      ∀ c ∈ cs, accepts c e = true → ∃ p ∈ leafPathsFrom above c, AcceptedBy p.1 e
  | [], _, _, _, c, hc, _ => by simp at hc
  | c₀ :: cs, above, h, ha, c, hc, hacc => by
    rcases List.mem_cons.1 hc with rfl | hc'
    · exact accepting_path e he c above (h c (List.mem_cons_self _ _)) ha hacc
    · exact accepting_path_list e he cs above (fun x hx => h x (List.mem_cons_of_mem _ hx)) ha
        c hc' hacc
end

mutual
theorem nested_paths :
    ∀ (t : ConnectivityOctree) (above : List (Vec3 × Vec3)), AllNodes NodeBoxes t →
      t.lowerBound.Bounded → t.upperBound.Bounded → Ordered t.lowerBound t.upperBound →
      ∀ p ∈ leafPathsFrom above t, BoxIn t.lowerBound t.upperBound p.2 ∧
        ∀ b ∈ p.1, b ∈ above ∨ BoxIn b.1 b.2 p.2
  | .mk lb ub d s m [] ds, above, _, hl, hu, _, p, hp => by
    rw [leafPathsFrom_leaf] at hp
    rw [List.mem_singleton.1 hp]
    have hself := boxIn_self (.mk lb ub d s m [] ds) hl hu
    refine ⟨hself, fun b hb => ?_⟩
    rcases List.mem_cons.1 hb with rfl | hb'
    · exact Or.inr hself
    · exact Or.inl hb'
  | .mk lb ub d s m (c :: cs) ds, above, h, hl, hu, ho, p, hp => by
    rw [leafPathsFrom_node above lb ub d s m (c :: cs) ds (by simp)] at hp
    obtain ⟨c', hc', hp'⟩ := List.mem_flatMap.1 hp
    rw [allNodes_iff] at h
    obtain ⟨g1, g2, g3, g4⟩ := h.1.2 hl hu ho c' hc'
    obtain ⟨k1, k2⟩ := nested_paths_list (c :: cs) ((lb, ub) :: above) h.2 c' hc' g2 g3 g4 p hp'
    have hin : BoxIn lb ub p.2 := g1.trans_box k1
    refine ⟨hin, fun b hb => ?_⟩
    rcases k2 b hb with hb' | hb'
    · rcases List.mem_cons.1 hb' with rfl | hb''
      · exact Or.inr hin
      · exact Or.inl hb''
    · exact Or.inr hb'
theorem nested_paths_list :
    ∀ (cs : List ConnectivityOctree) (above : List (Vec3 × Vec3)),
      (∀ c ∈ cs, AllNodes NodeBoxes c) → ∀ c ∈ cs,
      c.lowerBound.Bounded → c.upperBound.Bounded → Ordered c.lowerBound c.upperBound →
      ∀ p ∈ leafPathsFrom above c, BoxIn c.lowerBound c.upperBound p.2 ∧
        ∀ b ∈ p.1, b ∈ above ∨ BoxIn b.1 b.2 p.2
  | [], _, _, c, hc, _, _, _, _, _ => by simp at hc
  | c₀ :: cs, above, h, c, hc, hl, hu, ho, p, hp => by
    rcases List.mem_cons.1 hc with rfl | hc'
    · exact nested_paths c above (h c (List.mem_cons_self _ _)) hl hu ho p hp
    · exact nested_paths_list cs above (fun x hx => h x (List.mem_cons_of_mem _ hx)) c hc'
        hl hu ho p hp
end

theorem mem_leafNodes_iff (t : ConnectivityOctree) (n : ConnectivityOctree) :
    n ∈ leafNodes t ↔ ∃ p ∈ leafPaths t, p.2 = n := by
  unfold leafPaths
  rw [← leafPathsFrom_snd t []]
  simp [List.mem_map]

/-- The facts about a tree built from a fresh root that the theorems on the replication of
the records rest on. -/
theorem built_replicated (lb ub : Vec3) (depth s m : Int) (es : List Data) (fuel : Nat)
    (hdepth : 0 ≤ depth) (hfuel : 10 ≤ fuel) :
    ∃ t, addPoints fuel (newOctree5 lb ub depth s m) es = some t ∧ callDepth t ≤ fuel ∧
      SameBox (newOctree5 lb ub depth s m) t ∧ AllNodes NodeBoxes t ∧
      (∀ e ∈ es, RepIn [] t e) ∧ ((es.map Data.index).Nodup → NodupLeaves t) := by
  have hcd := le_trans (callDepth_newOctree5 lb ub depth s m hdepth) hfuel
  obtain ⟨t, ht, hk⟩ := addPoints_total fuel es (newOctree5 lb ub depth s m) hcd
  obtain ⟨hs, hbox⟩ := addPoints_keepsBoxes fuel es _ t ht
  have hh : HeldIn [] (newOctree5 lb ub depth s m) := by
    unfold newOctree5
    rw [heldIn_leaf]
    simp
  obtain ⟨_, he', _⟩ := addPoints_pathReplicates fuel es _ t ht hh
  obtain ⟨t₂, ht₂, _, hnd, _⟩ := built_tree lb ub depth s m es fuel hdepth hfuel
  rw [ht] at ht₂
  cases ht₂
  exact ⟨t, ht, le_trans hk hcd, hs, hbox (nodeBoxes_leaf lb ub depth 10 8 []), he', hnd⟩

theorem accepts_iff_box (n : ConnectivityOctree) (e : Data) :
    accepts n e = true ↔ acceptsBox n.lowerBound n.upperBound e := by
  obtain ⟨lb, ub, d, s, m, cs, ds⟩ := n
  exact accepts_iff lb ub d s m cs ds e

/-- C16, as amended. Replication invariant, as the code has it: in the tree reached from a
freshly constructed root by `addPoint` calls with distinct ids, each call returns the result
of the bounding box test against the root box, the test being the one `addPoint` evaluates
in `double` on the computed ends `position - radius` and `position + radius`; an inserted
entity is held by a leaf iff it passes that test at the leaf and at every node above it
(`leafPaths` lists each leaf with its own box and the boxes above it); when the root has
`lower <= upper` on each axis and finite corners of magnitude below `2 ^ 1023`, it is held
by a leaf iff its computed bounding box overlaps that leaf's box; it is held by each such
leaf exactly once; and an accepted entity of non-negative radius is held by at least one
leaf. -/
theorem replication_invariant (lb ub : Vec3) (depth maxStorage maxDepth : Int)
    (es : List Data) (fuel : Nat) (hdepth : 0 ≤ depth)
    (hfuel : 10 ≤ fuel) (hids : (es.map Data.index).Nodup) :
    (∀ pre e post, es = pre ++ e :: post →
      ∃ t₁ t₂, addPoints fuel (newOctree5 lb ub depth maxStorage maxDepth) pre = some t₁ ∧
        addPoint fuel t₁ e.index e.point e.radius
          = some (accepts (newOctree5 lb ub depth maxStorage maxDepth) e, t₂)) ∧
    ∃ t, addPoints fuel (newOctree5 lb ub depth maxStorage maxDepth) es = some t ∧
      (leafPaths t).map Prod.snd = leafNodes t ∧
      (∀ e ∈ es, ∀ p ∈ leafPaths t, (e ∈ p.2.data ↔ ∀ b ∈ p.1, acceptsBox b.1 b.2 e)) ∧
      (Ordered lb ub → lb.Bounded → ub.Bounded →
        ∀ e ∈ es, ∀ n ∈ leafNodes t, (e ∈ n.data ↔ accepts n e = true)) ∧
      (∀ e ∈ es, ∀ n ∈ leafNodes t, e ∈ n.data → n.data.count e = 1) ∧
      (∀ e ∈ es, accepts (newOctree5 lb ub depth maxStorage maxDepth) e = true →
        0 ≤ e.radius → ∃ n ∈ leafNodes t, e ∈ n.data) := by
  constructor
  · intro pre e post _
    obtain ⟨t₁, ht₁, hk, hs, _⟩ :=
      built_replicated lb ub depth maxStorage maxDepth pre fuel hdepth hfuel
    obtain ⟨b, t₂, h₂, _⟩ := addPoint_total fuel t₁ e.index e.point e.radius hk
    have hb : b = accepts t₁ e := (addPoint_retains fuel t₁ _ _ _ b t₂ h₂).1
    rw [hs.accepts e] at hb
    exact ⟨t₁, t₂, ht₁, by rw [h₂, hb]⟩
  · obtain ⟨t, ht, _, hs, hn, hrep, hnd⟩ :=
      built_replicated lb ub depth maxStorage maxDepth es fuel hdepth hfuel
    refine ⟨t, ht, leafPathsFrom_snd t [], hrep, fun ho hl hu e he n hnl => ?_,
      fun e _ n hnl hmem => ?_, fun e he hacc hr => ?_⟩
    · obtain ⟨p, hp, rfl⟩ := (mem_leafNodes_iff t n).1 hnl
      have hlt : t.lowerBound = lb := hs.1
      have hut : t.upperBound = ub := hs.2
      constructor
      · intro hmem
        exact (accepts_iff_box p.2 e).2 ((hrep e he p hp).1 hmem _ (path_boxes t [] p hp).1)
      · intro hacc
        refine (hrep e he p hp).2 (fun b hb => ?_)
        rcases (nested_paths t [] hn (by rw [hlt]; exact hl) (by rw [hut]; exact hu)
          (by rw [hlt, hut]; exact ho) p hp).2 b hb with h0 | hin
        · simp at h0
        · exact accepts_of_boxIn hin e hacc
    · exact List.count_eq_one_of_mem (List.Nodup.of_map _ (hnd hids n hnl)) hmem
    · rw [← hs.accepts e] at hacc
      obtain ⟨p, hp, hpa⟩ := accepting_path e hr t [] hn (by simp [AcceptedBy]) hacc
      exact ⟨p.2, (mem_leafNodes_iff t p.2).2 ⟨p, hp, rfl⟩, (hrep e he p hp).2 hpa⟩

/-- Witness of `replication_invariant`: in the root box `[0,16]³`, ordered and bounded, an
entity of radius `1` at the centre and ten points at `(1,1,1)`; the root and its first child
have split, and the entity is held by the eight leaves whose boxes touch its bounding box
`[7,9]³`. -/
theorem replication_invariant_witness :
    (((⟨0, ⟨8, 8, 8⟩, 1⟩ : Data) :: tenPoints).map Data.index).Nodup ∧
    Ordered ⟨0, 0, 0⟩ ⟨16, 16, 16⟩ ∧ Vec3.Bounded ⟨0, 0, 0⟩ ∧ Vec3.Bounded ⟨16, 16, 16⟩ ∧
    ((∀ pre e post, (⟨0, ⟨8, 8, 8⟩, 1⟩ : Data) :: tenPoints = pre ++ e :: post →
      ∃ t₁ t₂, addPoints 10 (newOctree5 ⟨0, 0, 0⟩ ⟨16, 16, 16⟩ 0 10 8) pre = some t₁ ∧
        addPoint 10 t₁ e.index e.point e.radius
          = some (accepts (newOctree5 ⟨0, 0, 0⟩ ⟨16, 16, 16⟩ 0 10 8) e, t₂)) ∧
    ∃ t, addPoints 10 (newOctree5 ⟨0, 0, 0⟩ ⟨16, 16, 16⟩ 0 10 8)
        ((⟨0, ⟨8, 8, 8⟩, 1⟩ : Data) :: tenPoints) = some t ∧
      (leafPaths t).map Prod.snd = leafNodes t ∧
      (∀ e ∈ (⟨0, ⟨8, 8, 8⟩, 1⟩ : Data) :: tenPoints, ∀ p ∈ leafPaths t,
        (e ∈ p.2.data ↔ ∀ b ∈ p.1, acceptsBox b.1 b.2 e)) ∧
      (Ordered ⟨0, 0, 0⟩ ⟨16, 16, 16⟩ → Vec3.Bounded ⟨0, 0, 0⟩ → Vec3.Bounded ⟨16, 16, 16⟩ →
        ∀ e ∈ (⟨0, ⟨8, 8, 8⟩, 1⟩ : Data) :: tenPoints, ∀ n ∈ leafNodes t,
          (e ∈ n.data ↔ accepts n e = true)) ∧
      (∀ e ∈ (⟨0, ⟨8, 8, 8⟩, 1⟩ : Data) :: tenPoints, ∀ n ∈ leafNodes t,
        e ∈ n.data → n.data.count e = 1) ∧
      (∀ e ∈ (⟨0, ⟨8, 8, 8⟩, 1⟩ : Data) :: tenPoints,
        accepts (newOctree5 ⟨0, 0, 0⟩ ⟨16, 16, 16⟩ 0 10 8) e = true →
        0 ≤ e.radius → ∃ n ∈ leafNodes t, e ∈ n.data)) ∧
    (addPoints 10 (newOctree5 ⟨0, 0, 0⟩ ⟨16, 16, 16⟩ 0 10 8)
        ((⟨0, ⟨8, 8, 8⟩, 1⟩ : Data) :: tenPoints)).map
      (fun t => (leafPaths t).map fun p => (p.1.length, p.2.data.map Data.index))
      = some [(3, [1, 2, 3, 4, 5, 6, 7, 8, 9, 10]), (3, []), (3, []), (3, []), (3, []),
          (3, []), (3, []), (3, [0]), (2, [0]), (2, [0]), (2, [0]), (2, [0]), (2, [0]),
          (2, [0]), (2, [0])] :=
  ⟨by decide, by decide!, by decide!, by decide!,
    replication_invariant ⟨0, 0, 0⟩ ⟨16, 16, 16⟩ 0 10 8 (⟨0, ⟨8, 8, 8⟩, 1⟩ :: tenPoints) 10
      (le_refl 0) (le_refl 10) (by decide),
    by decide!⟩

/-- C16, counterexample. In the root box `[0,2]³` the entities of `roundedEdge` have
distinct ids, binary64 centres and non-negative radii. Entity `0`, at `x = 1 + 2⁻⁵²` with
radius `2⁻⁵³`, is accepted; after the ten later insertions the root has split at `x = 1`,
and the first leaf, whose box ends at `x = 1`, holds entity `0` although the exact bounding
box `[position - radius, position + radius]` starts at `x = 1 + 2⁻⁵³ > 1` and does not
overlap that box: the difference `position - radius` computed in `double` is `1`. -/
theorem held_without_exact_overlap :
    (roundedEdge.map Data.index).Nodup ∧
    Ordered ⟨0, 0, 0⟩ ⟨2, 2, 2⟩ ∧ Vec3.Bounded ⟨0, 0, 0⟩ ∧ Vec3.Bounded ⟨2, 2, 2⟩ ∧
    (∀ e ∈ roundedEdge, e.point.IsDouble ∧ e.radius.IsDouble ∧ 0 ≤ e.radius) ∧
    (addPoint 10 (newOctree ⟨0, 0, 0⟩ ⟨2, 2, 2⟩) 0 ⟨.finite (1 + 1 / 2 ^ 52), 0.5, 0.5⟩
        (.finite (1 / 2 ^ 53))).map Prod.fst = some true ∧
    (addPoints 10 (newOctree ⟨0, 0, 0⟩ ⟨2, 2, 2⟩) roundedEdge).map
      (fun t => (leafNodes t).map fun n => (n.upperBound.x, n.data.map Data.index))
      = some [(1, [0]), (2, [0]), (1, []), (2, []), (1, []), (2, []),
          (1, [1, 2, 3, 4, 5, 6, 7, 8, 9, 10]), (2, [])] ∧
    (1 : Double).toRat
      < (Double.finite (1 + 1 / 2 ^ 52)).toRat - (Double.finite (1 / 2 ^ 53)).toRat ∧
    Double.finite (1 + 1 / 2 ^ 52) - Double.finite (1 / 2 ^ 53) = 1 := by
  decide!

/-! ## Completeness of the query at tolerance `0` -/

theorem Double.sub_le_self_of {p r : Double} (hp : p.IsFinite) (hr : 0 ≤ r) : p - r ≤ p := by
  rw [Double.zero_le_iff] at hr
  cases p <;> try exact False.elim hp
  rename_i a
  have ha : Double.round a = Double.finite a := hp
  rw [Double.sub_def]
  rcases hr with rfl | ⟨c, rfl, hc⟩
  · simp [Double.add, Double.neg, Double.le_iff_ble, Double.ble]
  · show Double.round (a + -c) ≤ Double.finite a
    rw [← ha]
    exact Double.round_mono (by linarith)

theorem Double.le_add_self_of {p r : Double} (hp : p.IsFinite) (hr : 0 ≤ r) : p ≤ p + r := by
  rw [Double.zero_le_iff] at hr
  cases p <;> try exact False.elim hp
  rename_i a
  have ha : Double.round a = Double.finite a := hp
  rw [Double.add_def]
  rcases hr with rfl | ⟨c, rfl, hc⟩
  · simp [Double.add, Double.le_iff_ble, Double.ble]
  · show Double.finite a ≤ Double.round (a + c)
    rw [← ha]
    exact Double.round_mono (by linarith)

/-- On one axis: two computed bounding intervals that overlap, around centres that lie in
the interval `[l, u]`, have a common value in `[l, u]`. -/
theorem common_value {pa ra pb rb l u : Double} (hpa : pa.IsFinite) (hpb : pb.IsFinite)
    (hra : 0 ≤ ra) (hrb : 0 ≤ rb) (hla : l ≤ pa) (hau : pa ≤ u) (hlb : l ≤ pb) (hbu : pb ≤ u)
    (h1 : ¬ pa + ra < pb - rb) (h2 : ¬ pb + rb < pa - ra) :
    ∃ q : Double, q.IsDouble ∧ (l ≤ q ∧ q ≤ u) ∧ (pa - ra ≤ q ∧ q ≤ pa + ra) ∧
      (pb - rb ≤ q ∧ q ≤ pb + rb) := by
  have a1 := Double.sub_le_self_of hpa hra
  have a2 := Double.le_add_self_of hpa hra
  have b1 := Double.sub_le_self_of hpb hrb
  have b2 := Double.le_add_self_of hpb hrb
  have n1 := (Double.ne_nan_of_le a1).1
  have n2 := (Double.ne_nan_of_le a2).2
  have n3 := (Double.ne_nan_of_le b1).1
  have n4 := (Double.ne_nan_of_le b2).2
  by_cases c1 : pb - rb ≤ pa
  · by_cases c2 : pa ≤ pb + rb
    · exact ⟨pa, hpa.toIsDouble, ⟨hla, hau⟩, ⟨a1, a2⟩, ⟨c1, c2⟩⟩
    · have c3 := Double.dlt_of_not_le hpa.not_nan n4 c2
      exact ⟨pb + rb, Double.isDouble_add _ _,
        ⟨Double.dle_trans hlb b2, Double.dle_trans (Double.dle_of_lt c3) hau⟩,
        ⟨Double.dle_of_not_lt n1 n4 h2, Double.dle_trans (Double.dle_of_lt c3) a2⟩,
        ⟨Double.dle_trans b1 b2, Double.dle_refl n4⟩⟩
  · have c3 := Double.dlt_of_not_le n3 hpa.not_nan c1
    exact ⟨pb - rb, Double.isDouble_sub _ _,
      ⟨Double.dle_trans hla (Double.dle_of_lt c3), Double.dle_trans b1 hbu⟩,
      ⟨Double.dle_trans a1 (Double.dle_of_lt c3), Double.dle_of_not_lt n3 n2 h1⟩,
      ⟨Double.dle_refl n3, Double.dle_trans b1 b2⟩⟩

/-- A common point of the two computed bounding boxes that lies in the root box. -/
theorem common_point {lb ub : Vec3} {a b : Data} (hpa : a.point.IsFinite)
    (hpb : b.point.IsFinite) (hra : 0 ≤ a.radius) (hrb : 0 ≤ b.radius)
    (hia : Inside lb ub a.point) (hib : Inside lb ub b.point) (hmeet : BoxesMeet a b) :
    ∃ q : Vec3, q.IsDouble ∧ Inside lb ub q ∧ InBox a q ∧ InBox b q := by
  obtain ⟨⟨x1, x2⟩, ⟨y1, y2⟩, ⟨z1, z2⟩⟩ := hia
  obtain ⟨⟨x3, x4⟩, ⟨y3, y4⟩, ⟨z3, z4⟩⟩ := hib
  obtain ⟨⟨mx1, mx2⟩, ⟨my1, my2⟩, ⟨mz1, mz2⟩⟩ := hmeet
  obtain ⟨qx, dx, rx, ax, bx⟩ := common_value hpa.1 hpb.1 hra hrb x1 x2 x3 x4 mx1 mx2
  obtain ⟨qy, dy, ry, ay, cy⟩ := common_value hpa.2.1 hpb.2.1 hra hrb y1 y2 y3 y4 my1 my2
  obtain ⟨qz, dz, rz, az, bz⟩ := common_value hpa.2.2 hpb.2.2 hra hrb z1 z2 z3 z4 mz1 mz2
  exact ⟨⟨qx, qy, qz⟩, ⟨dx, dy, dz⟩, ⟨rx, ry, rz⟩, ⟨ax, ay, az⟩, ⟨bx, cy, bz⟩⟩

/-- A box that passes the bounding box test for a point passes it for every record whose
computed bounding box contains the point. -/
theorem acceptsBox_of_inBox {lb ub : Vec3} {q : Vec3} {e : Data} (hq : q.IsDouble)
    (h : acceptsBox lb ub ⟨0, q, 0⟩) (he : InBox e q) : acceptsBox lb ub e := by
  obtain ⟨⟨h1, h2⟩, ⟨h3, h4⟩, ⟨h5, h6⟩⟩ := h
  obtain ⟨⟨e1, e2⟩, ⟨e3, e4⟩, ⟨e5, e6⟩⟩ := he
  simp only [Double.sub_zero_eq hq.1, Double.add_zero_eq hq.1, Double.sub_zero_eq hq.2.1,
    Double.add_zero_eq hq.2.1, Double.sub_zero_eq hq.2.2, Double.add_zero_eq hq.2.2,
    gt_iff_lt] at h1 h2 h3 h4 h5 h6
  exact ⟨⟨fun hc => h1 (Double.dlt_of_lt_of_le hc e1), fun hc => h2 (Double.dlt_of_le_of_lt e2 hc)⟩,
    ⟨fun hc => h3 (Double.dlt_of_lt_of_le hc e3), fun hc => h4 (Double.dlt_of_le_of_lt e4 hc)⟩,
    ⟨fun hc => h5 (Double.dlt_of_lt_of_le hc e5), fun hc => h6 (Double.dlt_of_le_of_lt e6 hc)⟩⟩

/-- A point that passes the bounding box test of a box whose corners are numbers lies in
the box. -/
theorem inside_of_acceptsBox {lb ub : Vec3} {q : Vec3} (hq : q.IsDouble)
    (hl : lb.x ≠ Double.nan ∧ lb.y ≠ Double.nan ∧ lb.z ≠ Double.nan)
    (hu : ub.x ≠ Double.nan ∧ ub.y ≠ Double.nan ∧ ub.z ≠ Double.nan)
    (hn : q.x ≠ Double.nan ∧ q.y ≠ Double.nan ∧ q.z ≠ Double.nan)
    (h : acceptsBox lb ub ⟨0, q, 0⟩) : Inside lb ub q := by
  obtain ⟨⟨h1, h2⟩, ⟨h3, h4⟩, ⟨h5, h6⟩⟩ := h
  simp only [Double.sub_zero_eq hq.1, Double.add_zero_eq hq.1, Double.sub_zero_eq hq.2.1,
    Double.add_zero_eq hq.2.1, Double.sub_zero_eq hq.2.2, Double.add_zero_eq hq.2.2,
    gt_iff_lt] at h1 h2 h3 h4 h5 h6
  exact ⟨⟨Double.dle_of_not_lt hl.1 hn.1 h2, Double.dle_of_not_lt hn.1 hu.1 h1⟩,
    ⟨Double.dle_of_not_lt hl.2.1 hn.2.1 h4, Double.dle_of_not_lt hn.2.1 hu.2.1 h3⟩,
    ⟨Double.dle_of_not_lt hl.2.2 hn.2.2 h6, Double.dle_of_not_lt hn.2.2 hu.2.2 h5⟩⟩

theorem boxIn_ne_nan {lb ub : Vec3} {n : ConnectivityOctree} (h : BoxIn lb ub n) :
    (n.lowerBound.x ≠ Double.nan ∧ n.lowerBound.y ≠ Double.nan ∧
      n.lowerBound.z ≠ Double.nan) ∧
    (n.upperBound.x ≠ Double.nan ∧ n.upperBound.y ≠ Double.nan ∧
      n.upperBound.z ≠ Double.nan) := by
  obtain ⟨⟨h1, h2⟩, ⟨h3, h4⟩, ⟨h5, h6⟩⟩ := h
  exact ⟨⟨(Double.ne_nan_of_le h1).2, (Double.ne_nan_of_le h3).2, (Double.ne_nan_of_le h5).2⟩,
    ⟨(Double.ne_nan_of_le h2).1, (Double.ne_nan_of_le h4).1, (Double.ne_nan_of_le h6).1⟩⟩

theorem sqBond_zero (a b : Data) :
    sqBond 0 a b = (a.radius + b.radius) * (a.radius + b.radius) := by
  unfold sqBond
  rw [Double.add_zero_eq (Double.isDouble_add _ _)]

/-- C17, as amended. With tolerance `0` the query is complete for the pairs that pass the
test of the code and whose computed bounding boxes meet: for every root box and every
sequence of entities with non-negative radii and finite binary64 centres inside the root box
(with distinct ids or not), the build returns a tree and, for two of the entities `a` and
`b` such that the squared centre distance computed in `double` is at most the square
computed in `double` of `r_a + r_b` and the bounding boxes that `addPoint` computes for `a`
and `b` overlap on each axis, `findCollisions` with tolerance `0` on an empty map records
`b` in `map[a]`, because some leaf holds both entities; when the corners of the root box
are finite of magnitude below `2 ^ 1023`, the box of that leaf contains a point common to
both computed bounding boxes. -/
theorem findCollisions_complete_at_zero (lb ub : Vec3) (depth maxStorage maxDepth : Int)
    (es : List Data) (fuel : Nat) (a b : Data) (hdepth : 0 ≤ depth) (hfuel : 10 ≤ fuel)
    (hradius : ∀ e ∈ es, 0 ≤ e.radius)
    (hinside : ∀ e ∈ es, e.point.IsFinite ∧ Inside lb ub e.point)
    (ha : a ∈ es) (hb : b ∈ es) (hab : a ≠ b)
    (hclose : sqDist a b ≤ (a.radius + b.radius) * (a.radius + b.radius))
    (hmeet : BoxesMeet a b) :
    ∃ t, addPoints fuel (newOctree5 lb ub depth maxStorage maxDepth) es = some t ∧
      (∃ s, mapFind (findCollisions t [] 0) a.index = some s ∧ b.index ∈ s) ∧
      ∃ n ∈ leafNodes t, a ∈ n.data ∧ b ∈ n.data ∧
        (lb.Bounded → ub.Bounded →
          ∃ q, Inside n.lowerBound n.upperBound q ∧ InBox a q ∧ InBox b q) := by
  obtain ⟨t, ht, _, hs, hn, hrep, _⟩ :=
    built_replicated lb ub depth maxStorage maxDepth es fuel hdepth hfuel
  obtain ⟨q, hqd, hqin, hqa, hqb⟩ := common_point (hinside a ha).1 (hinside b hb).1
    (hradius a ha) (hradius b hb) (hinside a ha).2 (hinside b hb).2 hmeet
  have hzero : (0 : Double) ≤ 0 := by decide!
  have hroot : accepts t ⟨0, q, 0⟩ = true := by
    rw [hs.accepts]
    exact (accepts_iff lb ub depth 10 8 [] [] _).2
      (acceptsBox_of_inside (e := ⟨0, q, 0⟩) hqd hzero hqin)
  obtain ⟨p, hp, hpq⟩ := accepting_path ⟨0, q, 0⟩ hzero t [] hn (by simp [AcceptedBy]) hroot
  have hnl : p.2 ∈ leafNodes t := (mem_leafNodes_iff t p.2).2 ⟨p, hp, rfl⟩
  have han : a ∈ p.2.data :=
    (hrep a ha p hp).2 (fun x hx => acceptsBox_of_inBox hqd (hpq x hx) hqa)
  have hbn : b ∈ p.2.data :=
    (hrep b hb p hp).2 (fun x hx => acceptsBox_of_inBox hqd (hpq x hx) hqb)
  refine ⟨t, ht, ?_, p.2, hnl, han, hbn, fun hl hu => ⟨q, ?_, hqa, hqb⟩⟩
  · refine (bonded_findCollisions t 0 a.index b.index).2
      ⟨p.2, hnl, a, b, pairIn_of_mem han hbn hab, ?_, rfl, rfl⟩
    rw [sqBond_zero]
    exact hclose
  · have hlt : t.lowerBound = lb := hs.1
    have hut : t.upperBound = ub := hs.2
    obtain ⟨⟨x1, x2⟩, ⟨y1, y2⟩, ⟨z1, z2⟩⟩ := hqin
    have ho : Ordered lb ub :=
      ⟨Double.dle_trans x1 x2, Double.dle_trans y1 y2, Double.dle_trans z1 z2⟩
    have hin := (nested_paths t [] hn (by rw [hlt]; exact hl) (by rw [hut]; exact hu)
      (by rw [hlt, hut]; exact ho) p hp).1
    obtain ⟨nl, nu⟩ := boxIn_ne_nan hin
    exact inside_of_acceptsBox hqd nl nu
      ⟨(Double.ne_nan_of_le x1).2, (Double.ne_nan_of_le y1).2, (Double.ne_nan_of_le z1).2⟩
      (hpq _ (path_boxes t [] p hp).1)

/-- Witness of `findCollisions_complete_at_zero`: two touching spheres of radius `0.5` in the
root box `[0,4]³`. -/
theorem findCollisions_complete_at_zero_witness :
    sqDist ⟨0, ⟨1, 1, 1⟩, 0.5⟩ ⟨1, ⟨2, 1, 1⟩, 0.5⟩
      ≤ ((0.5 : Double) + 0.5) * ((0.5 : Double) + 0.5) ∧
    BoxesMeet ⟨0, ⟨1, 1, 1⟩, 0.5⟩ ⟨1, ⟨2, 1, 1⟩, 0.5⟩ ∧
    Vec3.Bounded ⟨0, 0, 0⟩ ∧ Vec3.Bounded ⟨4, 4, 4⟩ ∧
    (∃ t, addPoints 10 (newOctree5 ⟨0, 0, 0⟩ ⟨4, 4, 4⟩ 0 10 8)
        [⟨0, ⟨1, 1, 1⟩, 0.5⟩, ⟨1, ⟨2, 1, 1⟩, 0.5⟩] = some t ∧
      (∃ s, mapFind (findCollisions t [] 0) (0 : Int) = some s ∧ (1 : Int) ∈ s) ∧
      ∃ n ∈ leafNodes t, (⟨0, ⟨1, 1, 1⟩, 0.5⟩ : Data) ∈ n.data ∧
        (⟨1, ⟨2, 1, 1⟩, 0.5⟩ : Data) ∈ n.data ∧
        (Vec3.Bounded ⟨0, 0, 0⟩ → Vec3.Bounded ⟨4, 4, 4⟩ →
          ∃ q, Inside n.lowerBound n.upperBound q ∧ InBox ⟨0, ⟨1, 1, 1⟩, 0.5⟩ q ∧
            InBox ⟨1, ⟨2, 1, 1⟩, 0.5⟩ q)) ∧
    (addPoints 10 (newOctree5 ⟨0, 0, 0⟩ ⟨4, 4, 4⟩ 0 10 8)
        [⟨0, ⟨1, 1, 1⟩, 0.5⟩, ⟨1, ⟨2, 1, 1⟩, 0.5⟩]).map
      (fun t => findCollisions t [] 0) = some [(0, [1]), (1, [0])] :=
  ⟨by decide!, by decide!, by decide!, by decide!,
    findCollisions_complete_at_zero ⟨0, 0, 0⟩ ⟨4, 4, 4⟩ 0 10 8
      [⟨0, ⟨1, 1, 1⟩, 0.5⟩, ⟨1, ⟨2, 1, 1⟩, 0.5⟩] 10 ⟨0, ⟨1, 1, 1⟩, 0.5⟩
      ⟨1, ⟨2, 1, 1⟩, 0.5⟩ (le_refl 0) (le_refl 10) (by decide!)
      (by decide!) (by simp) (by simp) (by decide) (by decide!) (by decide!),
    by decide!⟩

/-- Counterexamples to C17 as stated, in the root box `[-2,2]³` with tolerance `0`; all
entities have distinct ids, non-negative radii and finite binary64 centres inside the root
box. (1) `roundedTouch`: the exact squared distance `1 + 2⁻⁵²` of entities `0` and `1` is at
most the exact `(r_a + r_b)² = (1 + 2⁻⁵³)²`, and one leaf holds both, but the sum of the
radii computed in `double` is `1`, the test of the code fails and neither entity is recorded
for the other. (2) `splitApart`: the test of the code passes for entities `0` and `1`, the
distance and the sum of the radii computed in `double` being both `1`; their computed
bounding boxes do not meet, the split of the root at `x = 0` puts them into different
leaves, and neither is recorded for the other. -/
theorem findCollisions_incomplete_at_zero :
    ((roundedTouch.map Data.index).Nodup ∧
      (∀ e ∈ roundedTouch,
        0 ≤ e.radius ∧ e.point.IsFinite ∧ Inside ⟨-2, -2, -2⟩ ⟨2, 2, 2⟩ e.point) ∧
      exactSqDist ⟨0, ⟨0, 0, 0⟩, 1⟩ ⟨1, ⟨1, .finite (1 / 2 ^ 26), 0⟩, .finite (1 / 2 ^ 53)⟩
        ≤ exactBond 0 ⟨0, ⟨0, 0, 0⟩, 1⟩
            ⟨1, ⟨1, .finite (1 / 2 ^ 26), 0⟩, .finite (1 / 2 ^ 53)⟩ ^ 2 ∧
      (addPoints 10 (newOctree ⟨-2, -2, -2⟩ ⟨2, 2, 2⟩) roundedTouch).map
        (fun t => (findCollisions t [] 0, (leafNodes t).map fun n => n.data.map Data.index))
        = some ([(0, []), (1, [])], [[0, 1]])) ∧
    ((splitApart.map Data.index).Nodup ∧
      (∀ e ∈ splitApart,
        0 ≤ e.radius ∧ e.point.IsFinite ∧ Inside ⟨-2, -2, -2⟩ ⟨2, 2, 2⟩ e.point) ∧
      sqDist ⟨0, ⟨.finite (-(1 / 2 ^ 54 + 1 / 2 ^ 60)), 1, 1⟩, .finite (1 / 2 ^ 54)⟩
          ⟨1, ⟨1, 1, 1⟩, .finite (1 - 1 / 2 ^ 53)⟩
        ≤ sqBond 0 ⟨0, ⟨.finite (-(1 / 2 ^ 54 + 1 / 2 ^ 60)), 1, 1⟩, .finite (1 / 2 ^ 54)⟩
            ⟨1, ⟨1, 1, 1⟩, .finite (1 - 1 / 2 ^ 53)⟩ ∧
      ¬ BoxesMeet ⟨0, ⟨.finite (-(1 / 2 ^ 54 + 1 / 2 ^ 60)), 1, 1⟩, .finite (1 / 2 ^ 54)⟩
          ⟨1, ⟨1, 1, 1⟩, .finite (1 - 1 / 2 ^ 53)⟩ ∧
      (addPoints 10 (newOctree ⟨-2, -2, -2⟩ ⟨2, 2, 2⟩) splitApart).map
        (fun t => (mapFind (findCollisions t [] 0) 0, mapFind (findCollisions t [] 0) 1,
          (leafNodes t).map fun n => n.data.map Data.index))
        = some (some [], some [],
            [[2, 3, 4, 5, 6, 7, 8, 9, 10], [], [], [], [], [], [0], [1]])) := by
  decide!

end Geometry
